import Mathlib

/-!
Red-black tree with an arena of nodes (`Project1/RB.h`).

The tree of `RB.h` keeps its nodes in `node_arena` and links them with raw
pointers.  Here a pointer is `Option Nat`: `none` is `nullptr`, `some i` is the
address of the `i`-th node of the arena.  Every read or write through a pointer
that is null or dangling makes the operation return `none`; so does a loop or
a recursion that runs out of fuel.  Payload comparisons `==` and `<` are the
equality and the strict order of a linear order on the payload type.
-/

namespace RB

/-- Balance color of a node (`enum RBColor`). -/
inductive RBColor where
  | RED
  | BLACK
  deriving DecidableEq

/-- What a node of the given color adds to a count of BLACK nodes. -/
def RBColor.weight : RBColor → Nat
  | .RED => 0
  | .BLACK => 1

/-- One node of the arena (`class RBNode`): payload, color and three links. -/
structure RBNode (T : Type) where
  payload : T
  color : RBColor
  child_l : Option Nat
  child_r : Option Nat
  parent : Option Nat
  deriving DecidableEq

/-- The container (`class RBTree`): the arena and the root pointer. -/
structure RBTree (T : Type) where
  node_arena : List (RBNode T)
  root : Option Nat
  deriving DecidableEq

/-- The tree a default-constructed `RBTree` holds: no node, null root. -/
def RBTree.empty {T : Type} : RBTree T := ⟨[], none⟩

/-- Ghost record of what `fixup_tree` did: a recursive call on the grandparent,
or a call of a rotation on a node together with whether the child the rotation
promotes was present when it was called. -/
inductive Event where
  | recurse (grandparent : Nat)
  | rotate_left (node : Nat) (child_present : Bool)
  | rotate_right (node : Nat) (child_present : Bool)
  deriving DecidableEq

section Memory
variable {T : Type}

/-- Read through a pointer: `*p`. -/
def RBTree.get (t : RBTree T) (p : Nat) : Option (RBNode T) := t.node_arena[p]?

/-- Overwrite the node stored at address `p`. -/
def RBTree.put (t : RBTree T) (p : Nat) (n : RBNode T) : RBTree T :=
  { t with node_arena := t.node_arena.set p n }

/-- Append a node to the arena (`node_arena.push_back`); its address is the old length. -/
def RBTree.push (t : RBTree T) (n : RBNode T) : RBTree T :=
  { t with node_arena := t.node_arena ++ [n] }

/-- The assignment `p->color = c`. -/
def RBTree.set_color (t : RBTree T) (p : Nat) (c : RBColor) : Option (RBTree T) :=
  (t.get p).map fun n => t.put p { n with color := c }

/-- The assignment `p->child_l = q`. -/
def RBTree.set_child_l (t : RBTree T) (p : Nat) (q : Option Nat) : Option (RBTree T) :=
  (t.get p).map fun n => t.put p { n with child_l := q }

/-- The assignment `p->child_r = q`. -/
def RBTree.set_child_r (t : RBTree T) (p : Nat) (q : Option Nat) : Option (RBTree T) :=
  (t.get p).map fun n => t.put p { n with child_r := q }

/-- The assignment `p->parent = q`. -/
def RBTree.set_parent (t : RBTree T) (p : Nat) (q : Option Nat) : Option (RBTree T) :=
  (t.get p).map fun n => t.put p { n with parent := q }

/-- The assignment `this->root = q`. -/
def RBTree.set_root (t : RBTree T) (q : Option Nat) : RBTree T :=
  { t with root := q }

/-- Body of `RBTree::rotate_right` (RB.h 59-90). -/
def rotate_right (t : RBTree T) (node : Nat) : Option (RBTree T) := do
  let n ← t.get node
  match n.child_l with
  | none => pure t
  | some cl =>
    -- node->child_l = cl->child_r
    let c ← t.get cl
    let t ← t.set_child_l node c.child_r
    -- if( node->child_l != nullptr ) node->child_l->parent = node
    let n ← t.get node
    let t ← match n.child_l with
      | none => pure t
      | some x => t.set_parent x (some node)
    -- cl->parent = node->parent
    let n ← t.get node
    let t ← t.set_parent cl n.parent
    let n ← t.get node
    let t ← match n.parent with
      | none => pure (t.set_root (some cl))
      | some p => do
        let pn ← t.get p
        if pn.child_l = some node then t.set_child_l p (some cl)
        else t.set_child_r p (some cl)
    -- node->parent = cl; cl->child_r = node
    let t ← t.set_parent node (some cl)
    t.set_child_r cl (some node)

/-- Body of `RBTree::rotate_left` (RB.h 91-122). -/
def rotate_left (t : RBTree T) (node : Nat) : Option (RBTree T) := do
  let n ← t.get node
  match n.child_r with
  | none => pure t
  | some cr =>
    -- node->child_r = cr->child_l
    let c ← t.get cr
    let t ← t.set_child_r node c.child_l
    -- if( node->child_r != nullptr ) node->child_r->parent = node
    let n ← t.get node
    let t ← match n.child_r with
      | none => pure t
      | some x => t.set_parent x (some node)
    -- cr->parent = node->parent
    let n ← t.get node
    let t ← t.set_parent cr n.parent
    let n ← t.get node
    let t ← match n.parent with
      | none => pure (t.set_root (some cr))
      | some p => do
        let pn ← t.get p
        if pn.child_r = some node then t.set_child_r p (some cr)
        else t.set_child_l p (some cr)
    -- node->parent = cr; cr->child_l = node
    let t ← t.set_parent node (some cr)
    t.set_child_l cr (some node)

/-- Whether the pointer is non-null and the node it points to is RED:
`uncle != nullptr && uncle->color == RBColor::RED`. -/
def is_red (t : RBTree T) (p : Option Nat) : Option Bool :=
  match p with
  | none => some false
  | some u => (t.get u).map fun n => decide (n.color = RBColor.RED)

/-- The last block of `RBTree::fixup_tree` (RB.h 160-189), reached when the
uncle is not RED: rotate to a line if need be, rotate at the grandparent,
recolor.  Returns the tree and the ghost record of the rotations called. -/
def fixup_rotate (t : RBTree T) (node parent grandparent : Nat)
    (is_left parent_is_left : Bool) : Option (RBTree T × List Event) :=
  if parent_is_left then
    if !is_left then do
      let pn ← t.get parent
      let t1 ← rotate_left t parent
      -- swap( node, parent ): the old node is the parent from here on
      let gn ← t1.get grandparent
      let t2 ← rotate_right t1 grandparent
      let t3 ← t2.set_color node RBColor.BLACK
      let t4 ← t3.set_color grandparent RBColor.RED
      pure (t4, [Event.rotate_left parent pn.child_r.isSome,
                 Event.rotate_right grandparent gn.child_l.isSome])
    else do
      let gn ← t.get grandparent
      let t2 ← rotate_right t grandparent
      let t3 ← t2.set_color parent RBColor.BLACK
      let t4 ← t3.set_color grandparent RBColor.RED
      pure (t4, [Event.rotate_right grandparent gn.child_l.isSome])
  else
    if is_left then do
      let pn ← t.get parent
      let t1 ← rotate_right t parent
      -- swap( node, parent ): the old node is the parent from here on
      let gn ← t1.get grandparent
      let t2 ← rotate_left t1 grandparent
      let t3 ← t2.set_color node RBColor.BLACK
      let t4 ← t3.set_color grandparent RBColor.RED
      pure (t4, [Event.rotate_right parent pn.child_l.isSome,
                 Event.rotate_left grandparent gn.child_r.isSome])
    else do
      let gn ← t.get grandparent
      let t2 ← rotate_left t grandparent
      let t3 ← t2.set_color parent RBColor.BLACK
      let t4 ← t3.set_color grandparent RBColor.RED
      pure (t4, [Event.rotate_left grandparent gn.child_r.isSome])

/-- Body of `RBTree::fixup_tree` (RB.h 124-191), its last block being
`fixup_rotate`.  The first argument bounds the depth of the recursion; the
second component of the result is the ghost record of the recursive calls and
rotations made, in order. -/
def fixup_tree (t : RBTree T) : Nat → Nat → Option (RBTree T × List Event)
  | 0, _ => none
  | fuel + 1, node =>
    (t.get node).bind fun n =>
    match n.parent with
    | none =>
      -- we are the root
      (t.set_color node RBColor.BLACK).map fun t => (t, [])
    | some parent =>
      (t.get parent).bind fun pn =>
      let is_left : Bool := decide (pn.child_l = some node)
      if pn.color = RBColor.BLACK then some (t, [])
      else
        -- grandparent = node->parent->parent, dereferenced right below
        pn.parent.bind fun grandparent =>
        (t.get grandparent).bind fun gn =>
        let parent_is_left : Bool := decide (gn.child_l = some parent)
        let uncle : Option Nat := if parent_is_left then gn.child_r else gn.child_l
        (is_red t uncle).bind fun uncle_red =>
        if uncle_red then
          (t.set_color grandparent RBColor.RED).bind fun t =>
          uncle.bind fun u =>
          (t.set_color u RBColor.BLACK).bind fun t =>
          (t.set_color parent RBColor.BLACK).bind fun t =>
          (fixup_tree t fuel grandparent).map fun r =>
            (r.1, Event.recurse grandparent :: r.2)
        else fixup_rotate t node parent grandparent is_left parent_is_left

/-- Body of the loop of `RBTree::search` (RB.h 197-207): `eqK` and `ltK` are the
payload's `operator==` and `operator<` against a key. -/
def search_loop {K : Type} (eqK ltK : T → K → Bool) (t : RBTree T) (key : K) :
    Nat → Option Nat → Option (Option T)
  | _, none => some none
  | 0, some _ => none
  | fuel + 1, some n => do
    let nd ← t.get n
    if eqK nd.payload key then pure (some nd.payload)
    else if ltK nd.payload key then search_loop eqK ltK t key fuel nd.child_r
    else search_loop eqK ltK t key fuel nd.child_l

/-- The method `RBTree::search` (RB.h 194-208): the tree after the call and the
optional payload returned. -/
def search {K : Type} (eqK ltK : T → K → Bool) (t : RBTree T) (key : K) :
    Option (RBTree T × Option T) :=
  (search_loop eqK ltK t key t.node_arena.length t.root).map fun r => (t, r)

/-- How the descent of `insert` ends: on a node equal to the payload, or on the
node (null in an empty tree) under which the new node goes, with the side. -/
inductive Descent where
  | duplicate
  | slot (parent : Option Nat) (is_left : Bool)
  deriving DecidableEq

end Memory

section Insert
variable {T : Type} [LinearOrder T]

/-- Body of the descent loop of `RBTree::insert` (RB.h 213-240). -/
def insert_loop (t : RBTree T) (payload : T) : Nat → Option Nat → Bool → Option Descent
  | _, none, is_left => some (Descent.slot none is_left)
  | 0, some _, _ => none
  | fuel + 1, some parent, is_left => do
    let pn ← t.get parent
    if pn.payload = payload then pure Descent.duplicate
    else if pn.payload < payload then
      match pn.child_r with
      | none => pure (Descent.slot (some parent) false)
      | some c => insert_loop t payload fuel (some c) is_left
    else
      match pn.child_l with
      | none => pure (Descent.slot (some parent) true)
      | some c => insert_loop t payload fuel (some c) is_left

/-- The method `RBTree::insert` (RB.h 210-275) with the ghost record of its
fixup: the tree after the call, the value returned, the record. -/
def insert_traced (t : RBTree T) (payload : T) : Option (RBTree T × Bool × List Event) := do
  match ← insert_loop t payload t.node_arena.length t.root true with
  | Descent.duplicate => pure (t, false, [])
  | Descent.slot parent is_left =>
    -- make_unique + push_back: the new node lives at the end of the arena
    let node := t.node_arena.length
    let t := t.push ⟨payload, RBColor.RED, none, none, none⟩
    let t ← t.set_parent node parent
    match parent with
    | none =>
      let t := t.set_root (some node)
      let t ← t.set_color node RBColor.BLACK
      pure (t, true, [])
    | some p =>
      let t ← if is_left then t.set_child_l p (some node) else t.set_child_r p (some node)
      let (t, log) ← fixup_tree t t.node_arena.length node
      pure (t, true, log)

/-- The method `RBTree::insert`: the tree after the call and the value returned. -/
def insert (t : RBTree T) (payload : T) : Option (RBTree T × Bool) :=
  (insert_traced t payload).map fun r => (r.1, r.2.1)

/-- The trees the public interface can build: the empty tree, and what an
`insert` makes of such a tree. -/
inductive Reachable : RBTree T → Prop where
  | empty : Reachable RBTree.empty
  | insert {t t' : RBTree T} {p : T} {b : Bool} :
      Reachable t → insert t p = some (t', b) → Reachable t'

/-- The first loop of `main` (Source.cpp 79-82): insert the payloads one after
the other, ignoring what `insert` returns. -/
def insert_all (t : RBTree T) : List T → Option (RBTree T)
  | [] => some t
  | p :: ps => do
    let r ← insert t p
    insert_all r.1 ps

end Insert

/-! ## Vocabulary of the properties, stated on the arena -/

section Vocabulary
variable {T : Type}

/-- Node `j` lies in the subtree that hangs from pointer `p`: it is reached from
`p` by following child links. -/
inductive Within (t : RBTree T) : Option Nat → Nat → Prop where
  | here {i : Nat} {nd : RBNode T} : t.get i = some nd → Within t (some i) i
  | left {i j : Nat} {nd : RBNode T} :
      t.get i = some nd → Within t nd.child_l j → Within t (some i) j
  | right {i j : Nat} {nd : RBNode T} :
      t.get i = some nd → Within t nd.child_r j → Within t (some i) j

/-- The tree stores the payload `p`: a node reached from the root carries it. -/
def Stores (t : RBTree T) (p : T) : Prop :=
  ∃ i nd, Within t t.root i ∧ t.get i = some nd ∧ nd.payload = p

/-- A way down from pointer `p` to a nil slot that passes `k` nodes, `b` of them BLACK. -/
inductive Way (t : RBTree T) : Option Nat → Nat → Nat → Prop where
  | nil : Way t none 0 0
  | left {i k b : Nat} {nd : RBNode T} :
      t.get i = some nd → Way t nd.child_l k b → Way t (some i) (k + 1) (b + nd.color.weight)
  | right {i k b : Nat} {nd : RBNode T} :
      t.get i = some nd → Way t nd.child_r k b → Way t (some i) (k + 1) (b + nd.color.weight)

end Vocabulary

/-! ## Abstract view: the shape a region of the arena draws -/

section Abstract
variable {T : Type}

/-- A binary tree whose nodes carry their arena address, color and payload. -/
inductive Shape (T : Type) where
  | nil
  | node (i : Nat) (c : RBColor) (l : Shape T) (v : T) (r : Shape T)

/-- The way from a hole up to the root: each step records the node above the
hole and the sibling subtree. -/
inductive Path (T : Type) where
  | top
  | left (up : Path T) (i : Nat) (c : RBColor) (v : T) (r : Shape T)
  | right (up : Path T) (i : Nat) (c : RBColor) (l : Shape T) (v : T)

/-- The pointer to the root of a shape. -/
def Shape.ptr : Shape T → Option Nat
  | .nil => none
  | .node i _ _ _ _ => some i

/-- The color of the root of a shape; a nil slot counts as BLACK. -/
def Shape.color : Shape T → RBColor
  | .nil => RBColor.BLACK
  | .node _ c _ _ _ => c

/-- The addresses used by a shape. -/
def Shape.indices : Shape T → List Nat
  | .nil => []
  | .node i _ l _ r => i :: (l.indices ++ r.indices)

/-- The payloads of a shape, left subtree first, then the node, then the right subtree. -/
def Shape.inorder : Shape T → List T
  | .nil => []
  | .node _ _ l v r => l.inorder ++ v :: r.inorder

/-- The subtrees of a shape that have a node at their root, the shape itself first. -/
def Shape.subtrees : Shape T → List (Shape T)
  | .nil => []
  | .node i c l v r => .node i c l v r :: (l.subtrees ++ r.subtrees)

/-- Number of nodes of a shape. -/
def Shape.size : Shape T → Nat
  | .nil => 0
  | .node _ _ l _ r => l.size + r.size + 1

/-- Number of nodes on the longest way down a shape. -/
def Shape.height : Shape T → Nat
  | .nil => 0
  | .node _ _ l _ r => max l.height r.height + 1

/-- Number of BLACK nodes down the leftmost way of a shape. -/
def Shape.bh : Shape T → Nat
  | .nil => 0
  | .node _ c l _ _ => l.bh + c.weight

/-- Every node of the shape has as many BLACK nodes down its left as down its right. -/
def Shape.Balanced : Shape T → Prop
  | .nil => True
  | .node _ _ l _ r => l.bh = r.bh ∧ l.Balanced ∧ r.Balanced

/-- No RED node of the shape has a RED child. -/
def Shape.NoRedRed : Shape T → Prop
  | .nil => True
  | .node _ c l _ r =>
    (c = RBColor.RED → l.color = RBColor.BLACK ∧ r.color = RBColor.BLACK) ∧ l.NoRedRed ∧ r.NoRedRed

/-- The arena draws the shape `s` below a node (or root slot) `par`: every node of
`s` is stored at its address with the payload, color, children and parent that
`s` says. -/
def Rep (t : RBTree T) : Option Nat → Shape T → Prop
  | _, .nil => True
  | par, .node i c l v r =>
    t.get i = some ⟨v, c, l.ptr, r.ptr, par⟩ ∧ Rep t (some i) l ∧ Rep t (some i) r

/-- The pointer to the node right above the hole. -/
def Path.hp : Path T → Option Nat
  | .top => none
  | .left _ i _ _ _ => some i
  | .right _ i _ _ _ => some i

/-- The color of the node right above the hole; above the root counts as BLACK. -/
def Path.color : Path T → RBColor
  | .top => RBColor.BLACK
  | .left _ _ c _ _ => c
  | .right _ _ c _ _ => c

/-- The root pointer of the tree obtained by putting pointer `h` in the hole. -/
def Path.rootPtr : Path T → Option Nat → Option Nat
  | .top, h => h
  | .left up i _ _ _, _ => up.rootPtr (some i)
  | .right up i _ _ _, _ => up.rootPtr (some i)

/-- The addresses used by a path and by the siblings hanging from it. -/
def Path.indices : Path T → List Nat
  | .top => []
  | .left up i _ _ r => i :: (r.indices ++ up.indices)
  | .right up i _ l _ => i :: (l.indices ++ up.indices)

/-- The tree obtained by putting a shape in the hole of a path. -/
def Path.plug : Path T → Shape T → Shape T
  | .top, s => s
  | .left up i c v r, s => up.plug (.node i c s v r)
  | .right up i c l v, s => up.plug (.node i c l v s)

/-- Number of nodes on a path. -/
def Path.depth : Path T → Nat
  | .top => 0
  | .left up _ _ _ _ => up.depth + 1
  | .right up _ _ _ _ => up.depth + 1

/-- The arena draws the path around a hole that holds pointer `h`. -/
def RepPath (t : RBTree T) : Path T → Option Nat → Prop
  | .top, _ => True
  | .left up i c v r, h =>
    t.get i = some ⟨v, c, h, r.ptr, up.hp⟩ ∧ Rep t (some i) r ∧ RepPath t up (some i)
  | .right up i c l v, h =>
    t.get i = some ⟨v, c, l.ptr, h, up.hp⟩ ∧ Rep t (some i) l ∧ RepPath t up (some i)

/-- The tree `t` is the shape `s` seen through `path`: the root pointer, the
nodes on the path and the nodes of `s` are as drawn, and no address is used
twice. -/
structure Models (t : RBTree T) (path : Path T) (s : Shape T) : Prop where
  root : t.root = path.rootPtr s.ptr
  above : RepPath t path s.ptr
  below : Rep t path.hp s
  nodup : (path.indices ++ s.indices).Nodup

/-- The shape with its root recolored BLACK. -/
def Shape.blacken : Shape T → Shape T
  | .nil => .nil
  | .node i _ l v r => .node i RBColor.BLACK l v r

/-- What `fixup_tree` does, told on shapes: `s` is the subtree of the node the
fixup is called on and `path` the way up from it.  The result is the whole
tree and the record of recursive calls and rotations; `none` stands for the
read of a grandparent that is not there. -/
def fixupF : Path T → Shape T → Option (Shape T × List Event)
  | .top, s => some (s.blacken, [])
  | .left .top p cp pv pr, s =>
    if cp = RBColor.BLACK then some (.node p cp s pv pr, []) else none
  | .right .top p cp pl pv, s =>
    if cp = RBColor.BLACK then some (.node p cp pl pv s, []) else none
  | .left (.left up g cg gv u) p cp pv pr, s =>
    if cp = RBColor.BLACK then some (up.plug (.node g cg (.node p cp s pv pr) gv u), [])
    else if u.color = RBColor.RED then
      (fixupF up (.node g RBColor.RED (.node p RBColor.BLACK s pv pr) gv u.blacken)).map
        fun r => (r.1, Event.recurse g :: r.2)
    else
      some (up.plug (.node p RBColor.BLACK s pv (.node g RBColor.RED pr gv u)),
        [Event.rotate_right g true])
  | .right (.left up g cg gv u) p cp pl pv, s =>
    if cp = RBColor.BLACK then some (up.plug (.node g cg (.node p cp pl pv s) gv u), [])
    else if u.color = RBColor.RED then
      (fixupF up (.node g RBColor.RED (.node p RBColor.BLACK pl pv s) gv u.blacken)).map
        fun r => (r.1, Event.recurse g :: r.2)
    else
      match s with
      | .nil => none
      | .node n _ nl nv nr =>
        some (up.plug (.node n RBColor.BLACK (.node p cp pl pv nl) nv (.node g RBColor.RED nr gv u)),
          [Event.rotate_left p true, Event.rotate_right g true])
  | .left (.right up g cg u gv) p cp pv pr, s =>
    if cp = RBColor.BLACK then some (up.plug (.node g cg u gv (.node p cp s pv pr)), [])
    else if u.color = RBColor.RED then
      (fixupF up (.node g RBColor.RED u.blacken gv (.node p RBColor.BLACK s pv pr))).map
        fun r => (r.1, Event.recurse g :: r.2)
    else
      match s with
      | .nil => none
      | .node n _ nl nv nr =>
        some (up.plug (.node n RBColor.BLACK (.node g RBColor.RED u gv nl) nv (.node p cp nr pv pr)),
          [Event.rotate_right p true, Event.rotate_left g true])
  | .right (.right up g cg u gv) p cp pl pv, s =>
    if cp = RBColor.BLACK then some (up.plug (.node g cg u gv (.node p cp pl pv s)), [])
    else if u.color = RBColor.RED then
      (fixupF up (.node g RBColor.RED u.blacken gv (.node p RBColor.BLACK pl pv s))).map
        fun r => (r.1, Event.recurse g :: r.2)
    else
      some (up.plug (.node p RBColor.BLACK (.node g RBColor.RED u gv pl) pv s),
        [Event.rotate_left g true])

/-- Which slot of the node above the hole is: `true` for the left one, and for
the root slot. -/
def Path.side : Path T → Bool
  | .top => true
  | .left _ _ _ _ _ => true
  | .right _ _ _ _ _ => false

/-- The payloads that come before the hole in the in-order reading. -/
def Path.before : Path T → List T
  | .top => []
  | .left up _ _ _ _ => up.before
  | .right up _ _ l v => up.before ++ (l.inorder ++ [v])

/-- The payloads that come after the hole in the in-order reading. -/
def Path.after : Path T → List T
  | .top => []
  | .left up _ _ v r => v :: r.inorder ++ up.after
  | .right up _ _ _ _ => up.after

/-- The nodes of the path have equally many BLACK nodes down every side, when
the hole holds a subtree with `h` BLACK nodes down its ways. -/
def Path.Balanced : Path T → Nat → Prop
  | .top, _ => True
  | .left up _ c _ r, h => r.bh = h ∧ r.Balanced ∧ up.Balanced (h + c.weight)
  | .right up _ c l _, h => l.bh = h ∧ l.Balanced ∧ up.Balanced (h + c.weight)

/-- No RED node on the path or beside it has a RED child, the hole left aside,
and the root is BLACK. -/
def Path.NoRedRed : Path T → Prop
  | .top => True
  | .left up _ c _ r =>
    r.NoRedRed ∧ (c = RBColor.RED → r.color = RBColor.BLACK) ∧ up.NoRedRed ∧
      (up.color = RBColor.RED → c = RBColor.BLACK) ∧ (up.hp = none → c = RBColor.BLACK)
  | .right up _ c l _ =>
    l.NoRedRed ∧ (c = RBColor.RED → l.color = RBColor.BLACK) ∧ up.NoRedRed ∧
      (up.color = RBColor.RED → c = RBColor.BLACK) ∧ (up.hp = none → c = RBColor.BLACK)

/-- The red-black conditions on a whole tree: equal black counts, no RED node
with a RED child, BLACK root. -/
def Shape.RBValid (s : Shape T) : Prop :=
  s.Balanced ∧ s.NoRedRed ∧ s.color = RBColor.BLACK

/-- What the fixup, told on shapes, delivers: a red-black tree with the same
in-order reading and the same addresses. -/
structure FixupOk (path : Path T) (s : Shape T) (R : Shape T) : Prop where
  valid : R.RBValid
  inorder : R.inorder = (path.plug s).inorder
  indices : ∀ a, R.indices.count a = (path.plug s).indices.count a

end Abstract

section AbstractInsert
variable {T : Type} [LinearOrder T]

/-- The descent of `insert` told on shapes: `none` when a payload equal to `x` is
met, otherwise the path to the nil slot where `x` belongs. -/
def descendF (x : T) : Path T → Shape T → Option (Path T)
  | path, .nil => some path
  | path, .node i c l v r =>
    if v = x then none
    else if v < x then descendF x (.right path i c l v) r
    else descendF x (.left path i c v r) l

/-- What `insert_loop` returns for an outcome of `descendF`. -/
def descentOf : Option (Path T) → Descent
  | none => Descent.duplicate
  | some path => Descent.slot path.hp path.side

/-- The method `insert` told on shapes; `n` is the address the new node gets. -/
def insertF (x : T) (n : Nat) (s : Shape T) : Option (Shape T × Bool × List Event) :=
  match descendF x .top s with
  | none => some (s, false, [])
  | some .top => some (.node n RBColor.BLACK .nil x .nil, true, [])
  | some path => (fixupF path (.node n RBColor.RED .nil x .nil)).map fun r => (r.1, true, r.2)

/-- Every step of the path went the way a descent for `x` goes: left under a
greater payload, right under a smaller one. -/
def Path.Fits (x : T) : Path T → Prop
  | .top => True
  | .left up _ _ v _ => x < v ∧ up.Fits x
  | .right up _ _ _ v => v < x ∧ up.Fits x

/-- The arena of `t` draws the shape `s` from the root, `s` uses every address
of the arena once, is a red-black tree and reads in strictly increasing
order. -/
structure Draws (t : RBTree T) (s : Shape T) : Prop where
  models : Models t .top s
  covers : s.indices.Perm (List.range t.node_arena.length)
  valid : s.RBValid
  sorted : s.inorder.Pairwise (· < ·)

/-- The representation invariant of a tree: it draws some shape. -/
def Inv (t : RBTree T) : Prop := ∃ s : Shape T, Draws t s

/-- What `insert`, told on shapes, delivers: a sorted red-black tree; `false` and
the same tree when `x` was there, else `true`, one more address, and `x` put
at its place in the in-order reading. -/
structure InsertOk (x : T) (n : Nat) (s s' : Shape T) (b : Bool) (log : List Event) : Prop where
  valid : s'.RBValid
  sorted : s'.inorder.Pairwise (· < ·)
  dup_iff : b = false ↔ x ∈ s.inorder
  dup_same : b = false → s' = s ∧ log = []
  fresh_indices : b = true → ∀ a, s'.indices.count a = (n :: s.indices).count a
  fresh_inorder : b = true → ∃ l1 l2, s.inorder = l1 ++ l2 ∧ s'.inorder = l1 ++ x :: l2

end AbstractInsert

/-! ## Sample trees -/

/-- The tree after inserting 10, 20, 30 into an empty tree. -/
def sample3 : RBTree Nat :=
  ⟨[⟨10, RBColor.RED, none, none, some 1⟩, ⟨20, RBColor.BLACK, some 0, some 2, none⟩,
    ⟨30, RBColor.RED, none, none, some 1⟩], some 1⟩

/-- The tree after inserting 1, 2, 3, 4, 5, 6 into an empty tree. -/
def sample6 : RBTree Nat :=
  ⟨[⟨1, RBColor.BLACK, none, none, some 1⟩, ⟨2, RBColor.BLACK, some 0, some 3, none⟩,
    ⟨3, RBColor.BLACK, none, none, some 3⟩, ⟨4, RBColor.RED, some 2, some 4, some 1⟩,
    ⟨5, RBColor.BLACK, none, some 5, some 3⟩, ⟨6, RBColor.RED, none, none, some 4⟩], some 1⟩

end RB

/-! Part: Sample trees (continued). -/

namespace RB

/-- The tree after inserting 5 into an empty tree. -/
def sample1 : RBTree Nat := ⟨[⟨5, RBColor.BLACK, none, none, none⟩], some 0⟩

/-- The tree holding 10, 20, 30 with a new RED node for 40 linked under 30, as
`insert` makes it before it calls the fixup. -/
def sample3_link40 : RBTree Nat :=
  ⟨[⟨10, RBColor.RED, none, none, some 1⟩, ⟨20, RBColor.BLACK, some 0, some 2, none⟩,
    ⟨30, RBColor.RED, none, some 3, some 1⟩, ⟨40, RBColor.RED, none, none, some 2⟩], some 1⟩

end RB

namespace RB

/-! Traversals, link consistency, and the calls of the fixup, stated on the arena. -/

section Traversals
variable {T : Type}

/-- The payloads under pointer `p`, read left subtree, node, right subtree.  The
first argument bounds the depth of the descent. -/
def inorder_from (t : RBTree T) : Nat → Option Nat → Option (List T)
  | _, none => some []
  | 0, some _ => none
  | fuel + 1, some i =>
    (t.get i).bind fun nd =>
    (inorder_from t fuel nd.child_l).bind fun l =>
    (inorder_from t fuel nd.child_r).bind fun r =>
    some (l ++ nd.payload :: r)

/-- The in-order traversal of the whole tree, from the root. -/
def inorder (t : RBTree T) : Option (List T) :=
  inorder_from t t.node_arena.length t.root

/-- The addresses under pointer `p` in the order `RBNode::print` (RB.h 36-44)
visits them: the node, its left subtree, its right subtree. -/
def nodes_from (t : RBTree T) : Nat → Option Nat → Option (List Nat)
  | _, none => some []
  | 0, some _ => none
  | fuel + 1, some i =>
    (t.get i).bind fun nd =>
    (nodes_from t fuel nd.child_l).bind fun l =>
    (nodes_from t fuel nd.child_r).bind fun r =>
    some (i :: (l ++ r))

/-- The addresses of the nodes reached from the root. -/
def nodes (t : RBTree T) : Option (List Nat) :=
  nodes_from t t.node_arena.length t.root

/-- Parent and child links agree: the root has no parent, every child a node
points to is a node whose parent link points back, and every node that is not
the root has a parent of which it is the left or the right child, not both. -/
structure Linked (t : RBTree T) : Prop where
  root_parent : ∀ r, t.root = some r → ∃ nd, t.get r = some nd ∧ nd.parent = none
  left_parent : ∀ x nd c, t.get x = some nd → nd.child_l = some c →
    ∃ cd, t.get c = some cd ∧ cd.parent = some x
  right_parent : ∀ x nd c, t.get x = some nd → nd.child_r = some c →
    ∃ cd, t.get c = some cd ∧ cd.parent = some x
  child_of_parent : ∀ x nd, t.get x = some nd → t.root ≠ some x →
    ∃ p pd, nd.parent = some p ∧ t.get p = some pd ∧
      ((pd.child_l = some x ∧ pd.child_r ≠ some x) ∨
        (pd.child_l ≠ some x ∧ pd.child_r = some x))

/-- Node `x` is `d` parent links away from a node without parent. -/
inductive Depth (t : RBTree T) : Nat → Nat → Prop where
  | root {x : Nat} {nd : RBNode T} : t.get x = some nd → nd.parent = none → Depth t x 0
  | step {x p d : Nat} {nd : RBNode T} :
      t.get x = some nd → nd.parent = some p → Depth t p d → Depth t x (d + 1)

/-- The two trees have the same root, the same number of nodes, and in every
node the same payload and the same three links: at most colors differ. -/
def SameLinks (t t' : RBTree T) : Prop :=
  t'.root = t.root ∧ t'.node_arena.length = t.node_arena.length ∧
  ∀ j nd, t.get j = some nd → ∃ nd', t'.get j = some nd' ∧ nd'.payload = nd.payload ∧
    nd'.child_l = nd.child_l ∧ nd'.child_r = nd.child_r ∧ nd'.parent = nd.parent

/-- What `rotate_left` on `x` makes of `t`: with `c` the right child of `x`, the
former left subtree of `c` hangs to the right of `x` with its root's parent set
to `x`; `c` takes the parent of `x` and the slot that held `x` (or the root
reference); `x` is the left child of `c`; nothing else changes. -/
def LeftRotated (t : RBTree T) (x : Nat) (t' : RBTree T) : Prop :=
  ∃ nd c cd, t.get x = some nd ∧ nd.child_r = some c ∧ t.get c = some cd ∧
    t'.get x = some { nd with child_r := cd.child_l, parent := some c } ∧
    t'.get c = some { cd with child_l := some x, parent := nd.parent } ∧
    (∀ b, cd.child_l = some b →
      ∃ bd, t.get b = some bd ∧ t'.get b = some { bd with parent := some x }) ∧
    (nd.parent = none → t'.root = some c) ∧
    (∀ p, nd.parent = some p → t'.root = t.root ∧ ∃ pd, t.get p = some pd ∧
      ((pd.child_l = some x ∧ t'.get p = some { pd with child_l := some c }) ∨
        (pd.child_r = some x ∧ t'.get p = some { pd with child_r := some c }))) ∧
    (∀ j, j ≠ x → j ≠ c → cd.child_l ≠ some j → nd.parent ≠ some j → t'.get j = t.get j) ∧
    t'.node_arena.length = t.node_arena.length

/-- What `rotate_right` on `x` makes of `t`: the mirror image of `LeftRotated`. -/
def RightRotated (t : RBTree T) (x : Nat) (t' : RBTree T) : Prop :=
  ∃ nd c cd, t.get x = some nd ∧ nd.child_l = some c ∧ t.get c = some cd ∧
    t'.get x = some { nd with child_l := cd.child_r, parent := some c } ∧
    t'.get c = some { cd with child_r := some x, parent := nd.parent } ∧
    (∀ b, cd.child_r = some b →
      ∃ bd, t.get b = some bd ∧ t'.get b = some { bd with parent := some x }) ∧
    (nd.parent = none → t'.root = some c) ∧
    (∀ p, nd.parent = some p → t'.root = t.root ∧ ∃ pd, t.get p = some pd ∧
      ((pd.child_l = some x ∧ t'.get p = some { pd with child_l := some c }) ∨
        (pd.child_r = some x ∧ t'.get p = some { pd with child_r := some c }))) ∧
    (∀ j, j ≠ x → j ≠ c → cd.child_r ≠ some j → nd.parent ≠ some j → t'.get j = t.get j) ∧
    t'.node_arena.length = t.node_arena.length

/-- Every node of `t` is a node of `t'` with the same color and the same payload. -/
def SameData (t t' : RBTree T) : Prop :=
  ∀ j nd, t.get j = some nd →
    ∃ nd', t'.get j = some nd' ∧ nd'.color = nd.color ∧ nd'.payload = nd.payload

end Traversals

section FixupCalls
variable {T : Type}

/-- The call of `fixup_tree` on `node` in tree `t` takes the uncle-RED branch (RB.h
147-158): the parent is RED, the uncle is there and RED, the three nodes are
recolored, and `fixup_tree` is called on the grandparent `g` in tree `t'`. -/
def FixupStep (t : RBTree T) (node : Nat) (t' : RBTree T) (g : Nat) : Prop :=
  ∃ nd p pn gn u t1 t2, t.get node = some nd ∧ nd.parent = some p ∧ t.get p = some pn ∧
    pn.color = RBColor.RED ∧ pn.parent = some g ∧ t.get g = some gn ∧
    (if gn.child_l = some p then gn.child_r else gn.child_l) = some u ∧
    is_red t (some u) = some true ∧
    t.set_color g RBColor.RED = some t1 ∧ t1.set_color u RBColor.BLACK = some t2 ∧
    t2.set_color p RBColor.BLACK = some t'

/-- The chain of recursive calls: `fixup_tree` called on `node` in `t` calls itself
on the nodes `gs` in turn, the last call being on `nk` in tree `tk`. -/
inductive FixupCalls : RBTree T → Nat → List Nat → RBTree T → Nat → Prop where
  | done {t : RBTree T} {node : Nat} : FixupCalls t node [] t node
  | step {t t1 tk : RBTree T} {node g nk : Nat} {gs : List Nat} :
      FixupStep t node t1 g → FixupCalls t1 g gs tk nk → FixupCalls t node (g :: gs) tk nk

/-- The event is a call of a rotation on node `x`. -/
def Event.rotates (e : Event) (x : Nat) : Prop :=
  ∃ f, e = Event.rotate_left x f ∨ e = Event.rotate_right x f

/-- Whether the event is a recursive call. -/
def Event.is_recurse : Event → Bool
  | .recurse _ => true
  | _ => false

/-- The rotations `rots` are what a call of `fixup_tree` on `nk` in `tk` that does
not recurse may make: none, or one on the grandparent of `nk`, or one on the
parent followed by one on the grandparent. -/
def Terminal (tk : RBTree T) (nk : Nat) (rots : List Event) : Prop :=
  rots = [] ∨
  ∃ nd p pn g, tk.get nk = some nd ∧ nd.parent = some p ∧ tk.get p = some pn ∧
    pn.parent = some g ∧
    ((∃ e, rots = [e] ∧ e.rotates g) ∨ (∃ e1 e2, rots = [e1, e2] ∧ e1.rotates p ∧ e2.rotates g))

/-- The call `insert t payload` gets as far as calling `fixup_tree` on the new node
`n` in tree `t2` (RB.h 213-271): the descent ends under a parent, the node is
allocated and linked. -/
def FixupStart [LinearOrder T] (t : RBTree T) (payload : T) (t2 : RBTree T) (n : Nat) : Prop :=
  ∃ parent is_left t1,
    insert_loop t payload t.node_arena.length t.root true
      = some (Descent.slot (some parent) is_left) ∧
    n = t.node_arena.length ∧
    (t.push ⟨payload, RBColor.RED, none, none, none⟩).set_parent n (some parent) = some t1 ∧
    (if is_left then t1.set_child_l parent (some n) else t1.set_child_r parent (some n))
      = some t2

end FixupCalls

section Extraction
variable {T : Type}

/-- The node reached from `x` by following `k` parent links. -/
def up (t : RBTree T) : Nat → Nat → Option Nat
  | 0, x => some x
  | k + 1, x => (t.get x).bind fun nd => nd.parent.bind fun p => up t k p

/-- Node `x` is reached from the root by following `d` child links. -/
inductive Rank (t : RBTree T) : Nat → Nat → Prop where
  | root {r : Nat} : t.root = some r → Rank t r 0
  | left {x c d : Nat} {nd : RBNode T} :
      Rank t x d → t.get x = some nd → nd.child_l = some c → Rank t c (d + 1)
  | right {x c d : Nat} {nd : RBNode T} :
      Rank t x d → t.get x = some nd → nd.child_r = some c → Rank t c (d + 1)

/-- Every address of `s` is a descendant of the node `c`, which is `d` child links
below the root. -/
def Under (t : RBTree T) (c d : Nat) (s : Shape T) : Prop :=
  ∀ j ∈ s.indices, ∃ k, up t k j = some c ∧ Rank t j (d + k)

/-- Form of the record of a fixup that starts `depth` links below the root:
recursive calls first, at most one for every two links, then at most two
rotations, each called on a node whose promoted child is present. -/
structure LogShape (depth : Nat) (log : List Event) : Prop where
  split : ∃ gs rots, log = List.map Event.recurse gs ++ rots ∧ 2 * gs.length ≤ depth ∧
    rots.length ≤ 2 ∧ ∀ e ∈ rots, ∃ x, e = Event.rotate_left x true ∨ e = Event.rotate_right x true

end Extraction

end RB

namespace Source

/-! The function `quicksort` of Source.cpp (lines 5-48) on a `vector<int>` with `int` indices. -/

/-- The value of an `int` expression: the mathematical value wrapped to 32 bits,
two's complement. -/
def wrap32 (x : Int) : Int := (x + 2147483648) % 4294967296 - 2147483648

/-- A `vector<int>`: its size and the element at each index. Only the indices
from 0 up to the size are part of the vector. -/
structure IntVec where
  size : Nat
  elems : Int → Int

/-- The read `arr[i]`; absent when the index is outside the vector. -/
def IntVec.read (arr : IntVec) (i : Int) : Option Int :=
  if 0 ≤ i ∧ i < arr.size then some (arr.elems i) else none

/-- The assignment `arr[i] = v`; absent when the index is outside the vector. -/
def IntVec.write (arr : IntVec) (i v : Int) : Option IntVec :=
  if 0 ≤ i ∧ i < arr.size then
    some { arr with elems := fun k => if k = i then v else arr.elems k }
  else none

/-- The call `swap( arr[ i ], arr[ j ] )`. -/
def IntVec.swap (arr : IntVec) (i j : Int) : Option IntVec :=
  (arr.read i).bind fun x =>
  (arr.read j).bind fun y =>
  (arr.write i y).bind fun arr1 =>
  arr1.write j x

/-- The loop `while( arr[ from_left ] < pivot_val ) from_left++;` (Source.cpp 24-25).
Returns the final `from_left` and the indices read, in order. -/
def scan_left (arr : IntVec) (pivot_val : Int) : Nat → Int → Option (Int × List Int)
  | 0, _ => none
  | fuel + 1, from_left =>
    (arr.read from_left).bind fun v =>
    if v < pivot_val then
      (scan_left arr pivot_val fuel (wrap32 (from_left + 1))).map fun r =>
        (r.1, from_left :: r.2)
    else some (from_left, [from_left])

/-- The loop `while( arr[ from_right ] >= pivot_val && from_left < from_right )
from_right--;` (Source.cpp 29-30).  Returns the final `from_right` and the
indices read, in order. -/
def scan_right (arr : IntVec) (pivot_val from_left : Int) : Nat → Int → Option (Int × List Int)
  | 0, _ => none
  | fuel + 1, from_right =>
    (arr.read from_right).bind fun v =>
    if pivot_val ≤ v ∧ from_left < from_right then
      (scan_right arr pivot_val from_left fuel (wrap32 (from_right - 1))).map fun r =>
        (r.1, from_right :: r.2)
    else some (from_right, [from_right])

/-- The loop `while( from_left < from_right )` (Source.cpp 20-36).  Returns the
vector, the final `from_left`, and the indices accessed. -/
def partition_loop (pivot_val : Int) : Nat → IntVec → Int → Int →
    Option (IntVec × Int × List Int)
  | 0, _, _, _ => none
  | fuel + 1, arr, from_left, from_right =>
    if from_left < from_right then
      (scan_left arr pivot_val (fuel + 1) from_left).bind fun l =>
      (scan_right arr pivot_val l.1 (fuel + 1) from_right).bind fun r =>
      (if l.1 < r.1 then (arr.swap l.1 r.1).map fun arr1 => (arr1, [l.1, r.1])
        else some (arr, [])).bind fun s =>
      (partition_loop pivot_val fuel s.1 l.1 r.1).map fun q =>
        (q.1, q.2.1, l.2 ++ r.2 ++ s.2 ++ q.2.2)
    else some (arr, from_left, [])

/-- The function `quicksort( arr, left, right )` (Source.cpp 5-48).  Returns the
vector and the indices accessed; absent when an access is outside the vector
or the fuel runs out. -/
def quicksort : Nat → IntVec → Int → Int → Option (IntVec × List Int)
  | 0, _, _, _ => none
  | fuel + 1, arr, left, right =>
    if left ≥ right then some (arr, [])
    else
      (arr.read right).bind fun pivot_val =>
      (partition_loop pivot_val (fuel + 1) arr left right).bind fun p =>
      (p.1.swap right p.2.1).bind fun arr2 =>
      (quicksort fuel arr2 left (wrap32 (p.2.1 - 1))).bind fun q1 =>
      (quicksort fuel q1.1 (wrap32 (p.2.1 + 1)) right).bind fun q2 =>
      some (q2.1, right :: p.2.2 ++ [right, p.2.1] ++ q1.2 ++ q2.2)

/-- The vector `arr'` is `arr` with the elements at the indices from `lo` to `hi`
rearranged: same size, and a permutation of the indices that moves no index
outside `lo..hi` carries one to the other. -/
def Rearranged (arr arr' : IntVec) (lo hi : Int) : Prop :=
  arr'.size = arr.size ∧
  ∃ σ : Equiv.Perm Int, (∀ i, i < lo ∨ hi < i → σ i = i) ∧ ∀ i, arr'.elems i = arr.elems (σ i)

/-- The vector 3, 1, 2 (the example in the comment of Source.cpp line 5). -/
def sample_vec : IntVec := ⟨3, fun i => if i = 0 then 3 else if i = 1 then 1 else 2⟩

/-- A vector of 2^31 elements, all 0 but the last, which is 1. -/
def overflow_vec : IntVec := ⟨2147483648, fun i => if i = 2147483647 then 1 else 0⟩

end Source

/-! Part: Shapes and paths: rewriting rules and plugging. -/

namespace RB
variable {T : Type}

@[simp] theorem Shape.inorder_nil : (Shape.nil : Shape T).inorder = [] := rfl
@[simp] theorem Shape.inorder_node (i : Nat) (c : RBColor) (l : Shape T) (v : T) (r : Shape T) :
    (Shape.node i c l v r).inorder = l.inorder ++ v :: r.inorder := rfl
@[simp] theorem Shape.color_nil : (Shape.nil : Shape T).color = RBColor.BLACK := rfl
@[simp] theorem Shape.color_node (i : Nat) (c : RBColor) (l : Shape T) (v : T) (r : Shape T) :
    (Shape.node i c l v r).color = c := rfl
@[simp] theorem Shape.bh_nil : (Shape.nil : Shape T).bh = 0 := rfl
@[simp] theorem Shape.bh_node (i : Nat) (c : RBColor) (l : Shape T) (v : T) (r : Shape T) :
    (Shape.node i c l v r).bh = l.bh + c.weight := rfl
@[simp] theorem weight_red : RBColor.RED.weight = 0 := rfl
@[simp] theorem weight_black : RBColor.BLACK.weight = 1 := rfl
@[simp] theorem Shape.balanced_nil : (Shape.nil : Shape T).Balanced := trivial
@[simp] theorem Shape.balanced_node (i : Nat) (c : RBColor) (l : Shape T) (v : T) (r : Shape T) :
    (Shape.node i c l v r).Balanced ↔ l.bh = r.bh ∧ l.Balanced ∧ r.Balanced := Iff.rfl
@[simp] theorem Shape.noRedRed_nil : (Shape.nil : Shape T).NoRedRed := trivial
@[simp] theorem Shape.noRedRed_node (i : Nat) (c : RBColor) (l : Shape T) (v : T) (r : Shape T) :
    (Shape.node i c l v r).NoRedRed ↔
      (c = RBColor.RED → l.color = RBColor.BLACK ∧ r.color = RBColor.BLACK) ∧
        l.NoRedRed ∧ r.NoRedRed := Iff.rfl
@[simp] theorem Path.color_top : (Path.top : Path T).color = RBColor.BLACK := rfl
@[simp] theorem Path.color_left (up : Path T) (i : Nat) (c : RBColor) (v : T) (r : Shape T) :
    (Path.left up i c v r).color = c := rfl
@[simp] theorem Path.color_right (up : Path T) (i : Nat) (c : RBColor) (l : Shape T) (v : T) :
    (Path.right up i c l v).color = c := rfl
@[simp] theorem Path.plug_top (s : Shape T) : (Path.top : Path T).plug s = s := rfl
@[simp] theorem Path.plug_left (up : Path T) (i : Nat) (c : RBColor) (v : T) (r s : Shape T) :
    (Path.left up i c v r).plug s = up.plug (.node i c s v r) := rfl
@[simp] theorem Path.plug_right (up : Path T) (i : Nat) (c : RBColor) (l : Shape T) (v : T)
    (s : Shape T) : (Path.right up i c l v).plug s = up.plug (.node i c l v s) := rfl
@[simp] theorem Path.balanced_top (h : Nat) : (Path.top : Path T).Balanced h := trivial
@[simp] theorem Path.balanced_left (up : Path T) (i : Nat) (c : RBColor) (v : T) (r : Shape T)
    (h : Nat) : (Path.left up i c v r).Balanced h ↔
      r.bh = h ∧ r.Balanced ∧ up.Balanced (h + c.weight) := Iff.rfl
@[simp] theorem Path.balanced_right (up : Path T) (i : Nat) (c : RBColor) (l : Shape T) (v : T)
    (h : Nat) : (Path.right up i c l v).Balanced h ↔
      l.bh = h ∧ l.Balanced ∧ up.Balanced (h + c.weight) := Iff.rfl
@[simp] theorem Path.noRedRed_top : (Path.top : Path T).NoRedRed := trivial
@[simp] theorem Path.noRedRed_left (up : Path T) (i : Nat) (c : RBColor) (v : T) (r : Shape T) :
    (Path.left up i c v r).NoRedRed ↔
      r.NoRedRed ∧ (c = RBColor.RED → r.color = RBColor.BLACK) ∧ up.NoRedRed ∧
        (up.color = RBColor.RED → c = RBColor.BLACK) ∧ (up.hp = none → c = RBColor.BLACK) :=
  Iff.rfl
@[simp] theorem Path.noRedRed_right (up : Path T) (i : Nat) (c : RBColor) (l : Shape T) (v : T) :
    (Path.right up i c l v).NoRedRed ↔
      l.NoRedRed ∧ (c = RBColor.RED → l.color = RBColor.BLACK) ∧ up.NoRedRed ∧
        (up.color = RBColor.RED → c = RBColor.BLACK) ∧ (up.hp = none → c = RBColor.BLACK) :=
  Iff.rfl

theorem color_cases (c : RBColor) : c = RBColor.BLACK ∨ c = RBColor.RED := by
  cases c <;> simp

theorem node_of_red {s : Shape T} (h : s.color = RBColor.RED) :
    ∃ i l v r, s = .node i RBColor.RED l v r := by
  cases s with
  | nil => simp [Shape.color] at h
  | node i c l v r => simp [Shape.color] at h; subst h; exact ⟨i, l, v, r, rfl⟩

theorem fixupF_black_left (up : Path T) (p : Nat) (pv : T) (pr s : Shape T) :
    fixupF (.left up p RBColor.BLACK pv pr) s
      = some ((Path.left up p RBColor.BLACK pv pr).plug s, []) := by
  cases up <;> simp [fixupF, Path.plug]

theorem fixupF_black_right (up : Path T) (p : Nat) (pl : Shape T) (pv : T) (s : Shape T) :
    fixupF (.right up p RBColor.BLACK pl pv) s
      = some ((Path.right up p RBColor.BLACK pl pv).plug s, []) := by
  cases up <;> simp [fixupF, Path.plug]

theorem not_red_iff (c : RBColor) : ¬ c = RBColor.RED ↔ c = RBColor.BLACK := by
  cases c <;> simp

theorem not_black_iff (c : RBColor) : ¬ c = RBColor.BLACK ↔ c = RBColor.RED := by
  cases c <;> simp

theorem inorder_plug : ∀ (path : Path T) (s : Shape T),
    (path.plug s).inorder = path.before ++ s.inorder ++ path.after
  | .top, s => by simp [Path.before, Path.after]
  | .left up i c v r, s => by
    simp [inorder_plug up, Path.before, Path.after]
  | .right up i c l v, s => by
    simp [inorder_plug up, Path.before, Path.after]

theorem count_indices_plug (a : Nat) : ∀ (path : Path T) (s : Shape T),
    (path.plug s).indices.count a = path.indices.count a + s.indices.count a
  | .top, s => by simp [Path.indices]
  | .left up i c v r, s => by
    simp only [Path.plug_left, count_indices_plug a up, Path.indices, Shape.indices,
      List.count_append, List.count_cons]
    omega
  | .right up i c l v, s => by
    simp only [Path.plug_right, count_indices_plug a up, Path.indices, Shape.indices,
      List.count_append, List.count_cons]
    omega

theorem bh_plug_congr : ∀ (path : Path T) (s s' : Shape T), s.bh = s'.bh →
    (path.plug s).bh = (path.plug s').bh
  | .top, _, _, h => h
  | .left up i c v r, s, s', h => bh_plug_congr up _ _ (by simp [h])
  | .right up i c l v, s, s', h => bh_plug_congr up _ _ (by simp)

theorem balanced_plug : ∀ (path : Path T) (s : Shape T),
    (path.plug s).Balanced ↔ s.Balanced ∧ path.Balanced s.bh
  | .top, s => by simp
  | .left up i c v r, s => by
    simp only [Path.plug_left, balanced_plug up, Shape.balanced_node, Shape.bh_node,
      Path.balanced_left]
    constructor
    · rintro ⟨⟨h1, h2, h3⟩, h4⟩; exact ⟨h2, h1.symm, h3, h4⟩
    · rintro ⟨h2, h1, h3, h4⟩; exact ⟨⟨h1.symm, h2, h3⟩, h4⟩
  | .right up i c l v, s => by
    simp only [Path.plug_right, balanced_plug up, Shape.balanced_node, Shape.bh_node,
      Path.balanced_right]
    constructor
    · rintro ⟨⟨h1, h2, h3⟩, h4⟩; exact ⟨h3, h1, h2, h1 ▸ h4⟩
    · rintro ⟨h2, h1, h3, h4⟩; exact ⟨⟨h1, h3, h2⟩, h1 ▸ h4⟩

theorem noRedRed_plug : ∀ (path : Path T) (s : Shape T),
    ((path.plug s).NoRedRed ∧ (path.plug s).color = RBColor.BLACK) ↔
      s.NoRedRed ∧ path.NoRedRed ∧ (path.color = RBColor.RED → s.color = RBColor.BLACK) ∧
        (path.hp = none → s.color = RBColor.BLACK)
  | .top, s => by simp [Path.hp]
  | .left up i c v r, s => by
    simp only [Path.plug_left, noRedRed_plug up, Shape.noRedRed_node, Shape.color_node,
      Path.noRedRed_left, Path.color_left, Path.hp]
    constructor
    · rintro ⟨⟨h1, h2, h3⟩, h4, h5, h6⟩
      exact ⟨h2, ⟨h3, fun e => (h1 e).2, h4, h5, h6⟩, fun e => (h1 e).1, fun e => by simp at e⟩
    · rintro ⟨h2, ⟨h3, h1, h4, h5, h6⟩, h7, -⟩
      exact ⟨⟨fun e => ⟨h7 e, h1 e⟩, h2, h3⟩, h4, h5, h6⟩
  | .right up i c l v, s => by
    simp only [Path.plug_right, noRedRed_plug up, Shape.noRedRed_node, Shape.color_node,
      Path.noRedRed_right, Path.color_right, Path.hp]
    constructor
    · rintro ⟨⟨h1, h2, h3⟩, h4, h5, h6⟩
      exact ⟨h3, ⟨h2, fun e => (h1 e).1, h4, h5, h6⟩, fun e => (h1 e).2, fun e => by simp at e⟩
    · rintro ⟨h2, ⟨h3, h1, h4, h5, h6⟩, h7, -⟩
      exact ⟨⟨fun e => ⟨h1 e, h7 e⟩, h3, h2⟩, h4, h5, h6⟩

theorem rbValid_plug (path : Path T) (s : Shape T) :
    (path.plug s).RBValid ↔
      (s.Balanced ∧ path.Balanced s.bh) ∧ s.NoRedRed ∧ path.NoRedRed ∧
        (path.color = RBColor.RED → s.color = RBColor.BLACK) ∧
        (path.hp = none → s.color = RBColor.BLACK) := by
  unfold Shape.RBValid
  rw [noRedRed_plug, balanced_plug]

end RB

/-! Part: Memory: reads after writes, frames, and the two rotations. -/

namespace RB
variable {T : Type}

theorem get_put (t : RBTree T) (i j : Nat) (n : RBNode T) :
    (t.put i n).get j = if j = i then (t.get i).map (fun _ => n) else t.get j := by
  unfold RBTree.put RBTree.get
  simp only [List.getElem?_set]
  by_cases h : j = i
  · subst h
    simp only [if_true]
    by_cases hl : j < t.node_arena.length
    · simp [hl]
    · simp [hl, List.getElem?_eq_none (not_lt.mp hl)]
  · have h' : ¬ i = j := fun e => h e.symm
    simp [h, h']

@[simp] theorem put_root (t : RBTree T) (i : Nat) (n : RBNode T) : (t.put i n).root = t.root := rfl

@[simp] theorem put_length (t : RBTree T) (i : Nat) (n : RBNode T) :
    (t.put i n).node_arena.length = t.node_arena.length := by
  simp [RBTree.put]

@[simp] theorem set_root_get (t : RBTree T) (q : Option Nat) (j : Nat) :
    (t.set_root q).get j = t.get j := rfl

@[simp] theorem set_root_root (t : RBTree T) (q : Option Nat) : (t.set_root q).root = q := rfl

@[simp] theorem set_root_length (t : RBTree T) (q : Option Nat) :
    (t.set_root q).node_arena.length = t.node_arena.length := rfl

theorem Rep.frame {t t' : RBTree T} : ∀ {s : Shape T} {par : Option Nat},
    Rep t par s → (∀ j ∈ s.indices, t'.get j = t.get j) → Rep t' par s
  | .nil, _, _, _ => trivial
  | .node i c l v r, par, h, hf => by
    obtain ⟨h1, h2, h3⟩ := h
    refine ⟨?_, Rep.frame h2 ?_, Rep.frame h3 ?_⟩
    · rw [hf i (by simp [Shape.indices])]; exact h1
    · intro j hj; exact hf j (by simp [Shape.indices, hj])
    · intro j hj; exact hf j (by simp [Shape.indices, hj])

theorem RepPath.frame_path {t t' : RBTree T} : ∀ {p : Path T} {h : Option Nat},
    RepPath t p h → (∀ j ∈ p.indices, t'.get j = t.get j) → RepPath t' p h
  | .top, _, _, _ => trivial
  | .left up i c v r, h, hp, hf => by
    obtain ⟨h1, h2, h3⟩ := hp
    refine ⟨?_, Rep.frame h2 ?_, RepPath.frame_path h3 ?_⟩
    · rw [hf i (by simp [Path.indices])]; exact h1
    · intro j hj; exact hf j (by simp [Path.indices, hj])
    · intro j hj; exact hf j (by simp [Path.indices, hj])
  | .right up i c l v, h, hp, hf => by
    obtain ⟨h1, h2, h3⟩ := hp
    refine ⟨?_, Rep.frame h2 ?_, RepPath.frame_path h3 ?_⟩
    · rw [hf i (by simp [Path.indices])]; exact h1
    · intro j hj; exact hf j (by simp [Path.indices, hj])
    · intro j hj; exact hf j (by simp [Path.indices, hj])

/-- Changing the pointer stored in the hole's slot and nothing else on the path. -/
theorem Shape.ptr_mem {s : Shape T} {i : Nat} (h : s.ptr = some i) : i ∈ s.indices := by
  cases s with
  | nil => simp [Shape.ptr] at h
  | node j c l v r => simp [Shape.ptr] at h; simp [Shape.indices, h]

@[simp] theorem Shape.ptr_nil : (Shape.nil : Shape T).ptr = none := rfl
@[simp] theorem Shape.ptr_node (i : Nat) (c : RBColor) (l : Shape T) (v : T) (r : Shape T) :
    (Shape.node i c l v r).ptr = some i := rfl
@[simp] theorem Shape.indices_nil : (Shape.nil : Shape T).indices = [] := rfl
@[simp] theorem Shape.indices_node (i : Nat) (c : RBColor) (l : Shape T) (v : T) (r : Shape T) :
    (Shape.node i c l v r).indices = i :: (l.indices ++ r.indices) := rfl
@[simp] theorem Path.indices_top : (Path.top : Path T).indices = [] := rfl
@[simp] theorem Path.indices_left (up : Path T) (i : Nat) (c : RBColor) (v : T) (r : Shape T) :
    (Path.left up i c v r).indices = i :: (r.indices ++ up.indices) := rfl
@[simp] theorem Path.indices_right (up : Path T) (i : Nat) (c : RBColor) (l : Shape T) (v : T) :
    (Path.right up i c l v).indices = i :: (l.indices ++ up.indices) := rfl
@[simp] theorem Path.hp_top : (Path.top : Path T).hp = none := rfl
@[simp] theorem Path.hp_left (up : Path T) (i : Nat) (c : RBColor) (v : T) (r : Shape T) :
    (Path.left up i c v r).hp = some i := rfl
@[simp] theorem Path.hp_right (up : Path T) (i : Nat) (c : RBColor) (l : Shape T) (v : T) :
    (Path.right up i c l v).hp = some i := rfl
@[simp] theorem Path.rootPtr_top (h : Option Nat) : (Path.top : Path T).rootPtr h = h := rfl
@[simp] theorem Path.rootPtr_left (up : Path T) (i : Nat) (c : RBColor) (v : T) (r : Shape T)
    (h : Option Nat) : (Path.left up i c v r).rootPtr h = up.rootPtr (some i) := rfl
@[simp] theorem Path.rootPtr_right (up : Path T) (i : Nat) (c : RBColor) (l : Shape T) (v : T)
    (h : Option Nat) : (Path.right up i c l v).rootPtr h = up.rootPtr (some i) := rfl

theorem rep_nil (t : RBTree T) (par : Option Nat) : Rep t par .nil := trivial
theorem rep_node (t : RBTree T) (par : Option Nat) (i : Nat) (c : RBColor) (l : Shape T) (v : T)
    (r : Shape T) : Rep t par (.node i c l v r) ↔
      t.get i = some ⟨v, c, l.ptr, r.ptr, par⟩ ∧ Rep t (some i) l ∧ Rep t (some i) r := Iff.rfl
theorem repPath_top (t : RBTree T) (h : Option Nat) : RepPath t .top h := trivial
theorem repPath_left (t : RBTree T) (up : Path T) (i : Nat) (c : RBColor) (v : T) (r : Shape T)
    (h : Option Nat) : RepPath t (.left up i c v r) h ↔
      t.get i = some ⟨v, c, h, r.ptr, up.hp⟩ ∧ Rep t (some i) r ∧ RepPath t up (some i) := Iff.rfl
theorem repPath_right (t : RBTree T) (up : Path T) (i : Nat) (c : RBColor) (l : Shape T) (v : T)
    (h : Option Nat) : RepPath t (.right up i c l v) h ↔
      t.get i = some ⟨v, c, l.ptr, h, up.hp⟩ ∧ Rep t (some i) l ∧ RepPath t up (some i) := Iff.rfl

theorem Rep.put {t : RBTree T} {s : Shape T} {par : Option Nat} {i : Nat} {n : RBNode T}
    (h : Rep t par s) (hi : i ∉ s.indices) : Rep (t.put i n) par s := by
  refine h.frame fun j hj => ?_
  have : j ≠ i := fun e => hi (e ▸ hj)
  simp [get_put, this]

theorem Rep.set_root {t : RBTree T} {s : Shape T} {par : Option Nat} {q : Option Nat}
    (h : Rep t par s) : Rep (t.set_root q) par s :=
  h.frame fun _ _ => rfl

theorem RepPath.put_path {t : RBTree T} {p : Path T} {q : Option Nat} {i : Nat} {n : RBNode T}
    (h : RepPath t p q) (hi : i ∉ p.indices) : RepPath (t.put i n) p q := by
  refine h.frame_path fun j hj => ?_
  have : j ≠ i := fun e => hi (e ▸ hj)
  simp [get_put, this]

theorem RepPath.set_root_path {t : RBTree T} {p : Path T} {h : Option Nat} {q : Option Nat}
    (hp : RepPath t p h) : RepPath (t.set_root q) p h :=
  hp.frame_path fun _ _ => rfl

theorem rep_put {t : RBTree T} {s : Shape T} {par : Option Nat} {i : Nat} {n : RBNode T}
    (hi : i ∉ s.indices) : Rep (t.put i n) par s ↔ Rep t par s := by
  constructor
  · intro h
    refine h.frame fun j hj => ?_
    have : j ≠ i := fun e => hi (e ▸ hj)
    simp [get_put, this]
  · exact fun h => h.put hi

@[simp] theorem rep_set_root {t : RBTree T} {s : Shape T} {par : Option Nat} {q : Option Nat} :
    Rep (t.set_root q) par s ↔ Rep t par s :=
  ⟨fun h => h.frame fun _ _ => rfl, fun h => h.set_root⟩

theorem repPath_put {t : RBTree T} {p : Path T} {q : Option Nat} {i : Nat} {n : RBNode T}
    (hi : i ∉ p.indices) : RepPath (t.put i n) p q ↔ RepPath t p q := by
  constructor
  · intro h
    refine h.frame_path fun j hj => ?_
    have : j ≠ i := fun e => hi (e ▸ hj)
    simp [get_put, this]
  · exact fun h => h.put_path hi

@[simp] theorem repPath_set_root {t : RBTree T} {p : Path T} {h : Option Nat} {q : Option Nat} :
    RepPath (t.set_root q) p h ↔ RepPath t p h :=
  ⟨fun hp => hp.frame_path fun _ _ => rfl, fun hp => hp.set_root_path⟩

theorem nodup_of_perm {l l' : List Nat} (h : l.Nodup) (hp : ∀ a, l'.count a = l.count a) :
    l'.Nodup :=
  (List.Perm.nodup_iff (List.perm_iff_count.mpr hp)).mpr h

set_option maxHeartbeats 4000000 in
theorem rotate_left_models {t : RBTree T} {path : Path T} {x y : Nat} {cx cy : RBColor}
    {A B D : Shape T} {v w : T}
    (h : Models t path (.node x cx A v (.node y cy B w D))) :
    ∃ t', rotate_left t x = some t' ∧ t'.node_arena.length = t.node_arena.length ∧
      Models t' path (.node y cy (.node x cx A v B) w D) := by
  obtain ⟨hroot, habove, hbelow, hnd⟩ := h
  obtain ⟨hx, hA, hy, hB, hD⟩ := hbelow
  have hnd' := hnd
  rcases B with _ | ⟨b, cb, Bl, bv, Br⟩ <;>
    rcases path with _ | ⟨up, h, ch, hv, hs⟩ | ⟨up, h, ch, hs, hv⟩
  · -- promoted child's inner subtree nil, at the root
    simp only [Shape.ptr_nil, Shape.ptr_node, Path.hp_top, Path.hp_left, Path.hp_right, Path.rootPtr_top, Path.rootPtr_left, Path.rootPtr_right] at hx hy hroot
    simp only [Shape.indices_node, Shape.indices_nil, Path.indices_top, Path.indices_left,
        Path.indices_right, List.nodup_append, List.nodup_cons, List.mem_append, List.mem_cons,
        List.disjoint_cons_right, List.disjoint_cons_left, List.disjoint_append_left,
        List.disjoint_append_right, List.nodup_nil, List.not_mem_nil, List.disjoint_nil_left,
        List.disjoint_nil_right, not_or, not_false_eq_true, true_and, and_true] at hnd
    have h_xy : x ≠ y := by rintro rfl; simp at hnd
    have h_yx : y ≠ x := by rintro rfl; simp at hnd
    simp [rotate_left, RBTree.set_child_r, RBTree.set_parent, RBTree.set_child_l, get_put,
      hx, hy, h_xy, h_yx]
    refine ⟨by simp [hroot], ?_, ?_, ?_⟩
    · trivial
    · simp only [rep_node, Shape.ptr_nil, Shape.ptr_node, Path.hp_top, Path.hp_left, Path.hp_right, Path.rootPtr_top, Path.rootPtr_left, Path.rootPtr_right]
      exact ⟨by simp [get_put, hx, hy, h_xy, h_yx], ⟨by simp [get_put, hx, hy, h_xy, h_yx], by simp [rep_put, hnd, hA, hD], trivial⟩, by simp [rep_put, hnd, hA, hD]⟩
    · refine nodup_of_perm hnd' fun a => ?_
      simp only [Shape.indices_node, Shape.indices_nil, Path.indices_top, Path.indices_left,
        Path.indices_right, List.count_append, List.count_cons, List.count_nil]
      omega
  · -- promoted child's inner subtree nil, under a left slot
    obtain ⟨hh, hhs, hup⟩ := habove
    simp only [Shape.ptr_nil, Shape.ptr_node, Path.hp_top, Path.hp_left, Path.hp_right, Path.rootPtr_top, Path.rootPtr_left, Path.rootPtr_right] at hx hy hroot hh
    simp only [Shape.indices_node, Shape.indices_nil, Path.indices_top, Path.indices_left,
        Path.indices_right, List.nodup_append, List.nodup_cons, List.mem_append, List.mem_cons,
        List.disjoint_cons_right, List.disjoint_cons_left, List.disjoint_append_left,
        List.disjoint_append_right, List.nodup_nil, List.not_mem_nil, List.disjoint_nil_left,
        List.disjoint_nil_right, not_or, not_false_eq_true, true_and, and_true] at hnd
    have h_xy : x ≠ y := by rintro rfl; simp at hnd
    have h_xh : x ≠ h := by rintro rfl; simp at hnd
    have h_yx : y ≠ x := by rintro rfl; simp at hnd
    have h_yh : y ≠ h := by rintro rfl; simp at hnd
    have h_hx : h ≠ x := by rintro rfl; simp at hnd
    have h_hy : h ≠ y := by rintro rfl; simp at hnd
    have h_sx : hs.ptr ≠ some x := by
      intro e; have := Shape.ptr_mem e; simp [this] at hnd
    simp [rotate_left, RBTree.set_child_r, RBTree.set_parent, RBTree.set_child_l, get_put,
      hx, hy, hh, h_xy, h_xh, h_yx, h_yh, h_hx, h_hy, h_sx]
    refine ⟨by simp [hroot], ?_, ?_, ?_⟩
    · simp only [repPath_left, Shape.ptr_node]
      refine ⟨by simp [get_put, hx, hy, hh, h_xy, h_xh, h_yx, h_yh, h_hx, h_hy, h_sx], ?_, ?_⟩
      · simp [rep_put, hnd, hhs]
      · simp [repPath_put, hnd, hup]
    · simp only [rep_node, Shape.ptr_nil, Shape.ptr_node, Path.hp_top, Path.hp_left, Path.hp_right, Path.rootPtr_top, Path.rootPtr_left, Path.rootPtr_right]
      exact ⟨by simp [get_put, hx, hy, hh, h_xy, h_xh, h_yx, h_yh, h_hx, h_hy, h_sx], ⟨by simp [get_put, hx, hy, hh, h_xy, h_xh, h_yx, h_yh, h_hx, h_hy, h_sx], by simp [rep_put, hnd, hA, hD], trivial⟩, by simp [rep_put, hnd, hA, hD]⟩
    · refine nodup_of_perm hnd' fun a => ?_
      simp only [Shape.indices_node, Shape.indices_nil, Path.indices_top, Path.indices_left,
        Path.indices_right, List.count_append, List.count_cons, List.count_nil]
      omega
  · -- promoted child's inner subtree nil, under a right slot
    obtain ⟨hh, hhs, hup⟩ := habove
    simp only [Shape.ptr_nil, Shape.ptr_node, Path.hp_top, Path.hp_left, Path.hp_right, Path.rootPtr_top, Path.rootPtr_left, Path.rootPtr_right] at hx hy hroot hh
    simp only [Shape.indices_node, Shape.indices_nil, Path.indices_top, Path.indices_left,
        Path.indices_right, List.nodup_append, List.nodup_cons, List.mem_append, List.mem_cons,
        List.disjoint_cons_right, List.disjoint_cons_left, List.disjoint_append_left,
        List.disjoint_append_right, List.nodup_nil, List.not_mem_nil, List.disjoint_nil_left,
        List.disjoint_nil_right, not_or, not_false_eq_true, true_and, and_true] at hnd
    have h_xy : x ≠ y := by rintro rfl; simp at hnd
    have h_xh : x ≠ h := by rintro rfl; simp at hnd
    have h_yx : y ≠ x := by rintro rfl; simp at hnd
    have h_yh : y ≠ h := by rintro rfl; simp at hnd
    have h_hx : h ≠ x := by rintro rfl; simp at hnd
    have h_hy : h ≠ y := by rintro rfl; simp at hnd
    simp [rotate_left, RBTree.set_child_r, RBTree.set_parent, RBTree.set_child_l, get_put,
      hx, hy, hh, h_xy, h_xh, h_yx, h_yh, h_hx, h_hy]
    refine ⟨by simp [hroot], ?_, ?_, ?_⟩
    · simp only [repPath_right, Shape.ptr_node]
      refine ⟨by simp [get_put, hx, hy, hh, h_xy, h_xh, h_yx, h_yh, h_hx, h_hy], ?_, ?_⟩
      · simp [rep_put, hnd, hhs]
      · simp [repPath_put, hnd, hup]
    · simp only [rep_node, Shape.ptr_nil, Shape.ptr_node, Path.hp_top, Path.hp_left, Path.hp_right, Path.rootPtr_top, Path.rootPtr_left, Path.rootPtr_right]
      exact ⟨by simp [get_put, hx, hy, hh, h_xy, h_xh, h_yx, h_yh, h_hx, h_hy], ⟨by simp [get_put, hx, hy, hh, h_xy, h_xh, h_yx, h_yh, h_hx, h_hy], by simp [rep_put, hnd, hA, hD], trivial⟩, by simp [rep_put, hnd, hA, hD]⟩
    · refine nodup_of_perm hnd' fun a => ?_
      simp only [Shape.indices_node, Shape.indices_nil, Path.indices_top, Path.indices_left,
        Path.indices_right, List.count_append, List.count_cons, List.count_nil]
      omega
  · -- promoted child's inner subtree present, at the root
    obtain ⟨hb, hBl, hBr⟩ := hB
    simp only [Shape.ptr_nil, Shape.ptr_node, Path.hp_top, Path.hp_left, Path.hp_right, Path.rootPtr_top, Path.rootPtr_left, Path.rootPtr_right] at hx hy hroot hb
    simp only [Shape.indices_node, Shape.indices_nil, Path.indices_top, Path.indices_left,
        Path.indices_right, List.nodup_append, List.nodup_cons, List.mem_append, List.mem_cons,
        List.disjoint_cons_right, List.disjoint_cons_left, List.disjoint_append_left,
        List.disjoint_append_right, List.nodup_nil, List.not_mem_nil, List.disjoint_nil_left,
        List.disjoint_nil_right, not_or, not_false_eq_true, true_and, and_true] at hnd
    have h_xy : x ≠ y := by rintro rfl; simp at hnd
    have h_xb : x ≠ b := by rintro rfl; simp at hnd
    have h_yx : y ≠ x := by rintro rfl; simp at hnd
    have h_yb : y ≠ b := by rintro rfl; simp at hnd
    have h_bx : b ≠ x := by rintro rfl; simp at hnd
    have h_by : b ≠ y := by rintro rfl; simp at hnd
    simp [rotate_left, RBTree.set_child_r, RBTree.set_parent, RBTree.set_child_l, get_put,
      hx, hy, hb, h_xy, h_xb, h_yx, h_yb, h_bx, h_by]
    refine ⟨by simp [hroot], ?_, ?_, ?_⟩
    · trivial
    · simp only [rep_node, Shape.ptr_nil, Shape.ptr_node, Path.hp_top, Path.hp_left, Path.hp_right, Path.rootPtr_top, Path.rootPtr_left, Path.rootPtr_right]
      exact ⟨by simp [get_put, hx, hy, hb, h_xy, h_xb, h_yx, h_yb, h_bx, h_by], ⟨by simp [get_put, hx, hy, hb, h_xy, h_xb, h_yx, h_yb, h_bx, h_by], by simp [rep_put, hnd, hA, hD, hBl, hBr], ⟨by simp [get_put, hx, hy, hb, h_xy, h_xb, h_yx, h_yb, h_bx, h_by], by simp [rep_put, hnd, hA, hD, hBl, hBr], by simp [rep_put, hnd, hA, hD, hBl, hBr]⟩⟩, by simp [rep_put, hnd, hA, hD, hBl, hBr]⟩
    · refine nodup_of_perm hnd' fun a => ?_
      simp only [Shape.indices_node, Shape.indices_nil, Path.indices_top, Path.indices_left,
        Path.indices_right, List.count_append, List.count_cons, List.count_nil]
      omega
  · -- promoted child's inner subtree present, under a left slot
    obtain ⟨hb, hBl, hBr⟩ := hB
    obtain ⟨hh, hhs, hup⟩ := habove
    simp only [Shape.ptr_nil, Shape.ptr_node, Path.hp_top, Path.hp_left, Path.hp_right, Path.rootPtr_top, Path.rootPtr_left, Path.rootPtr_right] at hx hy hroot hb hh
    simp only [Shape.indices_node, Shape.indices_nil, Path.indices_top, Path.indices_left,
        Path.indices_right, List.nodup_append, List.nodup_cons, List.mem_append, List.mem_cons,
        List.disjoint_cons_right, List.disjoint_cons_left, List.disjoint_append_left,
        List.disjoint_append_right, List.nodup_nil, List.not_mem_nil, List.disjoint_nil_left,
        List.disjoint_nil_right, not_or, not_false_eq_true, true_and, and_true] at hnd
    have h_xy : x ≠ y := by rintro rfl; simp at hnd
    have h_xb : x ≠ b := by rintro rfl; simp at hnd
    have h_xh : x ≠ h := by rintro rfl; simp at hnd
    have h_yx : y ≠ x := by rintro rfl; simp at hnd
    have h_yb : y ≠ b := by rintro rfl; simp at hnd
    have h_yh : y ≠ h := by rintro rfl; simp at hnd
    have h_bx : b ≠ x := by rintro rfl; simp at hnd
    have h_by : b ≠ y := by rintro rfl; simp at hnd
    have h_bh : b ≠ h := by rintro rfl; simp at hnd
    have h_hx : h ≠ x := by rintro rfl; simp at hnd
    have h_hy : h ≠ y := by rintro rfl; simp at hnd
    have h_hb : h ≠ b := by rintro rfl; simp at hnd
    have h_sx : hs.ptr ≠ some x := by
      intro e; have := Shape.ptr_mem e; simp [this] at hnd
    simp [rotate_left, RBTree.set_child_r, RBTree.set_parent, RBTree.set_child_l, get_put,
      hx, hy, hb, hh, h_xy, h_xb, h_xh, h_yx, h_yb, h_yh, h_bx, h_by, h_bh, h_hx, h_hy, h_hb, h_sx]
    refine ⟨by simp [hroot], ?_, ?_, ?_⟩
    · simp only [repPath_left, Shape.ptr_node]
      refine ⟨by simp [get_put, hx, hy, hb, hh, h_xy, h_xb, h_xh, h_yx, h_yb, h_yh, h_bx, h_by, h_bh, h_hx, h_hy, h_hb, h_sx], ?_, ?_⟩
      · simp [rep_put, hnd, hhs]
      · simp [repPath_put, hnd, hup]
    · simp only [rep_node, Shape.ptr_nil, Shape.ptr_node, Path.hp_top, Path.hp_left, Path.hp_right, Path.rootPtr_top, Path.rootPtr_left, Path.rootPtr_right]
      exact ⟨by simp [get_put, hx, hy, hb, hh, h_xy, h_xb, h_xh, h_yx, h_yb, h_yh, h_bx, h_by, h_bh, h_hx, h_hy, h_hb, h_sx], ⟨by simp [get_put, hx, hy, hb, hh, h_xy, h_xb, h_xh, h_yx, h_yb, h_yh, h_bx, h_by, h_bh, h_hx, h_hy, h_hb, h_sx], by simp [rep_put, hnd, hA, hD, hBl, hBr], ⟨by simp [get_put, hx, hy, hb, hh, h_xy, h_xb, h_xh, h_yx, h_yb, h_yh, h_bx, h_by, h_bh, h_hx, h_hy, h_hb, h_sx], by simp [rep_put, hnd, hA, hD, hBl, hBr], by simp [rep_put, hnd, hA, hD, hBl, hBr]⟩⟩, by simp [rep_put, hnd, hA, hD, hBl, hBr]⟩
    · refine nodup_of_perm hnd' fun a => ?_
      simp only [Shape.indices_node, Shape.indices_nil, Path.indices_top, Path.indices_left,
        Path.indices_right, List.count_append, List.count_cons, List.count_nil]
      omega
  · -- promoted child's inner subtree present, under a right slot
    obtain ⟨hb, hBl, hBr⟩ := hB
    obtain ⟨hh, hhs, hup⟩ := habove
    simp only [Shape.ptr_nil, Shape.ptr_node, Path.hp_top, Path.hp_left, Path.hp_right, Path.rootPtr_top, Path.rootPtr_left, Path.rootPtr_right] at hx hy hroot hb hh
    simp only [Shape.indices_node, Shape.indices_nil, Path.indices_top, Path.indices_left,
        Path.indices_right, List.nodup_append, List.nodup_cons, List.mem_append, List.mem_cons,
        List.disjoint_cons_right, List.disjoint_cons_left, List.disjoint_append_left,
        List.disjoint_append_right, List.nodup_nil, List.not_mem_nil, List.disjoint_nil_left,
        List.disjoint_nil_right, not_or, not_false_eq_true, true_and, and_true] at hnd
    have h_xy : x ≠ y := by rintro rfl; simp at hnd
    have h_xb : x ≠ b := by rintro rfl; simp at hnd
    have h_xh : x ≠ h := by rintro rfl; simp at hnd
    have h_yx : y ≠ x := by rintro rfl; simp at hnd
    have h_yb : y ≠ b := by rintro rfl; simp at hnd
    have h_yh : y ≠ h := by rintro rfl; simp at hnd
    have h_bx : b ≠ x := by rintro rfl; simp at hnd
    have h_by : b ≠ y := by rintro rfl; simp at hnd
    have h_bh : b ≠ h := by rintro rfl; simp at hnd
    have h_hx : h ≠ x := by rintro rfl; simp at hnd
    have h_hy : h ≠ y := by rintro rfl; simp at hnd
    have h_hb : h ≠ b := by rintro rfl; simp at hnd
    simp [rotate_left, RBTree.set_child_r, RBTree.set_parent, RBTree.set_child_l, get_put,
      hx, hy, hb, hh, h_xy, h_xb, h_xh, h_yx, h_yb, h_yh, h_bx, h_by, h_bh, h_hx, h_hy, h_hb]
    refine ⟨by simp [hroot], ?_, ?_, ?_⟩
    · simp only [repPath_right, Shape.ptr_node]
      refine ⟨by simp [get_put, hx, hy, hb, hh, h_xy, h_xb, h_xh, h_yx, h_yb, h_yh, h_bx, h_by, h_bh, h_hx, h_hy, h_hb], ?_, ?_⟩
      · simp [rep_put, hnd, hhs]
      · simp [repPath_put, hnd, hup]
    · simp only [rep_node, Shape.ptr_nil, Shape.ptr_node, Path.hp_top, Path.hp_left, Path.hp_right, Path.rootPtr_top, Path.rootPtr_left, Path.rootPtr_right]
      exact ⟨by simp [get_put, hx, hy, hb, hh, h_xy, h_xb, h_xh, h_yx, h_yb, h_yh, h_bx, h_by, h_bh, h_hx, h_hy, h_hb], ⟨by simp [get_put, hx, hy, hb, hh, h_xy, h_xb, h_xh, h_yx, h_yb, h_yh, h_bx, h_by, h_bh, h_hx, h_hy, h_hb], by simp [rep_put, hnd, hA, hD, hBl, hBr], ⟨by simp [get_put, hx, hy, hb, hh, h_xy, h_xb, h_xh, h_yx, h_yb, h_yh, h_bx, h_by, h_bh, h_hx, h_hy, h_hb], by simp [rep_put, hnd, hA, hD, hBl, hBr], by simp [rep_put, hnd, hA, hD, hBl, hBr]⟩⟩, by simp [rep_put, hnd, hA, hD, hBl, hBr]⟩
    · refine nodup_of_perm hnd' fun a => ?_
      simp only [Shape.indices_node, Shape.indices_nil, Path.indices_top, Path.indices_left,
        Path.indices_right, List.count_append, List.count_cons, List.count_nil]
      omega

set_option maxHeartbeats 4000000 in
theorem rotate_right_models {t : RBTree T} {path : Path T} {x y : Nat} {cx cy : RBColor}
    {A B D : Shape T} {v w : T}
    (h : Models t path (.node x cx (.node y cy A w B) v D)) :
    ∃ t', rotate_right t x = some t' ∧ t'.node_arena.length = t.node_arena.length ∧
      Models t' path (.node y cy A w (.node x cx B v D)) := by
  obtain ⟨hroot, habove, hbelow, hnd⟩ := h
  obtain ⟨hx, ⟨hy, hA, hB⟩, hD⟩ := hbelow
  have hnd' := hnd
  rcases B with _ | ⟨b, cb, Bl, bv, Br⟩ <;>
    rcases path with _ | ⟨up, h, ch, hv, hs⟩ | ⟨up, h, ch, hs, hv⟩
  · -- promoted child's inner subtree nil, at the root
    simp only [Shape.ptr_nil, Shape.ptr_node, Path.hp_top, Path.hp_left, Path.hp_right, Path.rootPtr_top, Path.rootPtr_left, Path.rootPtr_right] at hx hy hroot
    simp only [Shape.indices_node, Shape.indices_nil, Path.indices_top, Path.indices_left,
        Path.indices_right, List.nodup_append, List.nodup_cons, List.mem_append, List.mem_cons,
        List.disjoint_cons_right, List.disjoint_cons_left, List.disjoint_append_left,
        List.disjoint_append_right, List.nodup_nil, List.not_mem_nil, List.disjoint_nil_left,
        List.disjoint_nil_right, not_or, not_false_eq_true, true_and, and_true] at hnd
    have h_xy : x ≠ y := by rintro rfl; simp at hnd
    have h_yx : y ≠ x := by rintro rfl; simp at hnd
    simp [rotate_right, RBTree.set_child_r, RBTree.set_parent, RBTree.set_child_l, get_put,
      hx, hy, h_xy, h_yx]
    refine ⟨by simp [hroot], ?_, ?_, ?_⟩
    · trivial
    · simp only [rep_node, Shape.ptr_nil, Shape.ptr_node, Path.hp_top, Path.hp_left, Path.hp_right, Path.rootPtr_top, Path.rootPtr_left, Path.rootPtr_right]
      exact ⟨by simp [get_put, hx, hy, h_xy, h_yx], by simp [rep_put, hnd, hA, hD], ⟨by simp [get_put, hx, hy, h_xy, h_yx], trivial, by simp [rep_put, hnd, hA, hD]⟩⟩
    · refine nodup_of_perm hnd' fun a => ?_
      simp only [Shape.indices_node, Shape.indices_nil, Path.indices_top, Path.indices_left,
        Path.indices_right, List.count_append, List.count_cons, List.count_nil]
      omega
  · -- promoted child's inner subtree nil, under a left slot
    obtain ⟨hh, hhs, hup⟩ := habove
    simp only [Shape.ptr_nil, Shape.ptr_node, Path.hp_top, Path.hp_left, Path.hp_right, Path.rootPtr_top, Path.rootPtr_left, Path.rootPtr_right] at hx hy hroot hh
    simp only [Shape.indices_node, Shape.indices_nil, Path.indices_top, Path.indices_left,
        Path.indices_right, List.nodup_append, List.nodup_cons, List.mem_append, List.mem_cons,
        List.disjoint_cons_right, List.disjoint_cons_left, List.disjoint_append_left,
        List.disjoint_append_right, List.nodup_nil, List.not_mem_nil, List.disjoint_nil_left,
        List.disjoint_nil_right, not_or, not_false_eq_true, true_and, and_true] at hnd
    have h_xy : x ≠ y := by rintro rfl; simp at hnd
    have h_xh : x ≠ h := by rintro rfl; simp at hnd
    have h_yx : y ≠ x := by rintro rfl; simp at hnd
    have h_yh : y ≠ h := by rintro rfl; simp at hnd
    have h_hx : h ≠ x := by rintro rfl; simp at hnd
    have h_hy : h ≠ y := by rintro rfl; simp at hnd
    simp [rotate_right, RBTree.set_child_r, RBTree.set_parent, RBTree.set_child_l, get_put,
      hx, hy, hh, h_xy, h_xh, h_yx, h_yh, h_hx, h_hy]
    refine ⟨by simp [hroot], ?_, ?_, ?_⟩
    · simp only [repPath_left, Shape.ptr_node]
      refine ⟨by simp [get_put, hx, hy, hh, h_xy, h_xh, h_yx, h_yh, h_hx, h_hy], ?_, ?_⟩
      · simp [rep_put, hnd, hhs]
      · simp [repPath_put, hnd, hup]
    · simp only [rep_node, Shape.ptr_nil, Shape.ptr_node, Path.hp_top, Path.hp_left, Path.hp_right, Path.rootPtr_top, Path.rootPtr_left, Path.rootPtr_right]
      exact ⟨by simp [get_put, hx, hy, hh, h_xy, h_xh, h_yx, h_yh, h_hx, h_hy], by simp [rep_put, hnd, hA, hD], ⟨by simp [get_put, hx, hy, hh, h_xy, h_xh, h_yx, h_yh, h_hx, h_hy], trivial, by simp [rep_put, hnd, hA, hD]⟩⟩
    · refine nodup_of_perm hnd' fun a => ?_
      simp only [Shape.indices_node, Shape.indices_nil, Path.indices_top, Path.indices_left,
        Path.indices_right, List.count_append, List.count_cons, List.count_nil]
      omega
  · -- promoted child's inner subtree nil, under a right slot
    obtain ⟨hh, hhs, hup⟩ := habove
    simp only [Shape.ptr_nil, Shape.ptr_node, Path.hp_top, Path.hp_left, Path.hp_right, Path.rootPtr_top, Path.rootPtr_left, Path.rootPtr_right] at hx hy hroot hh
    simp only [Shape.indices_node, Shape.indices_nil, Path.indices_top, Path.indices_left,
        Path.indices_right, List.nodup_append, List.nodup_cons, List.mem_append, List.mem_cons,
        List.disjoint_cons_right, List.disjoint_cons_left, List.disjoint_append_left,
        List.disjoint_append_right, List.nodup_nil, List.not_mem_nil, List.disjoint_nil_left,
        List.disjoint_nil_right, not_or, not_false_eq_true, true_and, and_true] at hnd
    have h_xy : x ≠ y := by rintro rfl; simp at hnd
    have h_xh : x ≠ h := by rintro rfl; simp at hnd
    have h_yx : y ≠ x := by rintro rfl; simp at hnd
    have h_yh : y ≠ h := by rintro rfl; simp at hnd
    have h_hx : h ≠ x := by rintro rfl; simp at hnd
    have h_hy : h ≠ y := by rintro rfl; simp at hnd
    have h_sx : hs.ptr ≠ some x := by
      intro e; have := Shape.ptr_mem e; simp [this] at hnd
    simp [rotate_right, RBTree.set_child_r, RBTree.set_parent, RBTree.set_child_l, get_put,
      hx, hy, hh, h_xy, h_xh, h_yx, h_yh, h_hx, h_hy, h_sx]
    refine ⟨by simp [hroot], ?_, ?_, ?_⟩
    · simp only [repPath_right, Shape.ptr_node]
      refine ⟨by simp [get_put, hx, hy, hh, h_xy, h_xh, h_yx, h_yh, h_hx, h_hy, h_sx], ?_, ?_⟩
      · simp [rep_put, hnd, hhs]
      · simp [repPath_put, hnd, hup]
    · simp only [rep_node, Shape.ptr_nil, Shape.ptr_node, Path.hp_top, Path.hp_left, Path.hp_right, Path.rootPtr_top, Path.rootPtr_left, Path.rootPtr_right]
      exact ⟨by simp [get_put, hx, hy, hh, h_xy, h_xh, h_yx, h_yh, h_hx, h_hy, h_sx], by simp [rep_put, hnd, hA, hD], ⟨by simp [get_put, hx, hy, hh, h_xy, h_xh, h_yx, h_yh, h_hx, h_hy, h_sx], trivial, by simp [rep_put, hnd, hA, hD]⟩⟩
    · refine nodup_of_perm hnd' fun a => ?_
      simp only [Shape.indices_node, Shape.indices_nil, Path.indices_top, Path.indices_left,
        Path.indices_right, List.count_append, List.count_cons, List.count_nil]
      omega
  · -- promoted child's inner subtree present, at the root
    obtain ⟨hb, hBl, hBr⟩ := hB
    simp only [Shape.ptr_nil, Shape.ptr_node, Path.hp_top, Path.hp_left, Path.hp_right, Path.rootPtr_top, Path.rootPtr_left, Path.rootPtr_right] at hx hy hroot hb
    simp only [Shape.indices_node, Shape.indices_nil, Path.indices_top, Path.indices_left,
        Path.indices_right, List.nodup_append, List.nodup_cons, List.mem_append, List.mem_cons,
        List.disjoint_cons_right, List.disjoint_cons_left, List.disjoint_append_left,
        List.disjoint_append_right, List.nodup_nil, List.not_mem_nil, List.disjoint_nil_left,
        List.disjoint_nil_right, not_or, not_false_eq_true, true_and, and_true] at hnd
    have h_xy : x ≠ y := by rintro rfl; simp at hnd
    have h_xb : x ≠ b := by rintro rfl; simp at hnd
    have h_yx : y ≠ x := by rintro rfl; simp at hnd
    have h_yb : y ≠ b := by rintro rfl; simp at hnd
    have h_bx : b ≠ x := by rintro rfl; simp at hnd
    have h_by : b ≠ y := by rintro rfl; simp at hnd
    simp [rotate_right, RBTree.set_child_r, RBTree.set_parent, RBTree.set_child_l, get_put,
      hx, hy, hb, h_xy, h_xb, h_yx, h_yb, h_bx, h_by]
    refine ⟨by simp [hroot], ?_, ?_, ?_⟩
    · trivial
    · simp only [rep_node, Shape.ptr_nil, Shape.ptr_node, Path.hp_top, Path.hp_left, Path.hp_right, Path.rootPtr_top, Path.rootPtr_left, Path.rootPtr_right]
      exact ⟨by simp [get_put, hx, hy, hb, h_xy, h_xb, h_yx, h_yb, h_bx, h_by], by simp [rep_put, hnd, hA, hD, hBl, hBr], ⟨by simp [get_put, hx, hy, hb, h_xy, h_xb, h_yx, h_yb, h_bx, h_by], ⟨by simp [get_put, hx, hy, hb, h_xy, h_xb, h_yx, h_yb, h_bx, h_by], by simp [rep_put, hnd, hA, hD, hBl, hBr], by simp [rep_put, hnd, hA, hD, hBl, hBr]⟩, by simp [rep_put, hnd, hA, hD, hBl, hBr]⟩⟩
    · refine nodup_of_perm hnd' fun a => ?_
      simp only [Shape.indices_node, Shape.indices_nil, Path.indices_top, Path.indices_left,
        Path.indices_right, List.count_append, List.count_cons, List.count_nil]
      omega
  · -- promoted child's inner subtree present, under a left slot
    obtain ⟨hb, hBl, hBr⟩ := hB
    obtain ⟨hh, hhs, hup⟩ := habove
    simp only [Shape.ptr_nil, Shape.ptr_node, Path.hp_top, Path.hp_left, Path.hp_right, Path.rootPtr_top, Path.rootPtr_left, Path.rootPtr_right] at hx hy hroot hb hh
    simp only [Shape.indices_node, Shape.indices_nil, Path.indices_top, Path.indices_left,
        Path.indices_right, List.nodup_append, List.nodup_cons, List.mem_append, List.mem_cons,
        List.disjoint_cons_right, List.disjoint_cons_left, List.disjoint_append_left,
        List.disjoint_append_right, List.nodup_nil, List.not_mem_nil, List.disjoint_nil_left,
        List.disjoint_nil_right, not_or, not_false_eq_true, true_and, and_true] at hnd
    have h_xy : x ≠ y := by rintro rfl; simp at hnd
    have h_xb : x ≠ b := by rintro rfl; simp at hnd
    have h_xh : x ≠ h := by rintro rfl; simp at hnd
    have h_yx : y ≠ x := by rintro rfl; simp at hnd
    have h_yb : y ≠ b := by rintro rfl; simp at hnd
    have h_yh : y ≠ h := by rintro rfl; simp at hnd
    have h_bx : b ≠ x := by rintro rfl; simp at hnd
    have h_by : b ≠ y := by rintro rfl; simp at hnd
    have h_bh : b ≠ h := by rintro rfl; simp at hnd
    have h_hx : h ≠ x := by rintro rfl; simp at hnd
    have h_hy : h ≠ y := by rintro rfl; simp at hnd
    have h_hb : h ≠ b := by rintro rfl; simp at hnd
    simp [rotate_right, RBTree.set_child_r, RBTree.set_parent, RBTree.set_child_l, get_put,
      hx, hy, hb, hh, h_xy, h_xb, h_xh, h_yx, h_yb, h_yh, h_bx, h_by, h_bh, h_hx, h_hy, h_hb]
    refine ⟨by simp [hroot], ?_, ?_, ?_⟩
    · simp only [repPath_left, Shape.ptr_node]
      refine ⟨by simp [get_put, hx, hy, hb, hh, h_xy, h_xb, h_xh, h_yx, h_yb, h_yh, h_bx, h_by, h_bh, h_hx, h_hy, h_hb], ?_, ?_⟩
      · simp [rep_put, hnd, hhs]
      · simp [repPath_put, hnd, hup]
    · simp only [rep_node, Shape.ptr_nil, Shape.ptr_node, Path.hp_top, Path.hp_left, Path.hp_right, Path.rootPtr_top, Path.rootPtr_left, Path.rootPtr_right]
      exact ⟨by simp [get_put, hx, hy, hb, hh, h_xy, h_xb, h_xh, h_yx, h_yb, h_yh, h_bx, h_by, h_bh, h_hx, h_hy, h_hb], by simp [rep_put, hnd, hA, hD, hBl, hBr], ⟨by simp [get_put, hx, hy, hb, hh, h_xy, h_xb, h_xh, h_yx, h_yb, h_yh, h_bx, h_by, h_bh, h_hx, h_hy, h_hb], ⟨by simp [get_put, hx, hy, hb, hh, h_xy, h_xb, h_xh, h_yx, h_yb, h_yh, h_bx, h_by, h_bh, h_hx, h_hy, h_hb], by simp [rep_put, hnd, hA, hD, hBl, hBr], by simp [rep_put, hnd, hA, hD, hBl, hBr]⟩, by simp [rep_put, hnd, hA, hD, hBl, hBr]⟩⟩
    · refine nodup_of_perm hnd' fun a => ?_
      simp only [Shape.indices_node, Shape.indices_nil, Path.indices_top, Path.indices_left,
        Path.indices_right, List.count_append, List.count_cons, List.count_nil]
      omega
  · -- promoted child's inner subtree present, under a right slot
    obtain ⟨hb, hBl, hBr⟩ := hB
    obtain ⟨hh, hhs, hup⟩ := habove
    simp only [Shape.ptr_nil, Shape.ptr_node, Path.hp_top, Path.hp_left, Path.hp_right, Path.rootPtr_top, Path.rootPtr_left, Path.rootPtr_right] at hx hy hroot hb hh
    simp only [Shape.indices_node, Shape.indices_nil, Path.indices_top, Path.indices_left,
        Path.indices_right, List.nodup_append, List.nodup_cons, List.mem_append, List.mem_cons,
        List.disjoint_cons_right, List.disjoint_cons_left, List.disjoint_append_left,
        List.disjoint_append_right, List.nodup_nil, List.not_mem_nil, List.disjoint_nil_left,
        List.disjoint_nil_right, not_or, not_false_eq_true, true_and, and_true] at hnd
    have h_xy : x ≠ y := by rintro rfl; simp at hnd
    have h_xb : x ≠ b := by rintro rfl; simp at hnd
    have h_xh : x ≠ h := by rintro rfl; simp at hnd
    have h_yx : y ≠ x := by rintro rfl; simp at hnd
    have h_yb : y ≠ b := by rintro rfl; simp at hnd
    have h_yh : y ≠ h := by rintro rfl; simp at hnd
    have h_bx : b ≠ x := by rintro rfl; simp at hnd
    have h_by : b ≠ y := by rintro rfl; simp at hnd
    have h_bh : b ≠ h := by rintro rfl; simp at hnd
    have h_hx : h ≠ x := by rintro rfl; simp at hnd
    have h_hy : h ≠ y := by rintro rfl; simp at hnd
    have h_hb : h ≠ b := by rintro rfl; simp at hnd
    have h_sx : hs.ptr ≠ some x := by
      intro e; have := Shape.ptr_mem e; simp [this] at hnd
    simp [rotate_right, RBTree.set_child_r, RBTree.set_parent, RBTree.set_child_l, get_put,
      hx, hy, hb, hh, h_xy, h_xb, h_xh, h_yx, h_yb, h_yh, h_bx, h_by, h_bh, h_hx, h_hy, h_hb, h_sx]
    refine ⟨by simp [hroot], ?_, ?_, ?_⟩
    · simp only [repPath_right, Shape.ptr_node]
      refine ⟨by simp [get_put, hx, hy, hb, hh, h_xy, h_xb, h_xh, h_yx, h_yb, h_yh, h_bx, h_by, h_bh, h_hx, h_hy, h_hb, h_sx], ?_, ?_⟩
      · simp [rep_put, hnd, hhs]
      · simp [repPath_put, hnd, hup]
    · simp only [rep_node, Shape.ptr_nil, Shape.ptr_node, Path.hp_top, Path.hp_left, Path.hp_right, Path.rootPtr_top, Path.rootPtr_left, Path.rootPtr_right]
      exact ⟨by simp [get_put, hx, hy, hb, hh, h_xy, h_xb, h_xh, h_yx, h_yb, h_yh, h_bx, h_by, h_bh, h_hx, h_hy, h_hb, h_sx], by simp [rep_put, hnd, hA, hD, hBl, hBr], ⟨by simp [get_put, hx, hy, hb, hh, h_xy, h_xb, h_xh, h_yx, h_yb, h_yh, h_bx, h_by, h_bh, h_hx, h_hy, h_hb, h_sx], ⟨by simp [get_put, hx, hy, hb, hh, h_xy, h_xb, h_xh, h_yx, h_yb, h_yh, h_bx, h_by, h_bh, h_hx, h_hy, h_hb, h_sx], by simp [rep_put, hnd, hA, hD, hBl, hBr], by simp [rep_put, hnd, hA, hD, hBl, hBr]⟩, by simp [rep_put, hnd, hA, hD, hBl, hBr]⟩⟩
    · refine nodup_of_perm hnd' fun a => ?_
      simp only [Shape.indices_node, Shape.indices_nil, Path.indices_top, Path.indices_left,
        Path.indices_right, List.count_append, List.count_cons, List.count_nil]
      omega


end RB

/-! Part: The fixup on shapes keeps the red-black conditions. -/

namespace RB
variable {T : Type}

theorem Shape.blacken_inorder (s : Shape T) : s.blacken.inorder = s.inorder := by
  cases s <;> rfl

theorem Shape.blacken_indices (s : Shape T) : s.blacken.indices = s.indices := by
  cases s <;> rfl

theorem Shape.blacken_balanced {s : Shape T} (h : s.Balanced) : s.blacken.Balanced := by
  cases s with
  | nil => trivial
  | node i c l v r => exact h

theorem Shape.blacken_noRedRed {s : Shape T} (h : s.NoRedRed) : s.blacken.NoRedRed := by
  cases s with
  | nil => trivial
  | node i c l v r => simp only [Shape.blacken, Shape.noRedRed_node] at h ⊢; simp [h.2]

theorem Shape.blacken_color (s : Shape T) : s.blacken.color = RBColor.BLACK := by
  cases s <;> rfl

theorem Shape.blacken_bh_of_red {s : Shape T} (h : s.color = RBColor.RED) :
    s.blacken.bh = s.bh + 1 := by
  cases s with
  | nil => simp at h
  | node i c l v r => simp only [Shape.color_node] at h; subst h; simp [Shape.blacken]

theorem fixupOk_plug {path : Path T} {s : Shape T} (hb : s.Balanced) (hr : s.NoRedRed)
    (hpb : path.Balanced s.bh) (hpr : path.NoRedRed) (hc : path.color = RBColor.BLACK)
    (hp : path.hp ≠ none) : FixupOk path s (path.plug s) :=
  ⟨(rbValid_plug path s).mpr ⟨⟨hb, hpb⟩, hr, hpr, by simp [hc], fun e => absurd e hp⟩, rfl,
    fun _ => rfl⟩

theorem fixupF_valid : ∀ (path : Path T) (s : Shape T),
    s.color = RBColor.RED → s.Balanced → s.NoRedRed → path.Balanced s.bh → path.NoRedRed →
    ∃ R log, fixupF path s = some (R, log) ∧ FixupOk path s R
  | .top, s, _, hb, hr, _, _ => by
    refine ⟨_, _, rfl, ⟨s.blacken_balanced hb, s.blacken_noRedRed hr, s.blacken_color⟩, ?_, ?_⟩
    · simp [Shape.blacken_inorder]
    · simp [Shape.blacken_indices]
  | .left .top p cp pv pr, s, hc, hb, hr, hpb, hpr => by
    have hcp : cp = RBColor.BLACK := by simpa [Path.hp] using hpr.2.2.2.2
    subst hcp
    exact ⟨_, _, fixupF_black_left _ _ _ _ _, fixupOk_plug hb hr hpb hpr rfl (by simp [Path.hp])⟩
  | .right .top p cp pl pv, s, hc, hb, hr, hpb, hpr => by
    have hcp : cp = RBColor.BLACK := by simpa [Path.hp] using hpr.2.2.2.2
    subst hcp
    exact ⟨_, _, fixupF_black_right _ _ _ _ _, fixupOk_plug hb hr hpb hpr rfl (by simp [Path.hp])⟩
  | .left (.left up g cg gv u) p cp pv pr, s, hc, hb, hr, hpb, hpr => by
    rcases color_cases cp with rfl | rfl
    · exact ⟨_, _, fixupF_black_left _ _ _ _ _, fixupOk_plug hb hr hpb hpr rfl (by simp [Path.hp])⟩
    · simp only [Path.balanced_left, Path.noRedRed_left, Path.color_left, weight_red,
        add_zero, true_implies, reduceCtorEq, false_implies, and_true] at hpb hpr
      obtain ⟨hb1, hb2, hb3, hb4, hb5⟩ := hpb
      obtain ⟨hr1, hr2, ⟨hr3, hr4, hr5, hr6, hr7⟩, hr8, -⟩ := hpr
      have hcg : cg = RBColor.BLACK := (not_red_iff cg).mp hr8
      subst hcg
      by_cases hu : u.color = RBColor.RED
      · obtain ⟨R, log, e, ok⟩ := fixupF_valid up
          (.node g RBColor.RED (.node p RBColor.BLACK s pv pr) gv u.blacken) rfl
          (by simp [hb, hb1, hb2, hb3, hb4, Shape.blacken_bh_of_red hu, Shape.blacken_balanced])
          (by simp [hr, hr1, hr3, Shape.blacken_noRedRed, Shape.blacken_color])
          (by simpa using hb5) hr5
        have e' : fixupF (.left (.left up g RBColor.BLACK gv u) p RBColor.RED pv pr) s
            = some (R, Event.recurse g :: log) := by simp [fixupF, hu, e]
        refine ⟨R, _, e', ok.valid, ?_, ?_⟩
        · simp [ok.inorder, inorder_plug, Shape.blacken_inorder]
        · intro a
          simp [ok.indices, count_indices_plug, Shape.indices, Path.indices, Shape.blacken_indices]
      · rw [not_red_iff] at hu
        have e' : fixupF (.left (.left up g RBColor.BLACK gv u) p RBColor.RED pv pr) s
            = some (up.plug (.node p RBColor.BLACK s pv (.node g RBColor.RED pr gv u)),
                [Event.rotate_right g true]) := by simp [fixupF, hu]
        refine ⟨_, _, e', ?_, ?_, ?_⟩
        · refine (rbValid_plug _ _).mpr ⟨⟨?_, ?_⟩, ?_, hr5, ?_, ?_⟩
          · simp [hb, hb1, hb2, hb3, hb4]
          · simpa using hb5
          · simp [hr, hr1, hr3, hr2, hu]
          · simp
          · simp
        · simp [inorder_plug]
        · intro a
          simp only [count_indices_plug, Shape.indices, Path.indices, List.count_append,
            List.count_cons]
          omega
  | .right (.left up g cg gv u) p cp pl pv, s, hc, hb, hr, hpb, hpr => by
    rcases color_cases cp with rfl | rfl
    · exact ⟨_, _, fixupF_black_right _ _ _ _ _, fixupOk_plug hb hr hpb hpr rfl (by simp [Path.hp])⟩
    · simp only [Path.balanced_left, Path.balanced_right, Path.noRedRed_left,
        Path.noRedRed_right, Path.color_left, weight_red,
        add_zero, true_implies, reduceCtorEq, false_implies, and_true] at hpb hpr
      obtain ⟨hb1, hb2, hb3, hb4, hb5⟩ := hpb
      obtain ⟨hr1, hr2, ⟨hr3, hr4, hr5, hr6, hr7⟩, hr8, -⟩ := hpr
      have hcg : cg = RBColor.BLACK := (not_red_iff cg).mp hr8
      subst hcg
      by_cases hu : u.color = RBColor.RED
      · obtain ⟨R, log, e, ok⟩ := fixupF_valid up
          (.node g RBColor.RED (.node p RBColor.BLACK pl pv s) gv u.blacken) rfl
          (by simp [hb, hb1, hb2, hb3, hb4, Shape.blacken_bh_of_red hu, Shape.blacken_balanced])
          (by simp [hr, hr1, hr3, Shape.blacken_noRedRed, Shape.blacken_color])
          (by simpa [hb1] using hb5) hr5
        have e' : fixupF (.right (.left up g RBColor.BLACK gv u) p RBColor.RED pl pv) s
            = some (R, Event.recurse g :: log) := by simp [fixupF, hu, e]
        refine ⟨R, _, e', ok.valid, ?_, ?_⟩
        · simp [ok.inorder, inorder_plug, Shape.blacken_inorder]
        · intro a
          simp [ok.indices, count_indices_plug, Shape.indices, Path.indices, Shape.blacken_indices]
      · rw [not_red_iff] at hu
        obtain ⟨n, nl, nv, nr, rfl⟩ := node_of_red hc
        simp only [Shape.balanced_node, Shape.noRedRed_node, Shape.bh_node, weight_red,
          add_zero, true_implies] at hb hr hb1 hb3 hb5
        have e' : fixupF (.right (.left up g RBColor.BLACK gv u) p RBColor.RED pl pv)
            (.node n RBColor.RED nl nv nr)
            = some (up.plug (.node n RBColor.BLACK (.node p RBColor.RED pl pv nl) nv
                  (.node g RBColor.RED nr gv u)),
                [Event.rotate_left p true, Event.rotate_right g true]) := by simp [fixupF, hu]
        refine ⟨_, _, e', ?_, ?_, ?_⟩
        · refine (rbValid_plug _ _).mpr ⟨⟨?_, ?_⟩, ?_, hr5, ?_, ?_⟩
          · simp [hb, hb1, hb2, hb3, hb4]
          · simpa [hb1] using hb5
          · simp [hr, hr1, hr3, hr2, hu]
          · simp
          · simp
        · simp [inorder_plug]
        · intro a
          simp only [count_indices_plug, Shape.indices, Path.indices, List.count_append,
            List.count_cons]
          omega
  | .left (.right up g cg u gv) p cp pv pr, s, hc, hb, hr, hpb, hpr => by
    rcases color_cases cp with rfl | rfl
    · exact ⟨_, _, fixupF_black_left _ _ _ _ _, fixupOk_plug hb hr hpb hpr rfl (by simp [Path.hp])⟩
    · simp only [Path.balanced_left, Path.balanced_right, Path.noRedRed_left,
        Path.noRedRed_right, Path.color_right, weight_red,
        add_zero, true_implies, reduceCtorEq, false_implies, and_true] at hpb hpr
      obtain ⟨hb1, hb2, hb3, hb4, hb5⟩ := hpb
      obtain ⟨hr1, hr2, ⟨hr3, hr4, hr5, hr6, hr7⟩, hr8, -⟩ := hpr
      have hcg : cg = RBColor.BLACK := (not_red_iff cg).mp hr8
      subst hcg
      by_cases hu : u.color = RBColor.RED
      · obtain ⟨R, log, e, ok⟩ := fixupF_valid up
          (.node g RBColor.RED u.blacken gv (.node p RBColor.BLACK s pv pr)) rfl
          (by simp [hb, hb1, hb2, hb3, hb4, Shape.blacken_bh_of_red hu, Shape.blacken_balanced])
          (by simp [hr, hr1, hr3, Shape.blacken_noRedRed, Shape.blacken_color])
          (by simpa [hb3, Shape.blacken_bh_of_red hu] using hb5) hr5
        have e' : fixupF (.left (.right up g RBColor.BLACK u gv) p RBColor.RED pv pr) s
            = some (R, Event.recurse g :: log) := by simp [fixupF, hu, e]
        refine ⟨R, _, e', ok.valid, ?_, ?_⟩
        · simp [ok.inorder, inorder_plug, Shape.blacken_inorder]
        · intro a
          simp [ok.indices, count_indices_plug, Shape.indices, Path.indices, Shape.blacken_indices]
      · rw [not_red_iff] at hu
        obtain ⟨n, nl, nv, nr, rfl⟩ := node_of_red hc
        simp only [Shape.balanced_node, Shape.noRedRed_node, Shape.bh_node, weight_red,
          add_zero, true_implies] at hb hr hb1 hb3 hb5
        have e' : fixupF (.left (.right up g RBColor.BLACK u gv) p RBColor.RED pv pr)
            (.node n RBColor.RED nl nv nr)
            = some (up.plug (.node n RBColor.BLACK (.node g RBColor.RED u gv nl) nv
                  (.node p RBColor.RED nr pv pr)),
                [Event.rotate_right p true, Event.rotate_left g true]) := by simp [fixupF, hu]
        refine ⟨_, _, e', ?_, ?_, ?_⟩
        · refine (rbValid_plug _ _).mpr ⟨⟨?_, ?_⟩, ?_, hr5, ?_, ?_⟩
          · simp [hb, hb1, hb2, hb3, hb4]
          · simpa [hb3] using hb5
          · simp [hr, hr1, hr3, hr2, hu]
          · simp
          · simp
        · simp [inorder_plug]
        · intro a
          simp only [count_indices_plug, Shape.indices, Path.indices, List.count_append,
            List.count_cons]
          omega
  | .right (.right up g cg u gv) p cp pl pv, s, hc, hb, hr, hpb, hpr => by
    rcases color_cases cp with rfl | rfl
    · exact ⟨_, _, fixupF_black_right _ _ _ _ _, fixupOk_plug hb hr hpb hpr rfl (by simp [Path.hp])⟩
    · simp only [Path.balanced_left, Path.balanced_right, Path.noRedRed_left,
        Path.noRedRed_right, Path.color_right, weight_red,
        add_zero, true_implies, reduceCtorEq, false_implies, and_true] at hpb hpr
      obtain ⟨hb1, hb2, hb3, hb4, hb5⟩ := hpb
      obtain ⟨hr1, hr2, ⟨hr3, hr4, hr5, hr6, hr7⟩, hr8, -⟩ := hpr
      have hcg : cg = RBColor.BLACK := (not_red_iff cg).mp hr8
      subst hcg
      by_cases hu : u.color = RBColor.RED
      · obtain ⟨R, log, e, ok⟩ := fixupF_valid up
          (.node g RBColor.RED u.blacken gv (.node p RBColor.BLACK pl pv s)) rfl
          (by simp [hb, hb1, hb2, hb3, hb4, Shape.blacken_bh_of_red hu, Shape.blacken_balanced])
          (by simp [hr, hr1, hr3, Shape.blacken_noRedRed, Shape.blacken_color])
          (by simpa [hb3, Shape.blacken_bh_of_red hu] using hb5) hr5
        have e' : fixupF (.right (.right up g RBColor.BLACK u gv) p RBColor.RED pl pv) s
            = some (R, Event.recurse g :: log) := by simp [fixupF, hu, e]
        refine ⟨R, _, e', ok.valid, ?_, ?_⟩
        · simp [ok.inorder, inorder_plug, Shape.blacken_inorder]
        · intro a
          simp [ok.indices, count_indices_plug, Shape.indices, Path.indices, Shape.blacken_indices]
      · rw [not_red_iff] at hu
        have e' : fixupF (.right (.right up g RBColor.BLACK u gv) p RBColor.RED pl pv) s
            = some (up.plug (.node p RBColor.BLACK (.node g RBColor.RED u gv pl) pv s),
                [Event.rotate_left g true]) := by simp [fixupF, hu]
        refine ⟨_, _, e', ?_, ?_, ?_⟩
        · refine (rbValid_plug _ _).mpr ⟨⟨?_, ?_⟩, ?_, hr5, ?_, ?_⟩
          · simp [hb, hb1, hb2, hb3, hb4]
          · simpa [hb3] using hb5
          · simp [hr, hr1, hr3, hr2, hu]
          · simp
          · simp
        · simp [inorder_plug]
        · intro a
          simp only [count_indices_plug, Shape.indices, Path.indices, List.count_append,
            List.count_cons]
          omega

end RB

/-! Part: The descent and the insertion on shapes. -/

namespace RB
variable {T : Type} [LinearOrder T]

theorem descendF_some (x : T) : ∀ (s : Shape T) (path path' : Path T),
    descendF x path s = some path' →
      path'.plug .nil = path.plug s ∧ (path.Fits x → path'.Fits x)
  | .nil, path, path', h => by
    simp only [descendF, Option.some.injEq] at h
    subst h
    exact ⟨rfl, id⟩
  | .node i c l v r, path, path', h => by
    simp only [descendF] at h
    split_ifs at h with h1 h2
    · obtain ⟨e, f⟩ := descendF_some x r _ _ h
      exact ⟨e, fun hp => f ⟨h2, hp⟩⟩
    · obtain ⟨e, f⟩ := descendF_some x l _ _ h
      have hlt : x < v := lt_of_le_of_ne (not_lt.mp h2) (Ne.symm h1)
      exact ⟨e, fun hp => f ⟨hlt, hp⟩⟩

theorem descendF_none (x : T) : ∀ (s : Shape T) (path : Path T),
    descendF x path s = none → x ∈ s.inorder
  | .nil, path, h => by simp [descendF] at h
  | .node i c l v r, path, h => by
    simp only [descendF] at h
    split_ifs at h with h1 h2
    · simp [h1]
    · simp [descendF_none x r _ h]
    · simp [descendF_none x l _ h]

theorem fits_bounds (x : T) : ∀ (path : Path T), path.Fits x →
    (path.before ++ path.after).Pairwise (· < ·) →
      (∀ y ∈ path.before, y < x) ∧ (∀ y ∈ path.after, x < y)
  | .top, _, _ => by simp [Path.before, Path.after]
  | .left up i c v r, hf, hp => by
    obtain ⟨hxv, hup⟩ := hf
    simp only [Path.before, Path.after, List.cons_append] at hp ⊢
    have hp' : (up.before ++ up.after).Pairwise (· < ·) := by
      refine hp.sublist ?_
      exact List.Sublist.append_left ((List.sublist_append_right _ _).cons _) _
    obtain ⟨h1, h2⟩ := fits_bounds x up hup hp'
    refine ⟨h1, ?_⟩
    intro y hy
    simp only [List.mem_cons, List.mem_append] at hy
    rcases hy with rfl | hy | hy
    · exact hxv
    · have := (List.pairwise_cons.mp (List.pairwise_append.mp hp).2.1).1 y
        (List.mem_append_left _ hy)
      exact lt_trans hxv this
    · exact h2 y hy
  | .right up i c l v, hf, hp => by
    obtain ⟨hvx, hup⟩ := hf
    simp only [Path.before, Path.after] at hp ⊢
    have hp' : (up.before ++ up.after).Pairwise (· < ·) := by
      refine hp.sublist ?_
      exact List.Sublist.append_right (List.sublist_append_left _ _) _
    obtain ⟨h1, h2⟩ := fits_bounds x up hup hp'
    refine ⟨?_, h2⟩
    intro y hy
    simp only [List.mem_cons, List.mem_append, List.mem_singleton, List.not_mem_nil,
      or_false] at hy
    rcases hy with hy | hy | rfl
    · exact h1 y hy
    · have h3 := (List.pairwise_append.mp hp).1
      have h4 := (List.pairwise_append.mp (List.pairwise_append.mp h3).2.1).2.2 y hy v
        (List.mem_singleton_self _)
      exact lt_trans h4 hvx
    · exact hvx

theorem insertF_valid (x : T) (n : Nat) (s : Shape T) (hv : s.RBValid)
    (hs : s.inorder.Pairwise (· < ·)) :
    ∃ s' b log, insertF x n s = some (s', b, log) ∧ InsertOk x n s s' b log := by
  cases hd : descendF x .top s with
  | none =>
    refine ⟨s, false, [], by simp [insertF, hd], hv, hs, ?_, ?_, ?_, ?_⟩
    · simp [descendF_none x s _ hd]
    · simp
    · simp
    · simp
  | some path =>
    obtain ⟨hplug, hfit⟩ := descendF_some x s _ _ hd
    simp only [Path.plug_top] at hplug
    have hfit' := hfit trivial
    have hin : s.inorder = path.before ++ path.after := by
      rw [← hplug, inorder_plug]; simp
    obtain ⟨hlo, hhi⟩ := fits_bounds x path hfit' (hin ▸ hs)
    have hnot : x ∉ s.inorder := by
      rw [hin, List.mem_append]
      rintro (h | h)
      · exact lt_irrefl _ (hlo x h)
      · exact lt_irrefl _ (hhi x h)
    have hsorted : (path.before ++ x :: path.after).Pairwise (· < ·) := by
      rw [hin] at hs
      obtain ⟨p1, p2, p3⟩ := List.pairwise_append.mp hs
      refine List.pairwise_append.mpr ⟨p1, List.pairwise_cons.mpr ⟨hhi, p2⟩, ?_⟩
      intro a ha b hb
      rcases List.mem_cons.mp hb with rfl | hb
      · exact hlo a ha
      · exact p3 a ha b hb
    obtain ⟨⟨-, hpb⟩, -, hpr, -, hroot⟩ := (rbValid_plug path .nil).mp (hplug ▸ hv)
    have key : ∀ (R : Shape T) (log : List Event),
        R.RBValid → R.inorder = path.before ++ x :: path.after →
        (∀ a, R.indices.count a = (n :: s.indices).count a) →
        InsertOk x n s R true log := by
      intro R log h1 h2 h3
      exact ⟨h1, h2 ▸ hsorted, by simp [hnot], by simp, fun _ => h3,
        fun _ => ⟨_, _, hin, h2⟩⟩
    have hidx : ∀ a, ((path.plug (.node n RBColor.RED .nil x .nil)).indices).count a
        = (n :: s.indices).count a := by
      intro a
      rw [count_indices_plug, ← hplug, List.count_cons, count_indices_plug]
      simp only [Shape.indices, List.count_cons, List.count_nil, List.append_nil]
      omega
    rcases path with _ | ⟨up, p, cp, pv, pr⟩ | ⟨up, p, cp, pl, pv⟩
    · have e : insertF x n s = some (.node n RBColor.BLACK .nil x .nil, true, []) := by
        simp [insertF, hd]
      refine ⟨_, true, [], e, key _ _ ?_ ?_ ?_⟩
      · simp [Shape.RBValid]
      · simp [Path.before, Path.after]
      · intro a
        simp only [← hplug]
        simp [Shape.indices]
    · obtain ⟨R, log, e, ok⟩ := fixupF_valid (.left up p cp pv pr)
        (.node n RBColor.RED .nil x .nil) rfl (by simp) (by simp) hpb hpr
      have e' : insertF x n s = some (R, true, log) := by simp [insertF, hd, e]
      refine ⟨R, true, log, e', key _ _ ok.valid ?_ ?_⟩
      · rw [ok.inorder, inorder_plug]; simp [Path.before, Path.after]
      · intro a; rw [ok.indices, hidx]
    · obtain ⟨R, log, e, ok⟩ := fixupF_valid (.right up p cp pl pv)
        (.node n RBColor.RED .nil x .nil) rfl (by simp) (by simp) hpb hpr
      have e' : insertF x n s = some (R, true, log) := by simp [insertF, hd, e]
      refine ⟨R, true, log, e', key _ _ ok.valid ?_ ?_⟩
      · rw [ok.inorder, inorder_plug]; simp [Path.before, Path.after]
      · intro a; rw [ok.indices, hidx]

end RB

/-! Part: The fixup of the arena follows the fixup on shapes. -/

namespace RB
variable {T : Type}

theorem models_left_iff {t : RBTree T} {up : Path T} {i : Nat} {c : RBColor} {v : T}
    {r s : Shape T} : Models t (.left up i c v r) s ↔ Models t up (.node i c s v r) := by
  constructor
  · rintro ⟨h1, ⟨h2, h3, h4⟩, h5, h6⟩
    refine ⟨h1, h4, ⟨h2, h5, h3⟩, nodup_of_perm h6 fun a => ?_⟩
    simp only [Shape.indices_node, Path.indices_left, List.count_append, List.count_cons]
    omega
  · rintro ⟨h1, h4, ⟨h2, h5, h3⟩, h6⟩
    refine ⟨h1, ⟨h2, h3, h4⟩, h5, nodup_of_perm h6 fun a => ?_⟩
    simp only [Shape.indices_node, Path.indices_left, List.count_append, List.count_cons]
    omega

theorem models_right_iff {t : RBTree T} {up : Path T} {i : Nat} {c : RBColor} {v : T}
    {l s : Shape T} : Models t (.right up i c l v) s ↔ Models t up (.node i c l v s) := by
  constructor
  · rintro ⟨h1, ⟨h2, h3, h4⟩, h5, h6⟩
    refine ⟨h1, h4, ⟨h2, h3, h5⟩, nodup_of_perm h6 fun a => ?_⟩
    simp only [Shape.indices_node, Path.indices_right, List.count_append, List.count_cons]
    omega
  · rintro ⟨h1, h4, ⟨h2, h3, h5⟩, h6⟩
    refine ⟨h1, ⟨h2, h3, h4⟩, h5, nodup_of_perm h6 fun a => ?_⟩
    simp only [Shape.indices_node, Path.indices_right, List.count_append, List.count_cons]
    omega

theorem Models.plug {t : RBTree T} : ∀ (path : Path T) (s : Shape T),
    Models t path s → Models t .top (path.plug s)
  | .top, _, h => h
  | .left up i c v r, s, h => Models.plug up (.node i c s v r) (models_left_iff.mp h)
  | .right up i c l v, s, h => Models.plug up (.node i c l v s) (models_right_iff.mp h)

theorem Models.unplug {t : RBTree T} : ∀ (path : Path T) (s : Shape T),
    Models t .top (path.plug s) → Models t path s
  | .top, _, h => h
  | .left up i c v r, s, h => models_left_iff.mpr (Models.unplug up (.node i c s v r) h)
  | .right up i c l v, s, h => models_right_iff.mpr (Models.unplug up (.node i c l v s) h)

theorem set_color_models {t : RBTree T} {path : Path T} {i : Nat} {c : RBColor}
    {l r : Shape T} {v : T} (h : Models t path (.node i c l v r)) (c' : RBColor) :
    ∃ t', t.set_color i c' = some t' ∧ t'.node_arena.length = t.node_arena.length ∧
      Models t' path (.node i c' l v r) := by
  obtain ⟨hroot, habove, ⟨hi, hl, hr⟩, hnd⟩ := h
  have hnd' := hnd
  simp only [Shape.indices_node, List.nodup_append, List.nodup_cons, List.mem_append,
    List.disjoint_cons_right, not_or] at hnd
  refine ⟨_, by simp [RBTree.set_color, hi]; rfl, by simp, ?_, ?_, ?_, hnd'⟩
  · simpa using hroot
  · simp only [Shape.ptr_node] at habove ⊢
    simp [repPath_put, hnd, habove]
  · refine ⟨by simp [get_put, hi], ?_, ?_⟩ <;> simp [rep_put, hnd, hl, hr]

end RB

namespace RB
variable {T : Type}

theorem ptr_ne_of_not_mem {q : Shape T} {i : Nat} (h : i ∉ q.indices) : q.ptr ≠ some i :=
  fun e => h (Shape.ptr_mem e)

theorem is_red_of_rep {t : RBTree T} {par : Option Nat} {u : Shape T} (h : Rep t par u) :
    is_red t u.ptr = some (decide (u.color = RBColor.RED)) := by
  cases u with
  | nil => simp [is_red, Shape.color]
  | node i c l v r => simp [is_red, h.1, Shape.color]

set_option maxHeartbeats 4000000 in
theorem fixup_refines (fuel : Nat) : ∀ (t : RBTree T) (path : Path T) (n : Nat) (cn : RBColor)
    (nl : Shape T) (nv : T) (nr : Shape T) (R : Shape T) (log : List Event),
    Models t path (.node n cn nl nv nr) →
    fixupF path (.node n cn nl nv nr) = some (R, log) →
    path.depth < 2 * fuel →
    ∃ t', fixup_tree t fuel n = some (t', log) ∧
      t'.node_arena.length = t.node_arena.length ∧ Models t' .top R := by
  induction fuel with
  | zero => intro t path n cn nl nv nr R log _ _ hd; omega
  | succ fuel ih =>
    intro t path n cn nl nv nr R log hm hf hd
    have hn := hm.below.1
    have hnd := hm.nodup
    rcases path with _ | ⟨up, p, cp, pv, pr⟩ | ⟨up, p, cp, pl, pv⟩
    · -- the node is the root
      obtain ⟨t', e, hlen, hm'⟩ := set_color_models hm RBColor.BLACK
      simp only [fixupF, Shape.blacken, Option.some.injEq, Prod.mk.injEq] at hf
      obtain ⟨rfl, rfl⟩ := hf
      simp only [Path.hp_top] at hn
      exact ⟨t', by simp [fixup_tree, hn, e], hlen, hm'⟩
    · -- the node is a left child
      have hp := hm.above.1
      simp only [Path.hp_left, Shape.ptr_node] at hn hp
      rcases color_cases cp with rfl | rfl
      · rw [fixupF_black_left] at hf
        simp only [Option.some.injEq, Prod.mk.injEq] at hf
        obtain ⟨rfl, rfl⟩ := hf
        exact ⟨t, by simp [fixup_tree, hn, hp], rfl, hm.plug _ _⟩
      · rcases up with _ | ⟨up, g, cg, gv, u⟩ | ⟨up, g, cg, u, gv⟩
        · simp [fixupF] at hf
        · -- parent is a left child: a line
          have hg := hm.above.2.2.1
          have hu := is_red_of_rep hm.above.2.2.2.1
          simp only [Path.hp_left] at hg hp
          have m0 := models_left_iff.mp (models_left_iff.mp hm)
          by_cases hc : u.color = RBColor.RED
          · obtain ⟨ui, ul, uv, ur, rfl⟩ := node_of_red hc
            simp only [fixupF, Shape.color, reduceCtorEq, if_false, if_true, Shape.blacken,
              Option.map_eq_some', Prod.mk.injEq, Prod.exists] at hf
            obtain ⟨R', log', hrec, rfl, rfl⟩ := hf
            simp only [Shape.ptr_node, Shape.color, decide_True] at hg hu
            obtain ⟨t1, e1, l1, m1⟩ := set_color_models m0 RBColor.RED
            obtain ⟨t2, e2, l2, m2⟩ := set_color_models (models_right_iff.mpr m1) RBColor.BLACK
            obtain ⟨t3, e3, l3, m3⟩ :=
              set_color_models (models_left_iff.mpr (models_right_iff.mp m2)) RBColor.BLACK
            obtain ⟨t', e', l', m'⟩ := ih t3 up g _ _ _ _ _ _ (models_left_iff.mp m3) hrec
              (by simp only [Path.depth] at hd; omega)
            refine ⟨t', ?_, by omega, m'⟩
            simp [fixup_tree, hn, hp, hg, hu, Shape.color, e1, e2, e3, e']
          · simp only [fixupF, hc, reduceCtorEq, if_false, Option.some.injEq,
              Prod.mk.injEq] at hf
            obtain ⟨rfl, rfl⟩ := hf
            obtain ⟨t2, e2, l2, m2⟩ := rotate_right_models m0
            obtain ⟨t3, e3, l3, m3⟩ := set_color_models m2 RBColor.BLACK
            obtain ⟨t4, e4, l4, m4⟩ := set_color_models (models_right_iff.mpr m3) RBColor.RED
            refine ⟨t4, ?_, by omega, (models_right_iff.mp m4).plug _ _⟩
            simp [fixup_tree, fixup_rotate, hn, hp, hg, hu, hc, e2, e3, e4]
        · -- parent is a right child: a triangle
          have hg := hm.above.2.2.1
          have hu := is_red_of_rep hm.above.2.2.2.1
          simp only [Path.hp_right] at hg hp
          have m0 := models_right_iff.mp (models_left_iff.mp hm)
          simp only [Path.indices_left, Path.indices_right, Shape.indices_node, List.nodup_append,
            List.nodup_cons, List.mem_append, List.mem_cons, not_or] at hnd
          have hup : u.ptr ≠ some p := ptr_ne_of_not_mem (by
            intro hmem; simp [hmem] at hnd)
          by_cases hc : u.color = RBColor.RED
          · obtain ⟨ui, ul, uv, ur, rfl⟩ := node_of_red hc
            simp only [fixupF, Shape.color, reduceCtorEq, if_false, if_true, Shape.blacken,
              Option.map_eq_some', Prod.mk.injEq, Prod.exists] at hf
            obtain ⟨R', log', hrec, rfl, rfl⟩ := hf
            simp only [Shape.ptr_node, Shape.color, decide_True] at hg hu hup
            obtain ⟨t1, e1, l1, m1⟩ := set_color_models m0 RBColor.RED
            obtain ⟨t2, e2, l2, m2⟩ := set_color_models (models_left_iff.mpr m1) RBColor.BLACK
            obtain ⟨t3, e3, l3, m3⟩ :=
              set_color_models (models_right_iff.mpr (models_left_iff.mp m2)) RBColor.BLACK
            obtain ⟨t', e', l', m'⟩ := ih t3 up g _ _ _ _ _ _ (models_right_iff.mp m3) hrec
              (by simp only [Path.depth] at hd; omega)
            refine ⟨t', ?_, by omega, m'⟩
            simp [fixup_tree, hn, hp, hg, hu, hup, Shape.color, e1, e2, e3, e']
          · simp only [fixupF, hc, reduceCtorEq, if_false, Option.some.injEq,
              Prod.mk.injEq] at hf
            obtain ⟨rfl, rfl⟩ := hf
            obtain ⟨t1, e1, l1, m1⟩ := rotate_right_models (models_left_iff.mp hm)
            have m1' := models_right_iff.mp m1
            have hg1 := m1'.below.1
            simp only [Shape.ptr_node] at hg1
            obtain ⟨t2, e2, l2, m2⟩ := rotate_left_models m1'
            obtain ⟨t3, e3, l3, m3⟩ := set_color_models m2 RBColor.BLACK
            obtain ⟨t4, e4, l4, m4⟩ := set_color_models (models_left_iff.mpr m3) RBColor.RED
            refine ⟨t4, ?_, by omega, (models_left_iff.mp m4).plug _ _⟩
            simp [fixup_tree, fixup_rotate, hn, hp, hg, hu, hup, hc, e1, hg1, e2, e3, e4]
    · -- the node is a right child
      have hp := hm.above.1
      simp only [Path.hp_right, Shape.ptr_node] at hn hp
      rcases color_cases cp with rfl | rfl
      · rw [fixupF_black_right] at hf
        simp only [Option.some.injEq, Prod.mk.injEq] at hf
        obtain ⟨rfl, rfl⟩ := hf
        exact ⟨t, by simp [fixup_tree, hn, hp], rfl, hm.plug _ _⟩
      · rcases up with _ | ⟨up, g, cg, gv, u⟩ | ⟨up, g, cg, u, gv⟩
        · simp [fixupF] at hf
        · -- parent is a left child: a triangle
          have hg := hm.above.2.2.1
          have hu := is_red_of_rep hm.above.2.2.2.1
          simp only [Path.hp_left] at hg hp
          have m0 := models_left_iff.mp (models_right_iff.mp hm)
          simp only [Path.indices_left, Path.indices_right, Shape.indices_node, List.nodup_append,
            List.nodup_cons, List.mem_append, List.mem_cons, not_or] at hnd
          have hpl : pl.ptr ≠ some n := ptr_ne_of_not_mem (by
            intro hmem; simp [hmem] at hnd)
          by_cases hc : u.color = RBColor.RED
          · obtain ⟨ui, ul, uv, ur, rfl⟩ := node_of_red hc
            simp only [fixupF, Shape.color, reduceCtorEq, if_false, if_true, Shape.blacken,
              Option.map_eq_some', Prod.mk.injEq, Prod.exists] at hf
            obtain ⟨R', log', hrec, rfl, rfl⟩ := hf
            simp only [Shape.ptr_node, Shape.color, decide_True] at hg hu
            obtain ⟨t1, e1, l1, m1⟩ := set_color_models m0 RBColor.RED
            obtain ⟨t2, e2, l2, m2⟩ := set_color_models (models_right_iff.mpr m1) RBColor.BLACK
            obtain ⟨t3, e3, l3, m3⟩ :=
              set_color_models (models_left_iff.mpr (models_right_iff.mp m2)) RBColor.BLACK
            obtain ⟨t', e', l', m'⟩ := ih t3 up g _ _ _ _ _ _ (models_left_iff.mp m3) hrec
              (by simp only [Path.depth] at hd; omega)
            refine ⟨t', ?_, by omega, m'⟩
            simp [fixup_tree, hn, hp, hg, hu, hpl, Shape.color, e1, e2, e3, e']
          · simp only [fixupF, hc, reduceCtorEq, if_false, Option.some.injEq,
              Prod.mk.injEq] at hf
            obtain ⟨rfl, rfl⟩ := hf
            obtain ⟨t1, e1, l1, m1⟩ := rotate_left_models (models_right_iff.mp hm)
            have m1' := models_left_iff.mp m1
            have hg1 := m1'.below.1
            simp only [Shape.ptr_node] at hg1
            obtain ⟨t2, e2, l2, m2⟩ := rotate_right_models m1'
            obtain ⟨t3, e3, l3, m3⟩ := set_color_models m2 RBColor.BLACK
            obtain ⟨t4, e4, l4, m4⟩ := set_color_models (models_right_iff.mpr m3) RBColor.RED
            refine ⟨t4, ?_, by omega, (models_right_iff.mp m4).plug _ _⟩
            simp [fixup_tree, fixup_rotate, hn, hp, hg, hu, hpl, hc, e1, hg1, e2, e3, e4]
        · -- parent is a right child: a line
          have hg := hm.above.2.2.1
          have hu := is_red_of_rep hm.above.2.2.2.1
          simp only [Path.hp_right] at hg hp
          have m0 := models_right_iff.mp (models_right_iff.mp hm)
          simp only [Path.indices_left, Path.indices_right, Shape.indices_node, List.nodup_append,
            List.nodup_cons, List.mem_append, List.mem_cons, not_or] at hnd
          have hpl : pl.ptr ≠ some n := ptr_ne_of_not_mem (by
            intro hmem; simp [hmem] at hnd)
          have hup : u.ptr ≠ some p := ptr_ne_of_not_mem (by
            intro hmem; simp [hmem] at hnd)
          by_cases hc : u.color = RBColor.RED
          · obtain ⟨ui, ul, uv, ur, rfl⟩ := node_of_red hc
            simp only [fixupF, Shape.color, reduceCtorEq, if_false, if_true, Shape.blacken,
              Option.map_eq_some', Prod.mk.injEq, Prod.exists] at hf
            obtain ⟨R', log', hrec, rfl, rfl⟩ := hf
            simp only [Shape.ptr_node, Shape.color, decide_True] at hg hu hup
            obtain ⟨t1, e1, l1, m1⟩ := set_color_models m0 RBColor.RED
            obtain ⟨t2, e2, l2, m2⟩ := set_color_models (models_left_iff.mpr m1) RBColor.BLACK
            obtain ⟨t3, e3, l3, m3⟩ :=
              set_color_models (models_right_iff.mpr (models_left_iff.mp m2)) RBColor.BLACK
            obtain ⟨t', e', l', m'⟩ := ih t3 up g _ _ _ _ _ _ (models_right_iff.mp m3) hrec
              (by simp only [Path.depth] at hd; omega)
            refine ⟨t', ?_, by omega, m'⟩
            simp [fixup_tree, hn, hp, hg, hu, hpl, hup, Shape.color, e1, e2, e3, e']
          · simp only [fixupF, hc, reduceCtorEq, if_false, Option.some.injEq,
              Prod.mk.injEq] at hf
            obtain ⟨rfl, rfl⟩ := hf
            obtain ⟨t2, e2, l2, m2⟩ := rotate_left_models m0
            obtain ⟨t3, e3, l3, m3⟩ := set_color_models m2 RBColor.BLACK
            obtain ⟨t4, e4, l4, m4⟩ := set_color_models (models_left_iff.mpr m3) RBColor.RED
            refine ⟨t4, ?_, by omega, (models_left_iff.mp m4).plug _ _⟩
            simp [fixup_tree, fixup_rotate, hn, hp, hg, hu, hpl, hup, hc, e2, e3, e4]

end RB

/-! Part: The insertion of the arena follows the insertion on shapes. -/

namespace RB
variable {T : Type}

theorem get_lt {t : RBTree T} {i : Nat} {n : RBNode T} (h : t.get i = some n) :
    i < t.node_arena.length := by
  unfold RBTree.get at h
  exact (List.getElem?_eq_some.mp h).1

theorem Rep.lt {t : RBTree T} : ∀ {s : Shape T} {par : Option Nat}, Rep t par s →
    ∀ i ∈ s.indices, i < t.node_arena.length
  | .nil, _, _, i, hi => by simp at hi
  | .node j c l v r, par, h, i, hi => by
    obtain ⟨h1, h2, h3⟩ := h
    simp only [Shape.indices_node, List.mem_cons, List.mem_append] at hi
    rcases hi with rfl | hi | hi
    · exact get_lt h1
    · exact h2.lt i hi
    · exact h3.lt i hi

theorem RepPath.lt_path {t : RBTree T} : ∀ {p : Path T} {h : Option Nat}, RepPath t p h →
    ∀ i ∈ p.indices, i < t.node_arena.length
  | .top, _, _, i, hi => by simp at hi
  | .left up j c v r, h, hp, i, hi => by
    obtain ⟨h1, h2, h3⟩ := hp
    simp only [Path.indices_left, List.mem_cons, List.mem_append] at hi
    rcases hi with rfl | hi | hi
    · exact get_lt h1
    · exact h2.lt i hi
    · exact h3.lt_path i hi
  | .right up j c l v, h, hp, i, hi => by
    obtain ⟨h1, h2, h3⟩ := hp
    simp only [Path.indices_right, List.mem_cons, List.mem_append] at hi
    rcases hi with rfl | hi | hi
    · exact get_lt h1
    · exact h2.lt i hi
    · exact h3.lt_path i hi

theorem get_push (t : RBTree T) (n : RBNode T) (j : Nat) :
    (t.push n).get j = if j = t.node_arena.length then some n else t.get j := by
  unfold RBTree.push RBTree.get
  by_cases h : j = t.node_arena.length
  · subst h; simp
  · simp only [h, if_false]
    rcases Nat.lt_or_gt_of_ne h with h' | h'
    · rw [List.getElem?_append_left h']
    · rw [List.getElem?_eq_none (by simp; omega), List.getElem?_eq_none (by omega)]

@[simp] theorem push_root (t : RBTree T) (n : RBNode T) : (t.push n).root = t.root := rfl

@[simp] theorem push_length (t : RBTree T) (n : RBNode T) :
    (t.push n).node_arena.length = t.node_arena.length + 1 := by
  simp [RBTree.push]

theorem Rep.push {t : RBTree T} {s : Shape T} {par : Option Nat} (n : RBNode T)
    (h : Rep t par s) : Rep (t.push n) par s := by
  refine h.frame fun j hj => ?_
  have := h.lt j hj
  simp [get_push, Nat.ne_of_lt this]

theorem RepPath.push_path {t : RBTree T} {p : Path T} {q : Option Nat} (n : RBNode T)
    (h : RepPath t p q) : RepPath (t.push n) p q := by
  refine h.frame_path fun j hj => ?_
  have := h.lt_path j hj
  simp [get_push, Nat.ne_of_lt this]

theorem Shape.height_le_length : ∀ (s : Shape T), s.height ≤ s.indices.length
  | .nil => Nat.le_refl _
  | .node i c l v r => by
    have h1 := l.height_le_length
    have h2 := r.height_le_length
    simp only [Shape.height, Shape.indices_node, List.length_cons, List.length_append]
    omega

theorem Shape.size_eq_length : ∀ (s : Shape T), s.size = s.indices.length
  | .nil => rfl
  | .node i c l v r => by
    simp only [Shape.size, Shape.indices_node, List.length_cons, List.length_append,
      l.size_eq_length, r.size_eq_length]

theorem Path.depth_le_length : ∀ (p : Path T), p.depth ≤ p.indices.length
  | .top => Nat.le_refl _
  | .left up i c v r => by
    have := up.depth_le_length
    simp only [Path.depth, Path.indices_left, List.length_cons, List.length_append]
    omega
  | .right up i c l v => by
    have := up.depth_le_length
    simp only [Path.depth, Path.indices_right, List.length_cons, List.length_append]
    omega

theorem length_indices_plug : ∀ (path : Path T) (s : Shape T),
    (path.plug s).indices.length = path.indices.length + s.indices.length
  | .top, s => by simp
  | .left up i c v r, s => by
    simp only [Path.plug_left, length_indices_plug up, Shape.indices_node, Path.indices_left,
      List.length_cons, List.length_append]
    omega
  | .right up i c l v, s => by
    simp only [Path.plug_right, length_indices_plug up, Shape.indices_node, Path.indices_right,
      List.length_cons, List.length_append]
    omega

section
variable [LinearOrder T]

theorem insert_loop_node (t : RBTree T) (x : T) : ∀ (s : Shape T) (path : Path T) (fuel : Nat)
    (il : Bool), Models t path s → s.height ≤ fuel → s ≠ .nil →
    insert_loop t x fuel s.ptr il = some (descentOf (descendF x path s))
  | .nil, _, _, _, _, _, hne => absurd rfl hne
  | .node i c l v r, path, fuel, il, hm, hf, _ => by
    have hi := hm.below.1
    cases fuel with
    | zero => simp [Shape.height] at hf
    | succ fuel =>
      simp only [Shape.height, Nat.add_le_add_iff_right] at hf
      simp only [Shape.ptr_node, insert_loop, hi, Option.bind_eq_bind, Option.some_bind,
        descendF]
      by_cases h1 : v = x
      · simp [h1, descentOf]
      · by_cases h2 : v < x
        · simp only [h1, h2, if_false, if_true]
          cases r with
          | nil => simp [descendF, descentOf, Path.side]
          | node ri rc rl rv rr =>
            simpa using insert_loop_node t x (.node ri rc rl rv rr) _ fuel il
              (models_right_iff.mpr hm) (le_trans (le_max_right _ _) hf) (by simp)
        · simp only [h1, h2, if_false]
          cases l with
          | nil => simp [descendF, descentOf, Path.side]
          | node li lc ll lv lr =>
            simpa using insert_loop_node t x (.node li lc ll lv lr) _ fuel il
              (models_left_iff.mpr hm) (le_trans (le_max_left _ _) hf) (by simp)

theorem insert_loop_refines (t : RBTree T) (x : T) (s : Shape T) (fuel : Nat)
    (hm : Models t .top s) (hf : s.height ≤ fuel) :
    insert_loop t x fuel s.ptr true = some (descentOf (descendF x .top s)) := by
  cases s with
  | nil => cases fuel <;> simp [insert_loop, descendF, descentOf, Path.side]
  | node i c l v r => exact insert_loop_node t x _ _ fuel true hm hf (by simp)

end

theorem link_top (t : RBTree T) (x : T) :
    ∃ t1 t2, (t.push ⟨x, RBColor.RED, none, none, none⟩).set_parent t.node_arena.length none
        = some t1 ∧
      (t1.set_root (some t.node_arena.length)).set_color t.node_arena.length RBColor.BLACK
        = some t2 ∧
      t2.node_arena.length = t.node_arena.length + 1 ∧
      Models t2 .top (.node t.node_arena.length RBColor.BLACK .nil x .nil) := by
  refine ⟨_, _, by simp [RBTree.set_parent, get_push]; rfl,
    by simp [RBTree.set_color, get_put, get_push]; rfl, by simp, ?_, trivial, ?_, by simp⟩
  · simp
  · exact ⟨by simp [get_put, get_push], trivial, trivial⟩

theorem link_left {t : RBTree T} (x : T) {up : Path T} {p : Nat} {cp : RBColor} {pv : T}
    {pr : Shape T} (hm : Models t (.left up p cp pv pr) .nil) :
    ∃ t1 t2, (t.push ⟨x, RBColor.RED, none, none, none⟩).set_parent t.node_arena.length (some p)
        = some t1 ∧
      t1.set_child_l p (some t.node_arena.length) = some t2 ∧
      t2.node_arena.length = t.node_arena.length + 1 ∧
      Models t2 (.left up p cp pv pr) (.node t.node_arena.length RBColor.RED .nil x .nil) := by
  obtain ⟨hroot, ⟨hp, hpr, hup⟩, -, hnd⟩ := hm
  have hlt := get_lt hp
  have hne : p ≠ t.node_arena.length := Nat.ne_of_lt hlt
  have hprlt := hpr.lt
  have huplt := hup.lt_path
  simp only [Shape.ptr_nil] at hp
  simp only [Path.indices_left, Shape.indices_nil, List.append_nil, List.nodup_cons,
    List.mem_append, not_or, List.nodup_append] at hnd
  refine ⟨_, _, by simp [RBTree.set_parent, get_push]; rfl,
    by simp [RBTree.set_child_l, get_put, get_push, hne, hp]; rfl, by simp, ?_, ?_, ?_, ?_⟩
  · simpa using hroot
  · refine ⟨by simp [get_put, get_push, hne, hp], ?_, ?_⟩
    · rw [rep_put hnd.1.1, rep_put (fun h => Nat.lt_irrefl _ (hprlt _ h))]
      exact hpr.push _
    · rw [repPath_put hnd.1.2, repPath_put (fun h => Nat.lt_irrefl _ (huplt _ h))]
      exact hup.push_path _
  · exact ⟨by simp [get_put, get_push, hne, hne.symm], trivial, trivial⟩
  · simp only [Path.indices_left, Shape.indices_node, Shape.indices_nil, List.append_nil,
      List.nodup_append, List.nodup_cons, List.mem_append, not_or, List.nodup_nil,
      List.not_mem_nil, not_false_eq_true, and_true, true_and, List.disjoint_singleton,
      List.mem_cons]
    refine ⟨hnd, ?_⟩
    exact ⟨fun h => hne h.symm, fun h => Nat.lt_irrefl _ (hprlt _ h),
      fun h => Nat.lt_irrefl _ (huplt _ h)⟩

theorem link_right {t : RBTree T} (x : T) {up : Path T} {p : Nat} {cp : RBColor} {pv : T}
    {pl : Shape T} (hm : Models t (.right up p cp pl pv) .nil) :
    ∃ t1 t2, (t.push ⟨x, RBColor.RED, none, none, none⟩).set_parent t.node_arena.length (some p)
        = some t1 ∧
      t1.set_child_r p (some t.node_arena.length) = some t2 ∧
      t2.node_arena.length = t.node_arena.length + 1 ∧
      Models t2 (.right up p cp pl pv) (.node t.node_arena.length RBColor.RED .nil x .nil) := by
  obtain ⟨hroot, ⟨hp, hpl, hup⟩, -, hnd⟩ := hm
  have hlt := get_lt hp
  have hne : p ≠ t.node_arena.length := Nat.ne_of_lt hlt
  have hpllt := hpl.lt
  have huplt := hup.lt_path
  simp only [Shape.ptr_nil] at hp
  simp only [Path.indices_right, Shape.indices_nil, List.append_nil, List.nodup_cons,
    List.mem_append, not_or, List.nodup_append] at hnd
  refine ⟨_, _, by simp [RBTree.set_parent, get_push]; rfl,
    by simp [RBTree.set_child_r, get_put, get_push, hne, hp]; rfl, by simp, ?_, ?_, ?_, ?_⟩
  · simpa using hroot
  · refine ⟨by simp [get_put, get_push, hne, hp], ?_, ?_⟩
    · rw [rep_put hnd.1.1, rep_put (fun h => Nat.lt_irrefl _ (hpllt _ h))]
      exact hpl.push _
    · rw [repPath_put hnd.1.2, repPath_put (fun h => Nat.lt_irrefl _ (huplt _ h))]
      exact hup.push_path _
  · exact ⟨by simp [get_put, get_push, hne, hne.symm], trivial, trivial⟩
  · simp only [Path.indices_right, Shape.indices_node, Shape.indices_nil, List.append_nil,
      List.nodup_append, List.nodup_cons, List.mem_append, not_or, List.nodup_nil,
      List.not_mem_nil, not_false_eq_true, and_true, true_and, List.disjoint_singleton,
      List.mem_cons]
    refine ⟨hnd, ?_⟩
    exact ⟨fun h => hne h.symm, fun h => Nat.lt_irrefl _ (hpllt _ h),
      fun h => Nat.lt_irrefl _ (huplt _ h)⟩

section
variable [LinearOrder T]

theorem insert_refines {t : RBTree T} {s : Shape T} (x : T) (hm : Models t .top s)
    (hlen : s.indices.length = t.node_arena.length)
    {s' : Shape T} {b : Bool} {log : List Event}
    (hF : insertF x t.node_arena.length s = some (s', b, log)) :
    ∃ t', insert_traced t x = some (t', b, log) ∧ Models t' .top s' ∧
      (b = false → t' = t) ∧ (b = true → t'.node_arena.length = t.node_arena.length + 1) := by
  have hloop := insert_loop_refines t x s t.node_arena.length hm
    (hlen ▸ s.height_le_length)
  have hroot : s.ptr = t.root := hm.root.symm
  rw [hroot] at hloop
  unfold insertF at hF
  cases hd : descendF x .top s with
  | none =>
    simp only [hd, Option.some.injEq, Prod.mk.injEq] at hF
    obtain ⟨rfl, rfl, rfl⟩ := hF
    exact ⟨t, by simp [insert_traced, hloop, hd, descentOf], hm, fun _ => rfl, by simp⟩
  | some path =>
    obtain ⟨hplug, -⟩ := descendF_some x s _ _ hd
    simp only [Path.plug_top] at hplug
    have hm0 : Models t path .nil := Models.unplug path .nil (hplug ▸ hm)
    have hdepth : path.depth ≤ t.node_arena.length := by
      have h1 := length_indices_plug path .nil
      rw [hplug, hlen] at h1
      have h2 := path.depth_le_length
      simp only [Shape.indices_nil, List.length_nil, add_zero] at h1
      omega
    rcases path with _ | ⟨up, p, cp, pv, pr⟩ | ⟨up, p, cp, pl, pv⟩
    · simp only [hd, Option.some.injEq, Prod.mk.injEq] at hF
      obtain ⟨rfl, rfl, rfl⟩ := hF
      obtain ⟨t1, t2, e1, e2, hl, hm2⟩ := link_top t x
      exact ⟨t2, by simp [insert_traced, hloop, hd, descentOf, e1, e2], hm2, by simp,
        fun _ => hl⟩
    · simp only [hd, Option.map_eq_some', Prod.mk.injEq, Prod.exists] at hF
      obtain ⟨R, log', hfix, rfl, rfl, rfl⟩ := hF
      obtain ⟨t1, t2, e1, e2, hl, hm2⟩ := link_left x hm0
      obtain ⟨t3, e3, hl3, hm3⟩ := fixup_refines t2.node_arena.length t2 _ _ _ _ _ _ _ _
        hm2 hfix (by simp only [hl]; omega)
      refine ⟨t3, ?_, hm3, by simp, fun _ => by omega⟩
      simp [insert_traced, hloop, hd, descentOf, Path.side, e1, e2, e3]
    · simp only [hd, Option.map_eq_some', Prod.mk.injEq, Prod.exists] at hF
      obtain ⟨R, log', hfix, rfl, rfl, rfl⟩ := hF
      obtain ⟨t1, t2, e1, e2, hl, hm2⟩ := link_right x hm0
      obtain ⟨t3, e3, hl3, hm3⟩ := fixup_refines t2.node_arena.length t2 _ _ _ _ _ _ _ _
        hm2 hfix (by simp only [hl]; omega)
      refine ⟨t3, ?_, hm3, by simp, fun _ => by omega⟩
      simp [insert_traced, hloop, hd, descentOf, Path.side, e1, e2, e3]

end

end RB

/-! Part: From shapes back to the arena. -/

namespace RB
variable {T : Type}

/-! ### From shapes back to the arena -/

theorem Rep.within {t : RBTree T} : ∀ {s : Shape T} {par : Option Nat}, Rep t par s →
    ∀ i ∈ s.indices, Within t s.ptr i
  | .nil, _, _, i, hi => by simp at hi
  | .node j c l v r, par, h, i, hi => by
    obtain ⟨h1, h2, h3⟩ := h
    simp only [Shape.indices_node, List.mem_cons, List.mem_append] at hi
    rcases hi with rfl | hi | hi
    · exact Within.here h1
    · exact Within.left h1 (h2.within i hi)
    · exact Within.right h1 (h3.within i hi)

theorem Rep.of_within {t : RBTree T} {q : Option Nat} {i : Nat} (hw : Within t q i) :
    ∀ {s : Shape T} {par : Option Nat}, Rep t par s → s.ptr = q → i ∈ s.indices := by
  induction hw with
  | here hg =>
    intro s par _ hq
    exact Shape.ptr_mem hq
  | @left a b nd hg _ ih =>
    intro s par hr hq
    cases s with
    | nil => simp at hq
    | node j c l v r =>
      simp only [Shape.ptr_node, Option.some.injEq] at hq
      subst hq
      obtain ⟨h1, h2, h3⟩ := hr
      rw [hg, Option.some.injEq] at h1
      subst h1
      simp [ih h2 rfl]
  | @right a b nd hg _ ih =>
    intro s par hr hq
    cases s with
    | nil => simp at hq
    | node j c l v r =>
      simp only [Shape.ptr_node, Option.some.injEq] at hq
      subst hq
      obtain ⟨h1, h2, h3⟩ := hr
      rw [hg, Option.some.injEq] at h1
      subst h1
      simp [ih h3 rfl]

theorem Rep.payload_mem {t : RBTree T} : ∀ {s : Shape T} {par : Option Nat}, Rep t par s →
    ∀ i ∈ s.indices, ∀ nd, t.get i = some nd → nd.payload ∈ s.inorder
  | .nil, _, _, i, hi, _, _ => by simp at hi
  | .node j c l v r, par, h, i, hi, nd, hg => by
    obtain ⟨h1, h2, h3⟩ := h
    simp only [Shape.indices_node, List.mem_cons, List.mem_append] at hi
    simp only [Shape.inorder_node, List.mem_append, List.mem_cons]
    rcases hi with rfl | hi | hi
    · rw [hg, Option.some.injEq] at h1
      subst h1
      simp
    · exact Or.inl (h2.payload_mem i hi nd hg)
    · exact Or.inr (Or.inr (h3.payload_mem i hi nd hg))

theorem Rep.mem_payload {t : RBTree T} : ∀ {s : Shape T} {par : Option Nat}, Rep t par s →
    ∀ x ∈ s.inorder, ∃ i ∈ s.indices, ∃ nd, t.get i = some nd ∧ nd.payload = x
  | .nil, _, _, x, hx => by simp at hx
  | .node j c l v r, par, h, x, hx => by
    obtain ⟨h1, h2, h3⟩ := h
    simp only [Shape.inorder_node, List.mem_append, List.mem_cons] at hx
    rcases hx with hx | rfl | hx
    · obtain ⟨i, hi, nd, hg, hp⟩ := h2.mem_payload x hx
      exact ⟨i, by simp [hi], nd, hg, hp⟩
    · exact ⟨j, by simp, _, h1, rfl⟩
    · obtain ⟨i, hi, nd, hg, hp⟩ := h3.mem_payload x hx
      exact ⟨i, by simp [hi], nd, hg, hp⟩

/-! ### Subtrees -/

theorem Shape.mem_subtrees_of_mem_indices : ∀ {s : Shape T} {i : Nat}, i ∈ s.indices →
    ∃ c l v r, Shape.node i c l v r ∈ s.subtrees
  | .nil, i, hi => by simp at hi
  | .node j c l v r, i, hi => by
    simp only [Shape.indices_node, List.mem_cons, List.mem_append] at hi
    rcases hi with rfl | hi | hi
    · exact ⟨c, l, v, r, by simp [Shape.subtrees]⟩
    · obtain ⟨c', l', v', r', h⟩ := Shape.mem_subtrees_of_mem_indices hi
      exact ⟨c', l', v', r', by simp [Shape.subtrees, h]⟩
    · obtain ⟨c', l', v', r', h⟩ := Shape.mem_subtrees_of_mem_indices hi
      exact ⟨c', l', v', r', by simp [Shape.subtrees, h]⟩

theorem Rep.subtree {t : RBTree T} : ∀ {s : Shape T} {par : Option Nat}, Rep t par s →
    ∀ u ∈ s.subtrees, ∃ par', Rep t par' u
  | .nil, _, _, u, hu => by simp [Shape.subtrees] at hu
  | .node j c l v r, par, h, u, hu => by
    simp only [Shape.subtrees, List.mem_cons, List.mem_append] at hu
    rcases hu with rfl | hu | hu
    · exact ⟨par, h⟩
    · exact h.2.1.subtree u hu
    · exact h.2.2.subtree u hu

theorem Shape.balanced_subtree : ∀ {s : Shape T}, s.Balanced → ∀ u ∈ s.subtrees, u.Balanced
  | .nil, _, u, hu => by simp [Shape.subtrees] at hu
  | .node j c l v r, h, u, hu => by
    simp only [Shape.subtrees, List.mem_cons, List.mem_append] at hu
    rcases hu with rfl | hu | hu
    · exact h
    · exact Shape.balanced_subtree h.2.1 u hu
    · exact Shape.balanced_subtree h.2.2 u hu

theorem Shape.noRedRed_subtree : ∀ {s : Shape T}, s.NoRedRed → ∀ u ∈ s.subtrees, u.NoRedRed
  | .nil, _, u, hu => by simp [Shape.subtrees] at hu
  | .node j c l v r, h, u, hu => by
    simp only [Shape.subtrees, List.mem_cons, List.mem_append] at hu
    rcases hu with rfl | hu | hu
    · exact h
    · exact Shape.noRedRed_subtree h.2.1 u hu
    · exact Shape.noRedRed_subtree h.2.2 u hu

theorem Shape.sorted_subtree {r : T → T → Prop} : ∀ {s : Shape T}, s.inorder.Pairwise r →
    ∀ u ∈ s.subtrees, u.inorder.Pairwise r
  | .nil, _, u, hu => by simp [Shape.subtrees] at hu
  | .node j c l v rr, h, u, hu => by
    simp only [Shape.subtrees, List.mem_cons, List.mem_append] at hu
    simp only [Shape.inorder_node] at h
    rcases hu with rfl | hu | hu
    · exact h
    · exact Shape.sorted_subtree (List.pairwise_append.mp h).1 u hu
    · exact Shape.sorted_subtree (List.pairwise_cons.mp (List.pairwise_append.mp h).2.1).2 u hu

end RB

/-! Part: Every reachable tree draws a sorted red-black shape. -/

namespace RB
variable {T : Type} [LinearOrder T]

theorem draws_empty : Draws (RBTree.empty : RBTree T) .nil :=
  ⟨⟨rfl, trivial, trivial, by simp⟩, by simp [RBTree.empty], ⟨trivial, trivial, rfl⟩, by simp⟩

theorem Draws.length {t : RBTree T} {s : Shape T} (h : Draws t s) :
    s.indices.length = t.node_arena.length := by
  simpa using h.covers.length_eq

theorem Draws.insert_step {t : RBTree T} {s : Shape T} (h : Draws t s) (x : T) :
    ∃ t' s' b log, insert_traced t x = some (t', b, log) ∧ Draws t' s' ∧
      insertF x t.node_arena.length s = some (s', b, log) ∧
      InsertOk x t.node_arena.length s s' b log ∧
      (b = false → t' = t) ∧ (b = true → t'.node_arena.length = t.node_arena.length + 1) := by
  obtain ⟨s', b, log, hF, ok⟩ := insertF_valid x t.node_arena.length s h.valid h.sorted
  obtain ⟨t', e, hm, hsame, hlen⟩ := insert_refines x h.models h.length hF
  refine ⟨t', s', b, log, e, ⟨hm, ?_, ok.valid, ok.sorted⟩, hF, ok, hsame, hlen⟩
  cases b with
  | false =>
    rw [hsame rfl, (ok.dup_same rfl).1]
    exact h.covers
  | true =>
    rw [hlen rfl, List.range_succ]
    refine List.perm_iff_count.mpr fun a => ?_
    rw [ok.fresh_indices rfl a, List.count_cons, List.count_append,
      List.perm_iff_count.mp h.covers a]
    simp [List.count_cons]

theorem insert_eq_some {t t' : RBTree T} {x : T} {b : Bool} :
    insert t x = some (t', b) ↔ ∃ log, insert_traced t x = some (t', b, log) := by
  unfold insert
  constructor
  · intro h
    obtain ⟨⟨t1, b1, log⟩, h1, h2⟩ := Option.map_eq_some'.mp h
    simp only [Prod.mk.injEq] at h2
    obtain ⟨rfl, rfl⟩ := h2
    exact ⟨log, h1⟩
  · rintro ⟨log, h⟩
    simp [h]

theorem Reachable.inv {t : RBTree T} (h : Reachable t) : Inv t := by
  induction h with
  | empty => exact ⟨.nil, draws_empty⟩
  | @insert t t' p b _ hi ih =>
    obtain ⟨s, hd⟩ := ih
    obtain ⟨t'', s', b', log, e, hd', -⟩ := hd.insert_step p
    obtain ⟨log', e'⟩ := insert_eq_some.mp hi
    rw [e] at e'
    simp only [Option.some.injEq, Prod.mk.injEq] at e'
    obtain ⟨rfl, -, -⟩ := e'
    exact ⟨s', hd'⟩

/-- The subtree at an address of the arena. -/
theorem Draws.node_at {t : RBTree T} {s : Shape T} (h : Draws t s) {i : Nat} {nd : RBNode T}
    (hg : t.get i = some nd) :
    ∃ l r par, Shape.node i nd.color l nd.payload r ∈ s.subtrees ∧
      Rep t par (.node i nd.color l nd.payload r) ∧ nd.child_l = l.ptr ∧ nd.child_r = r.ptr := by
  have hi : i ∈ s.indices := by
    rw [h.covers.mem_iff, List.mem_range]
    exact get_lt hg
  obtain ⟨c, l, v, r, hu⟩ := Shape.mem_subtrees_of_mem_indices hi
  obtain ⟨par, hr⟩ := h.models.below.subtree _ hu
  have h1 := hr.1
  rw [hg, Option.some.injEq] at h1
  subst h1
  exact ⟨l, r, par, hu, hr, rfl, rfl⟩

theorem Draws.stores_iff {t : RBTree T} {s : Shape T} (h : Draws t s) (x : T) :
    Stores t x ↔ x ∈ s.inorder := by
  have hroot : s.ptr = t.root := h.models.root.symm
  constructor
  · rintro ⟨i, nd, hw, hg, rfl⟩
    exact h.models.below.payload_mem i (Rep.of_within hw h.models.below hroot) nd hg
  · intro hx
    obtain ⟨i, hi, nd, hg, hp⟩ := h.models.below.mem_payload x hx
    exact ⟨i, nd, hroot ▸ h.models.below.within i hi, hg, hp⟩

end RB

/-! Part: Ways, heights and searches. -/

namespace RB
variable {T : Type}

/-! ### Ways down the arena against the shape -/

theorem Rep.way {t : RBTree T} {q : Option Nat} {k b : Nat} (hw : Way t q k b) :
    ∀ {s : Shape T} {par : Option Nat}, Rep t par s → s.ptr = q →
      k ≤ s.height ∧ (s.Balanced → b = s.bh) := by
  induction hw with
  | nil =>
    intro s par _ hq
    cases s with
    | nil => simp [Shape.height]
    | node j c l v r => simp at hq
  | @left i k b nd hg _ ih =>
    intro s par hr hq
    cases s with
    | nil => simp at hq
    | node j c l v r =>
      simp only [Shape.ptr_node, Option.some.injEq] at hq
      subst hq
      obtain ⟨h1, h2, h3⟩ := hr
      rw [hg, Option.some.injEq] at h1
      subst h1
      obtain ⟨ih1, ih2⟩ := ih h2 rfl
      refine ⟨?_, fun hb => ?_⟩
      · simp only [Shape.height]
        have := le_max_left l.height r.height
        omega
      · simp only [Shape.bh_node, ih2 hb.2.1]
  | @right i k b nd hg _ ih =>
    intro s par hr hq
    cases s with
    | nil => simp at hq
    | node j c l v r =>
      simp only [Shape.ptr_node, Option.some.injEq] at hq
      subst hq
      obtain ⟨h1, h2, h3⟩ := hr
      rw [hg, Option.some.injEq] at h1
      subst h1
      obtain ⟨ih1, ih2⟩ := ih h3 rfl
      refine ⟨?_, fun hb => ?_⟩
      · simp only [Shape.height]
        have := le_max_right l.height r.height
        omega
      · simp only [Shape.bh_node, ih2 hb.2.2, hb.1]

/-! ### Height of a red-black shape -/

theorem Shape.height_le_bh : ∀ (s : Shape T), s.Balanced → s.NoRedRed →
    s.height ≤ 2 * s.bh + (if s.color = RBColor.RED then 1 else 0)
  | .nil, _, _ => by simp [Shape.height]
  | .node i c l v r, hb, hr => by
    obtain ⟨hb1, hb2, hb3⟩ := hb
    obtain ⟨hr1, hr2, hr3⟩ := hr
    have h1 := l.height_le_bh hb2 hr2
    have h2 := r.height_le_bh hb3 hr3
    simp only [Shape.height, Shape.bh_node, Shape.color_node]
    cases c with
    | RED =>
      obtain ⟨hl, hr'⟩ := hr1 rfl
      simp only [hl, hr', reduceCtorEq, if_false, add_zero] at h1 h2
      simp only [weight_red, if_true, add_zero]
      have := max_le h1 (hb1 ▸ h2)
      omega
    | BLACK =>
      simp only [weight_black, reduceCtorEq, if_false, add_zero]
      have h1' : l.height ≤ 2 * l.bh + 1 := by split_ifs at h1 <;> omega
      have h2' : r.height ≤ 2 * l.bh + 1 := by rw [hb1]; split_ifs at h2 <;> omega
      have := max_le h1' h2'
      omega

theorem Shape.pow_bh_le_size : ∀ (s : Shape T), s.Balanced → 2 ^ s.bh ≤ s.size + 1
  | .nil, _ => by simp [Shape.size]
  | .node i c l v r, hb => by
    obtain ⟨hb1, hb2, hb3⟩ := hb
    have h1 := l.pow_bh_le_size hb2
    have h2 := r.pow_bh_le_size hb3
    rw [← hb1] at h2
    simp only [Shape.bh_node, Shape.size]
    cases c with
    | RED => simp only [weight_red, add_zero]; omega
    | BLACK => simp only [weight_black, pow_succ]; omega

theorem Shape.RBValid.pow_height_le {s : Shape T} (h : s.RBValid) :
    2 ^ s.height ≤ (s.size + 1) ^ 2 := by
  obtain ⟨hb, hr, hc⟩ := h
  have h1 := s.height_le_bh hb hr
  simp only [hc, reduceCtorEq, if_false, add_zero] at h1
  have h2 := s.pow_bh_le_size hb
  calc 2 ^ s.height ≤ 2 ^ (2 * s.bh) := Nat.pow_le_pow_right (by norm_num) h1
    _ = (2 ^ s.bh) ^ 2 := by rw [Nat.mul_comm, pow_mul]
    _ ≤ (s.size + 1) ^ 2 := Nat.pow_le_pow_left h2 2

/-! ### Search against the shape -/

theorem search_loop_absent {K : Type} (eqK ltK : T → K → Bool) (t : RBTree T) (k : K) :
    ∀ (s : Shape T) (par : Option Nat) (fuel : Nat), Rep t par s → s.height ≤ fuel →
      (∀ p ∈ s.inorder, eqK p k = false) → search_loop eqK ltK t k fuel s.ptr = some none
  | .nil, _, fuel, _, _, _ => by cases fuel <;> rfl
  | .node i c l v r, par, fuel, hr, hf, hk => by
    cases fuel with
    | zero => simp [Shape.height] at hf
    | succ fuel =>
      simp only [Shape.height, Nat.add_le_add_iff_right] at hf
      have hv : eqK v k = false := hk v (by simp)
      simp only [Shape.ptr_node, search_loop, hr.1, Option.bind_eq_bind, Option.some_bind, hv,
        Bool.false_eq_true, if_false]
      split_ifs
      · exact search_loop_absent eqK ltK t k r _ fuel hr.2.2 (le_trans (le_max_right _ _) hf)
          fun p hp => hk p (by simp [hp])
      · exact search_loop_absent eqK ltK t k l _ fuel hr.2.1 (le_trans (le_max_left _ _) hf)
          fun p hp => hk p (by simp [hp])

theorem search_loop_found [LinearOrder T] {K : Type} [LinearOrder K] (key : T → K)
    (eqK ltK : T → K → Bool)
    (heq : ∀ p k, eqK p k = true ↔ key p = k) (hlt : ∀ p k, ltK p k = true ↔ key p < k)
    (hkey : StrictMono key) (t : RBTree T) (x : T) :
    ∀ (s : Shape T) (par : Option Nat) (fuel : Nat), Rep t par s → s.height ≤ fuel →
      s.inorder.Pairwise (· < ·) → x ∈ s.inorder →
      search_loop eqK ltK t (key x) fuel s.ptr = some (some x)
  | .nil, _, _, _, _, _, hx => by simp at hx
  | .node i c l v r, par, fuel, hr, hf, hs, hx => by
    cases fuel with
    | zero => simp [Shape.height] at hf
    | succ fuel =>
      simp only [Shape.height, Nat.add_le_add_iff_right] at hf
      simp only [Shape.inorder_node] at hs hx
      obtain ⟨hsl, hsr, hlr⟩ := List.pairwise_append.mp hs
      obtain ⟨hvr, hsr'⟩ := List.pairwise_cons.mp hsr
      simp only [Shape.ptr_node, search_loop, hr.1, Option.bind_eq_bind, Option.some_bind]
      by_cases h1 : v = x
      · subst h1
        simp [(heq v (key v)).mpr rfl]
      · have hne : ¬ eqK v (key x) = true := fun h => h1 (hkey.injective ((heq _ _).mp h))
        simp only [hne, if_false]
        rcases List.mem_append.mp hx with hxl | hxr
        · have hxv : x < v := hlr x hxl v (by simp)
          have : ¬ ltK v (key x) = true := fun h =>
            absurd (hkey.lt_iff_lt.mp ((hlt _ _).mp h)) (not_lt_of_lt hxv)
          simp only [this, if_false]
          exact search_loop_found key eqK ltK heq hlt hkey t x l _ fuel hr.2.1
            (le_trans (le_max_left _ _) hf) hsl hxl
        · rcases List.mem_cons.mp hxr with rfl | hxr
          · exact absurd rfl h1
          · have hvx : v < x := hvr x hxr
            have : ltK v (key x) = true := (hlt _ _).mpr (hkey hvx)
            simp only [this, if_true]
            exact search_loop_found key eqK ltK heq hlt hkey t x r _ fuel hr.2.2
              (le_trans (le_max_right _ _) hf) hsr' hxr

end RB

/-! Part: Inserting a list. -/

namespace RB
variable {T : Type}

theorem Shape.length_inorder : ∀ (s : Shape T), s.inorder.length = s.indices.length
  | .nil => rfl
  | .node i c l v r => by
    simp only [Shape.inorder_node, Shape.indices_node, List.length_append, List.length_cons,
      l.length_inorder, r.length_inorder]
    omega

section
variable [LinearOrder T]

theorem InsertOk.mem_iff {x : T} {n : Nat} {s s' : Shape T} {b : Bool} {log : List Event}
    (h : InsertOk x n s s' b log) (y : T) : y ∈ s'.inorder ↔ y = x ∨ y ∈ s.inorder := by
  cases b with
  | false =>
    have hx := h.dup_iff.mp rfl
    rw [(h.dup_same rfl).1]
    constructor
    · exact Or.inr
    · rintro (rfl | hy)
      · exact hx
      · exact hy
  | true =>
    obtain ⟨l1, l2, e1, e2⟩ := h.fresh_inorder rfl
    rw [e1, e2]
    simp only [List.mem_append, List.mem_cons]
    tauto

theorem insert_all_draws {t : RBTree T} (hr : Reachable t) {s : Shape T} (h : Draws t s) :
    ∀ (l : List T), ∃ t' s', insert_all t l = some t' ∧ Reachable t' ∧ Draws t' s' ∧
      ∀ x, x ∈ s'.inorder ↔ x ∈ s.inorder ∨ x ∈ l := by
  intro l
  induction l generalizing t s with
  | nil => exact ⟨t, s, rfl, hr, h, by simp⟩
  | cons p ps ih =>
    obtain ⟨t1, s1, b, log, e, hd1, -, ok, -⟩ := h.insert_step p
    have e1 : insert t p = some (t1, b) := insert_eq_some.mpr ⟨log, e⟩
    obtain ⟨t', s', e', hr', hd', hmem⟩ := ih (Reachable.insert hr e1) hd1
    refine ⟨t', s', by simp [insert_all, e1, e'], hr', hd', fun x => ?_⟩
    rw [hmem, ok.mem_iff, List.mem_cons]
    tauto

theorem reachable_insert_all {t t' : RBTree T} (hr : Reachable t) (l : List T)
    (h : insert_all t l = some t') : Reachable t' := by
  obtain ⟨s, hd⟩ := hr.inv
  obtain ⟨t'', s', e, hr', -⟩ := insert_all_draws hr hd l
  rw [e, Option.some.injEq] at h
  exact h ▸ hr'

theorem Draws.length_of_nodup {t : RBTree T} {s : Shape T} (h : Draws t s) {l : List T}
    (hl : l.Nodup) (hmem : ∀ x, x ∈ s.inorder ↔ x ∈ l) : t.node_arena.length = l.length := by
  have hnd : s.inorder.Nodup := h.sorted.imp fun hab => ne_of_lt hab
  have hp : s.inorder.Perm l := (List.perm_ext_iff_of_nodup hnd hl).mpr hmem
  rw [← h.length, ← s.length_inorder, hp.length_eq]

end

end RB

/-! Part: The properties of the specification. -/

namespace RB

/-! ## Sample trees are reachable -/

theorem sample3_built :
    insert_all (RBTree.empty : RBTree Nat) [10, 20, 30] = some sample3 := by decide

theorem sample3_reachable : Reachable sample3 :=
  reachable_insert_all Reachable.empty _ sample3_built

theorem sample6_built :
    insert_all (RBTree.empty : RBTree Nat) [1, 2, 3, 4, 5, 6] = some sample6 := by decide

theorem sample6_reachable : Reachable sample6 :=
  reachable_insert_all Reachable.empty _ sample6_built

theorem sample1_reachable : Reachable sample1 :=
  Reachable.insert Reachable.empty (by decide : insert RBTree.empty 5 = some (sample1, true))

theorem sample1_stores {p : Nat} (h : Stores sample1 p) : p = 5 := by
  obtain ⟨i, nd, hw, hg, rfl⟩ := h
  have hroot : sample1.root = some 0 := rfl
  have h0 : ∀ nd', sample1.get 0 = some nd' → nd' = ⟨5, RBColor.BLACK, none, none, none⟩ := by
    intro nd' e
    exact (Option.some.inj e).symm
  rw [hroot] at hw
  cases hw with
  | here h => rw [h0 _ hg]
  | left h hw' =>
    rw [h0 _ h] at hw'
    cases hw'
  | right h hw' =>
    rw [h0 _ h] at hw'
    cases hw'

/-! ## The claims -/

section Claims
variable {T : Type} [LinearOrder T]

/-- C1: on every tree reachable from the empty tree by inserts, `insert p` returns,
and the value it returns is `false` exactly when the tree already stores a
payload equal to `p` (so it is `true` exactly when it does not). -/
theorem insert_false_iff_stores (t : RBTree T) (p : T) (h : Reachable t) :
    ∃ t' b, insert t p = some (t', b) ∧ (b = false ↔ Stores t p) := by
  obtain ⟨s, hd⟩ := h.inv
  obtain ⟨t', s', b, log, e, -, -, ok, -⟩ := hd.insert_step p
  exact ⟨t', b, insert_eq_some.mpr ⟨log, e⟩, ok.dup_iff.trans (hd.stores_iff p).symm⟩

/-- C2: on every reachable tree, inserting a payload the tree already stores
returns `false` and the tree after the call is the tree before it: same root,
same arena, same fields in every node, hence the same result for every
search. -/
theorem insert_duplicate_unchanged (t : RBTree T) (p : T) (h : Reachable t)
    (hs : Stores t p) :
    ∃ t', insert t p = some (t', false) ∧ t' = t ∧
      t'.root = t.root ∧ t'.node_arena = t.node_arena ∧
      ∀ (K : Type) (eqK ltK : T → K → Bool) (k : K),
        (search eqK ltK t' k).map Prod.snd = (search eqK ltK t k).map Prod.snd := by
  obtain ⟨s, hd⟩ := h.inv
  obtain ⟨t', s', b, log, e, -, -, ok, hsame, -⟩ := hd.insert_step p
  have hb : b = false := ok.dup_iff.mpr ((hd.stores_iff p).mp hs)
  subst hb
  have ht : t' = t := hsame rfl
  subst ht
  exact ⟨t', insert_eq_some.mpr ⟨log, e⟩, rfl, rfl, rfl, fun _ _ _ _ => rfl⟩

/-- C3: after inserting a list of pairwise distinct payloads into an empty tree,
the tree has one node per payload and searching for the key of any payload
of the list returns that payload; the comparisons against keys are those of
a strictly monotone key function. -/
theorem round_trip {K : Type} [LinearOrder K] (key : T → K) (eqK ltK : T → K → Bool)
    (heq : ∀ p k, eqK p k = true ↔ key p = k) (hlt : ∀ p k, ltK p k = true ↔ key p < k)
    (hkey : StrictMono key) (l : List T) (hl : l.Nodup) :
    ∃ t, insert_all RBTree.empty l = some t ∧ t.node_arena.length = l.length ∧
      ∀ p ∈ l, search eqK ltK t (key p) = some (t, some p) := by
  obtain ⟨t, s, e, -, hd, hmem⟩ := insert_all_draws Reachable.empty draws_empty l
  have hmem' : ∀ x, x ∈ s.inorder ↔ x ∈ l := by simpa using hmem
  refine ⟨t, e, hd.length_of_nodup hl hmem', fun p hp => ?_⟩
  have hroot : s.ptr = t.root := hd.models.root.symm
  have hfound := search_loop_found key eqK ltK heq hlt hkey t p s none t.node_arena.length
    hd.models.below (hd.length ▸ s.height_le_length) hd.sorted ((hmem' p).mpr hp)
  rw [hroot] at hfound
  simp [search, hfound]

/-- C4: on every reachable tree, searching for a key that matches no stored
payload returns absent, and the tree after the call is the tree before it. -/
theorem search_absent {K : Type} (eqK ltK : T → K → Bool) (t : RBTree T) (k : K)
    (h : Reachable t) (hk : ∀ p, Stores t p → eqK p k = false) :
    search eqK ltK t k = some (t, none) := by
  obtain ⟨s, hd⟩ := h.inv
  have hroot : s.ptr = t.root := hd.models.root.symm
  have habs := search_loop_absent eqK ltK t k s none t.node_arena.length hd.models.below
    (hd.length ▸ s.height_le_length) fun p hp => hk p ((hd.stores_iff p).mpr hp)
  rw [hroot] at habs
  simp [search, habs]

/-- C5: in every reachable tree, for every node `n`, every payload in the subtree
under `n`'s left link is strictly less than `n`'s payload and every payload
in the subtree under its right link is strictly greater. -/
theorem bst_ordering (t : RBTree T) (h : Reachable t) (n : Nat) (nd : RBNode T)
    (hn : t.get n = some nd) :
    (∀ m md, Within t nd.child_l m → t.get m = some md → md.payload < nd.payload) ∧
    (∀ m md, Within t nd.child_r m → t.get m = some md → nd.payload < md.payload) := by
  obtain ⟨s, hd⟩ := h.inv
  obtain ⟨l, r, par, hu, hr, hl', hr'⟩ := hd.node_at hn
  have hs := Shape.sorted_subtree hd.sorted _ hu
  simp only [Shape.inorder_node] at hs
  obtain ⟨-, hs2, hs3⟩ := List.pairwise_append.mp hs
  constructor
  · intro m md hw hg
    have hm := Rep.of_within hw hr.2.1 hl'.symm
    exact hs3 _ (hr.2.1.payload_mem m hm md hg) _ (List.mem_cons_self _ _)
  · intro m md hw hg
    have hm := Rep.of_within hw hr.2.2 hr'.symm
    exact (List.pairwise_cons.mp hs2).1 _ (hr.2.2.payload_mem m hm md hg)

/-- C6: in every reachable tree, every child a RED node points to is a node of
the arena and is BLACK. -/
theorem no_red_red (t : RBTree T) (h : Reachable t) (n : Nat) (nd : RBNode T) (c : Nat)
    (hn : t.get n = some nd) (hred : nd.color = RBColor.RED)
    (hc : nd.child_l = some c ∨ nd.child_r = some c) :
    ∃ cd, t.get c = some cd ∧ cd.color = RBColor.BLACK := by
  obtain ⟨s, hd⟩ := h.inv
  obtain ⟨l, r, par, hu, hr, hl', hr'⟩ := hd.node_at hn
  obtain ⟨hcol, -, -⟩ := Shape.noRedRed_subtree hd.valid.2.1 _ hu
  obtain ⟨hcl, hcr⟩ := hcol hred
  rcases hc with hc | hc
  · rw [hl'] at hc
    cases l with
    | nil => simp at hc
    | node i ci li vi ri =>
      simp only [Shape.ptr_node, Option.some.injEq] at hc
      subst hc
      exact ⟨_, hr.2.1.1, hcl⟩
  · rw [hr'] at hc
    cases r with
    | nil => simp at hc
    | node i ci li vi ri =>
      simp only [Shape.ptr_node, Option.some.injEq] at hc
      subst hc
      exact ⟨_, hr.2.2.1, hcr⟩

/-- C7: in every reachable tree, any two ways from the same pointer (the root or
any node) down to a nil slot pass the same number of BLACK nodes. -/
theorem equal_black_height (t : RBTree T) (h : Reachable t) (p : Option Nat)
    (k b k' b' : Nat) (h1 : Way t p k b) (h2 : Way t p k' b') : b = b' := by
  obtain ⟨s, hd⟩ := h.inv
  have key : ∀ i nd, p = some i → t.get i = some nd → b = b' := by
    intro i nd hp hn
    obtain ⟨l, r, par, hu, hr, -, -⟩ := hd.node_at hn
    have hb := Shape.balanced_subtree hd.valid.1 _ hu
    subst hp
    rw [(Rep.way h1 hr rfl).2 hb, (Rep.way h2 hr rfl).2 hb]
  cases h1 with
  | nil => cases h2; rfl
  | left hg _ => exact key _ _ rfl hg
  | right hg _ => exact key _ _ rfl hg

/-- C8: after every `insert` call on a reachable tree, whether it adds a node or
rejects a duplicate, the root, when there is one, is a BLACK node. -/
theorem root_black_after_insert (t : RBTree T) (p : T) (h : Reachable t) :
    ∃ t' b, insert t p = some (t', b) ∧
      ∀ r, t'.root = some r → ∃ nd, t'.get r = some nd ∧ nd.color = RBColor.BLACK := by
  obtain ⟨s, hd⟩ := h.inv
  obtain ⟨t', s', b, log, e, hd', -⟩ := hd.insert_step p
  refine ⟨t', b, insert_eq_some.mpr ⟨log, e⟩, fun r hr => ?_⟩
  have hroot : t'.root = s'.ptr := hd'.models.root
  rw [hroot] at hr
  cases s' with
  | nil => simp at hr
  | node i c l v r' =>
    simp only [Shape.ptr_node, Option.some.injEq] at hr
    subst hr
    exact ⟨_, hd'.models.below.1, hd'.valid.2.2⟩

/-- C9: in every reachable tree with `n` nodes in its arena, every way from the
root down to a nil slot passes `h` nodes with `2 ^ h ≤ (n + 1) ^ 2`, that is
`h ≤ 2·log2 (n + 1)`. -/
theorem height_bound (t : RBTree T) (h : Reachable t) (k b : Nat)
    (hw : Way t t.root k b) : 2 ^ k ≤ (t.node_arena.length + 1) ^ 2 := by
  obtain ⟨s, hd⟩ := h.inv
  have hk := (Rep.way hw hd.models.below hd.models.root.symm).1
  have hs := hd.valid.pow_height_le
  rw [s.size_eq_length, hd.length] at hs
  exact le_trans (Nat.pow_le_pow_right (by norm_num) hk) hs

end Claims

end RB

/-! Part: Instances on the sample trees. -/

namespace RB

/-- Witness of C1: `insert 20` on the tree holding 10, 20, 30. -/
theorem insert_false_iff_stores_witness :
    Reachable sample3 ∧
      ∃ t' b, insert sample3 20 = some (t', b) ∧ (b = false ↔ Stores sample3 20) :=
  ⟨sample3_reachable, insert_false_iff_stores sample3 20 sample3_reachable⟩

/-- Witness of C2 (Scenario B): insert 5, then 5 again: `true`, then `false`, and
the arena holds the one node with payload 5. -/
theorem insert_duplicate_unchanged_witness :
    insert (RBTree.empty : RBTree Nat) 5 = some (sample1, true) ∧
      Reachable sample1 ∧ Stores sample1 5 ∧
      (∃ t', insert sample1 5 = some (t', false) ∧ t' = sample1 ∧
        t'.root = sample1.root ∧ t'.node_arena = sample1.node_arena ∧
        ∀ (K : Type) (eqK ltK : Nat → K → Bool) (k : K),
          (search eqK ltK t' k).map Prod.snd = (search eqK ltK sample1 k).map Prod.snd) ∧
      sample1.node_arena.map RBNode.payload = [5] :=
  ⟨by decide, sample1_reachable, ⟨0, _, Within.here rfl, rfl, rfl⟩,
    insert_duplicate_unchanged sample1 5 sample1_reachable ⟨0, _, Within.here rfl, rfl, rfl⟩,
    rfl⟩

/-- Witness of C3: 10, 20, 30 with the payload itself as key. -/
theorem round_trip_witness :
    [10, 20, 30].Nodup ∧
      ∃ t, insert_all (RBTree.empty : RBTree Nat) [10, 20, 30] = some t ∧
        t.node_arena.length = [10, 20, 30].length ∧
        ∀ p ∈ [10, 20, 30],
          search (fun a k => decide (a = k)) (fun a k => decide (a < k)) t (id p)
            = some (t, some p) :=
  ⟨by decide,
    round_trip id (fun a k => decide (a = k)) (fun a k => decide (a < k))
      (fun _ _ => by simp) (fun _ _ => by simp) strictMono_id [10, 20, 30] (by decide)⟩

/-- Witness of C4 (Scenario C): searching 7 in the tree that holds only 5. -/
theorem search_absent_witness :
    Reachable sample1 ∧ (∀ p, Stores sample1 p → decide (p = 7) = false) ∧
      search (fun a k => decide (a = k)) (fun a k => decide (a < k)) sample1 7
        = some (sample1, none) :=
  ⟨sample1_reachable, fun p hp => by rw [sample1_stores hp]; rfl,
    search_absent (fun a k => decide (a = k)) (fun a k => decide (a < k)) sample1 7
      sample1_reachable (fun p hp => by rw [sample1_stores hp]; rfl)⟩

/-- Witness of C5: the root of the tree holding 10, 20, 30. -/
theorem bst_ordering_witness :
    Reachable sample3 ∧
      sample3.get 1 = some ⟨20, RBColor.BLACK, some 0, some 2, none⟩ ∧
      (∀ m md, Within sample3 (some 0) m → sample3.get m = some md → md.payload < 20) ∧
      (∀ m md, Within sample3 (some 2) m → sample3.get m = some md → 20 < md.payload) :=
  ⟨sample3_reachable, rfl,
    bst_ordering sample3 sample3_reachable 1 ⟨20, RBColor.BLACK, some 0, some 2, none⟩ rfl⟩

/-- Witness of C6: the RED node holding 4 in the tree holding 1 to 6, and its left child. -/
theorem no_red_red_witness :
    Reachable sample6 ∧
      sample6.get 3 = some ⟨4, RBColor.RED, some 2, some 4, some 1⟩ ∧
      ∃ cd, sample6.get 2 = some cd ∧ cd.color = RBColor.BLACK :=
  ⟨sample6_reachable, rfl,
    no_red_red sample6 sample6_reachable 3 ⟨4, RBColor.RED, some 2, some 4, some 1⟩ 2 rfl rfl
      (Or.inl rfl)⟩

theorem sample3_way_left : Way sample3 (some 1) 2 1 :=
  @Way.left _ sample3 1 1 0 ⟨20, RBColor.BLACK, some 0, some 2, none⟩ rfl
    (@Way.left _ sample3 0 0 0 ⟨10, RBColor.RED, none, none, some 1⟩ rfl Way.nil)

theorem sample3_way_right : Way sample3 (some 1) 2 1 :=
  @Way.right _ sample3 1 1 0 ⟨20, RBColor.BLACK, some 0, some 2, none⟩ rfl
    (@Way.right _ sample3 2 0 0 ⟨30, RBColor.RED, none, none, some 1⟩ rfl Way.nil)

/-- Witness of C7: the leftmost and the rightmost way from the root of the tree
holding 10, 20, 30. -/
theorem equal_black_height_witness :
    Reachable sample3 ∧ Way sample3 (some 1) 2 1 ∧ Way sample3 (some 1) 2 1 ∧ (1 : Nat) = 1 :=
  ⟨sample3_reachable, sample3_way_left, sample3_way_right,
    equal_black_height sample3 sample3_reachable (some 1) 2 1 2 1 sample3_way_left
      sample3_way_right⟩

/-- Witness of C8: inserting 40 in the tree holding 10, 20, 30 recolors the root
RED on the way and BLACK again at the end. -/
theorem root_black_after_insert_witness :
    Reachable sample3 ∧
      ∃ t' b, insert sample3 40 = some (t', b) ∧
        ∀ r, t'.root = some r → ∃ nd, t'.get r = some nd ∧ nd.color = RBColor.BLACK :=
  ⟨sample3_reachable, root_black_after_insert sample3 40 sample3_reachable⟩

/-- Witness of C9 (Scenario D): after inserting 0, 1, …, 49 no way from the root
down to a nil slot passes more than 11 nodes. -/
theorem height_bound_witness :
    ∃ t : RBTree Nat, insert_all RBTree.empty (List.range 50) = some t ∧
      Reachable t ∧ t.node_arena.length = 50 ∧ ∀ k b, Way t t.root k b → k ≤ 11 := by
  obtain ⟨t, s, e, hr, hd, hmem⟩ :=
    insert_all_draws Reachable.empty draws_empty (List.range 50)
  have hlen : t.node_arena.length = 50 := by
    have := hd.length_of_nodup (List.nodup_range 50) (by simpa using hmem)
    simpa using this
  refine ⟨t, e, hr, hlen, fun k b hw => ?_⟩
  have hb := height_bound t hr k b hw
  rw [hlen] at hb
  by_contra hk
  have h12 : 2 ^ 12 ≤ 2 ^ k := Nat.pow_le_pow_right (by norm_num) (by omega)
  have : (2 : Nat) ^ 12 ≤ (50 + 1) ^ 2 := le_trans h12 hb
  norm_num at this

end RB

/-! Part: Three ascending inserts. -/

namespace RB
variable {T : Type}

theorem tree_eq {t : RBTree T} {l : List (RBNode T)} {r : Option Nat} (hroot : t.root = r)
    (hlen : t.node_arena.length = l.length) (hget : ∀ i, i < l.length → t.get i = l[i]?) :
    t = ⟨l, r⟩ := by
  obtain ⟨arena, root⟩ := t
  simp only [RBTree.mk.injEq]
  refine ⟨?_, hroot⟩
  apply List.ext_getElem? 
  intro i
  by_cases hi : i < l.length
  · exact hget i hi
  · rw [List.getElem?_eq_none (by simp at hlen; omega), List.getElem?_eq_none (by omega)]

section
variable [LinearOrder T]

/-- C10: inserting `a < b < c` in that order into an empty tree returns `true`
three times and leaves three nodes: `b` at the root, BLACK, with `a` as left
and `c` as right child, both RED and without children; the fixup of the
third insert calls one rotation, `rotate_left` on the node of `a`, whose
right child is present. -/
theorem three_ascending_inserts (a b c : T) (hab : a < b) (hbc : b < c) :
    insert (RBTree.empty : RBTree T) a
      = some (⟨[⟨a, RBColor.BLACK, none, none, none⟩], some 0⟩, true) ∧
    insert (⟨[⟨a, RBColor.BLACK, none, none, none⟩], some 0⟩ : RBTree T) b
      = some (⟨[⟨a, RBColor.BLACK, none, some 1, none⟩,
          ⟨b, RBColor.RED, none, none, some 0⟩], some 0⟩, true) ∧
    insert_traced (⟨[⟨a, RBColor.BLACK, none, some 1, none⟩,
        ⟨b, RBColor.RED, none, none, some 0⟩], some 0⟩ : RBTree T) c
      = some (⟨[⟨a, RBColor.RED, none, none, some 1⟩,
          ⟨b, RBColor.BLACK, some 0, some 2, none⟩,
          ⟨c, RBColor.RED, none, none, some 1⟩], some 1⟩, true, [Event.rotate_left 0 true]) := by
  have hac : a < c := lt_trans hab hbc
  -- first insert
  have m0 : Models (RBTree.empty : RBTree T) .top .nil := draws_empty.models
  have f1 : insertF a (RBTree.empty : RBTree T).node_arena.length .nil
      = some (.node 0 RBColor.BLACK .nil a .nil, true, []) := by
    simp [insertF, descendF, RBTree.empty]
  obtain ⟨t1, e1, m1, -, l1⟩ := insert_refines a m0 rfl f1
  have h1 : t1 = ⟨[⟨a, RBColor.BLACK, none, none, none⟩], some 0⟩ := by
    refine tree_eq m1.root (l1 rfl) fun i hi => ?_
    have hi' : i = 0 := by simpa using hi
    subst hi'
    exact m1.below.1
  subst h1
  -- second insert
  have f2 : insertF b (RBTree.mk [⟨a, RBColor.BLACK, none, none, none⟩] (some 0)).node_arena.length
      (.node 0 RBColor.BLACK .nil a .nil)
      = some (.node 0 RBColor.BLACK .nil a (.node 1 RBColor.RED .nil b .nil), true, []) := by
    simp [insertF, descendF, fixupF, ne_of_lt hab, hab]
  obtain ⟨t2, e2, m2, -, l2⟩ := insert_refines b m1 rfl f2
  have h2 : t2 = ⟨[⟨a, RBColor.BLACK, none, some 1, none⟩,
      ⟨b, RBColor.RED, none, none, some 0⟩], some 0⟩ := by
    refine tree_eq m2.root (l2 rfl) fun i hi => ?_
    have hi' : i = 0 ∨ i = 1 := by simp at hi; omega
    rcases hi' with rfl | rfl
    · exact m2.below.1
    · exact m2.below.2.2.1
  subst h2
  -- third insert
  have f3 : insertF c (RBTree.mk [⟨a, RBColor.BLACK, none, some 1, none⟩,
      ⟨b, RBColor.RED, none, none, some 0⟩] (some 0)).node_arena.length
      (.node 0 RBColor.BLACK .nil a (.node 1 RBColor.RED .nil b .nil))
      = some (.node 1 RBColor.BLACK (.node 0 RBColor.RED .nil a .nil) b
          (.node 2 RBColor.RED .nil c .nil), true, [Event.rotate_left 0 true]) := by
    simp [insertF, descendF, fixupF, ne_of_lt hac, hac, ne_of_lt hbc, hbc]
  obtain ⟨t3, e3, m3, -, l3⟩ := insert_refines c m2 rfl f3
  have h3 : t3 = ⟨[⟨a, RBColor.RED, none, none, some 1⟩,
      ⟨b, RBColor.BLACK, some 0, some 2, none⟩,
      ⟨c, RBColor.RED, none, none, some 1⟩], some 1⟩ := by
    refine tree_eq m3.root (l3 rfl) fun i hi => ?_
    have hi' : i = 0 ∨ i = 1 ∨ i = 2 := by simp at hi; omega
    rcases hi' with rfl | rfl | rfl
    · exact m3.below.2.1.1
    · exact m3.below.1
    · exact m3.below.2.2.1
  subst h3
  exact ⟨insert_eq_some.mpr ⟨_, e1⟩, insert_eq_some.mpr ⟨_, e2⟩, e3⟩

/-- Witness of C10 (Scenario A): 10, 20, 30. -/
theorem three_ascending_inserts_witness :
    (10 : Nat) < 20 ∧ (20 : Nat) < 30 ∧
    insert (RBTree.empty : RBTree Nat) 10
      = some (⟨[⟨10, RBColor.BLACK, none, none, none⟩], some 0⟩, true) ∧
    insert (⟨[⟨10, RBColor.BLACK, none, none, none⟩], some 0⟩ : RBTree Nat) 20
      = some (⟨[⟨10, RBColor.BLACK, none, some 1, none⟩,
          ⟨20, RBColor.RED, none, none, some 0⟩], some 0⟩, true) ∧
    insert_traced (⟨[⟨10, RBColor.BLACK, none, some 1, none⟩,
        ⟨20, RBColor.RED, none, none, some 0⟩], some 0⟩ : RBTree Nat) 30
      = some (sample3, true, [Event.rotate_left 0 true]) :=
  ⟨by decide, by decide, three_ascending_inserts 10 20 30 (by decide) (by decide)⟩

end

end RB

/-! Part: Traversals of the arena and of shapes. -/

namespace RB
variable {T : Type}

/-! ### Traversals against the shape -/

theorem Rep.inorder_from {t : RBTree T} : ∀ {s : Shape T} {par : Option Nat} (fuel : Nat),
    Rep t par s → s.height ≤ fuel → RB.inorder_from t fuel s.ptr = some s.inorder
  | .nil, _, fuel, _, _ => by cases fuel <;> rfl
  | .node i c l v r, par, fuel, h, hf => by
    cases fuel with
    | zero => simp [Shape.height] at hf
    | succ fuel =>
      simp only [Shape.height, Nat.add_le_add_iff_right] at hf
      obtain ⟨h1, h2, h3⟩ := h
      simp only [Shape.ptr_node, RB.inorder_from, h1, Option.some_bind,
        h2.inorder_from fuel (le_trans (le_max_left _ _) hf),
        h3.inorder_from fuel (le_trans (le_max_right _ _) hf), Shape.inorder_node]

theorem Rep.nodes_from {t : RBTree T} : ∀ {s : Shape T} {par : Option Nat} (fuel : Nat),
    Rep t par s → s.height ≤ fuel → RB.nodes_from t fuel s.ptr = some s.indices
  | .nil, _, fuel, _, _ => by cases fuel <;> rfl
  | .node i c l v r, par, fuel, h, hf => by
    cases fuel with
    | zero => simp [Shape.height] at hf
    | succ fuel =>
      simp only [Shape.height, Nat.add_le_add_iff_right] at hf
      obtain ⟨h1, h2, h3⟩ := h
      simp only [Shape.ptr_node, RB.nodes_from, h1, Option.some_bind,
        h2.nodes_from fuel (le_trans (le_max_left _ _) hf),
        h3.nodes_from fuel (le_trans (le_max_right _ _) hf), Shape.indices_node]

/-- A tree that draws a shape from the root with as many addresses as the arena
is long is traversed in full. -/
theorem Models.inorder_eq {t : RBTree T} {s : Shape T} (h : Models t .top s)
    (hl : s.indices.length ≤ t.node_arena.length) : inorder t = some s.inorder := by
  unfold inorder
  rw [h.root]
  exact h.below.inorder_from _ (le_trans s.height_le_length hl)

theorem Models.nodes_eq {t : RBTree T} {s : Shape T} (h : Models t .top s)
    (hl : s.indices.length ≤ t.node_arena.length) : nodes t = some s.indices := by
  unfold nodes
  rw [h.root]
  exact h.below.nodes_from _ (le_trans s.height_le_length hl)

theorem Models.length_le {t : RBTree T} {path : Path T} {s : Shape T} (h : Models t path s) :
    (path.indices ++ s.indices).length ≤ t.node_arena.length := by
  have hsub : ∀ i ∈ path.indices ++ s.indices, i ∈ List.range t.node_arena.length := by
    intro i hi
    rw [List.mem_range]
    rcases List.mem_append.mp hi with hi | hi
    · exact h.above.lt_path i hi
    · exact h.below.lt i hi
  have := (List.subperm_of_subset h.nodup hsub).length_le
  simpa using this

/-- The node at an address of a shape, with the path that leads to it. -/
theorem Shape.focus {x : Nat} : ∀ (s : Shape T) (path : Path T), x ∈ s.indices →
    ∃ (path' : Path T) (c : RBColor) (l : Shape T) (v : T) (r : Shape T),
      path.plug s = path'.plug (.node x c l v r)
  | .nil, _, hx => by simp at hx
  | .node i c l v r, path, hx => by
    simp only [Shape.indices_node, List.mem_cons, List.mem_append] at hx
    rcases hx with rfl | hx | hx
    · exact ⟨path, c, l, v, r, rfl⟩
    · exact Shape.focus l (.left path i c v r) hx
    · exact Shape.focus r (.right path i c l v) hx

end RB

/-! Part: The record of the fixup on shapes. -/

namespace RB
variable {T : Type}

theorem LogShape.nil (d : Nat) : LogShape d [] :=
  ⟨[], [], rfl, by simp, by simp, by simp⟩

theorem LogShape.rots (d : Nat) (rots : List Event) (h : rots.length ≤ 2)
    (hr : ∀ e ∈ rots, ∃ x, e = Event.rotate_left x true ∨ e = Event.rotate_right x true) :
    LogShape d rots :=
  ⟨[], rots, rfl, by simp, h, hr⟩

theorem LogShape.recurse {d : Nat} {log : List Event} (h : LogShape d log) (g : Nat) :
    LogShape (d + 1 + 1) (Event.recurse g :: log) := by
  obtain ⟨gs, rots, e, h1, h2, h3⟩ := h
  exact ⟨g :: gs, rots, by simp [e], by simp; omega, h2, h3⟩

theorem fixupF_log : ∀ (path : Path T) (s R : Shape T) (log : List Event),
    fixupF path s = some (R, log) → LogShape path.depth log
  | .top, s, R, log, h => by
    simp only [fixupF, Option.some.injEq, Prod.mk.injEq] at h
    exact h.2 ▸ LogShape.nil _
  | .left .top p cp pv pr, s, R, log, h => by
    simp only [fixupF] at h
    split_ifs at h
    simp only [Option.some.injEq, Prod.mk.injEq] at h
    exact h.2 ▸ LogShape.nil _
  | .right .top p cp pl pv, s, R, log, h => by
    simp only [fixupF] at h
    split_ifs at h
    simp only [Option.some.injEq, Prod.mk.injEq] at h
    exact h.2 ▸ LogShape.nil _
  | .left (.left up g cg gv u) p cp pv pr, s, R, log, h => by
    simp only [fixupF] at h
    split_ifs at h
    · simp only [Option.some.injEq, Prod.mk.injEq] at h
      exact h.2 ▸ LogShape.nil _
    · obtain ⟨⟨R', log'⟩, h1, h2⟩ := Option.map_eq_some'.mp h
      simp only [Prod.mk.injEq] at h2
      exact h2.2 ▸ (fixupF_log up _ R' log' h1).recurse g
    · simp only [Option.some.injEq, Prod.mk.injEq] at h
      exact h.2 ▸ LogShape.rots _ _ (by simp) (by simp)
  | .right (.left up g cg gv u) p cp pl pv, s, R, log, h => by
    simp only [fixupF] at h
    split_ifs at h
    · simp only [Option.some.injEq, Prod.mk.injEq] at h
      exact h.2 ▸ LogShape.nil _
    · obtain ⟨⟨R', log'⟩, h1, h2⟩ := Option.map_eq_some'.mp h
      simp only [Prod.mk.injEq] at h2
      exact h2.2 ▸ (fixupF_log up _ R' log' h1).recurse g
    · cases s with
      | nil => simp at h
      | node n cn nl nv nr =>
        simp only [Option.some.injEq, Prod.mk.injEq] at h
        exact h.2 ▸ LogShape.rots _ _ (by simp) (by simp)
  | .left (.right up g cg u gv) p cp pv pr, s, R, log, h => by
    simp only [fixupF] at h
    split_ifs at h
    · simp only [Option.some.injEq, Prod.mk.injEq] at h
      exact h.2 ▸ LogShape.nil _
    · obtain ⟨⟨R', log'⟩, h1, h2⟩ := Option.map_eq_some'.mp h
      simp only [Prod.mk.injEq] at h2
      exact h2.2 ▸ (fixupF_log up _ R' log' h1).recurse g
    · cases s with
      | nil => simp at h
      | node n cn nl nv nr =>
        simp only [Option.some.injEq, Prod.mk.injEq] at h
        exact h.2 ▸ LogShape.rots _ _ (by simp) (by simp)
  | .right (.right up g cg u gv) p cp pl pv, s, R, log, h => by
    simp only [fixupF] at h
    split_ifs at h
    · simp only [Option.some.injEq, Prod.mk.injEq] at h
      exact h.2 ▸ LogShape.nil _
    · obtain ⟨⟨R', log'⟩, h1, h2⟩ := Option.map_eq_some'.mp h
      simp only [Prod.mk.injEq] at h2
      exact h2.2 ▸ (fixupF_log up _ R' log' h1).recurse g
    · simp only [Option.some.injEq, Prod.mk.injEq] at h
      exact h.2 ▸ LogShape.rots _ _ (by simp) (by simp)

theorem LogShape.flags {d : Nat} {log : List Event} (h : LogShape d log) (x : Nat) :
    Event.rotate_left x false ∉ log ∧ Event.rotate_right x false ∉ log := by
  obtain ⟨gs, rots, e, -, -, h3⟩ := h
  subst e
  constructor <;>
  · intro hm
    rcases List.mem_append.mp hm with hm | hm
    · simp at hm
    · obtain ⟨y, hy | hy⟩ := h3 _ hm <;> simp at hy

section
variable [LinearOrder T]

theorem insertF_log {x : T} {n : Nat} {s s' : Shape T} {b : Bool} {log : List Event}
    (h : insertF x n s = some (s', b, log)) :
    log = [] ∨ ∃ path R, descendF x .top s = some path ∧ path.hp ≠ none ∧
      fixupF path (.node n RBColor.RED .nil x .nil) = some (R, log) := by
  unfold insertF at h
  cases hd : descendF x .top s with
  | none =>
    simp only [hd, Option.some.injEq, Prod.mk.injEq] at h
    exact Or.inl h.2.2.symm
  | some path =>
    rcases path with _ | ⟨up, p, cp, pv, pr⟩ | ⟨up, p, cp, pl, pv⟩
    · simp only [hd, Option.some.injEq, Prod.mk.injEq] at h
      exact Or.inl h.2.2.symm
    · simp only [hd, Option.map_eq_some', Prod.mk.injEq, Prod.exists] at h
      obtain ⟨R, log', hf, -, -, rfl⟩ := h
      exact Or.inr ⟨_, R, rfl, by simp, hf⟩
    · simp only [hd, Option.map_eq_some', Prod.mk.injEq, Prod.exists] at h
      obtain ⟨R, log', hf, -, -, rfl⟩ := h
      exact Or.inr ⟨_, R, rfl, by simp, hf⟩

end

end RB

/-! Part: The calls of the fixup on the arena. -/

namespace RB
variable {T : Type}

/-! ### The calls of the fixup -/

theorem fixup_tree_zero (t : RBTree T) (n : Nat) : fixup_tree t 0 n = none := rfl

theorem fixup_tree_step {t t3 : RBTree T} {n g : Nat} (h : FixupStep t n t3 g) (f : Nat) :
    fixup_tree t (f + 1) n
      = (fixup_tree t3 f g).map fun r => (r.1, Event.recurse g :: r.2) := by
  obtain ⟨nd, p, pn, gn, u, t1, t2, h1, h2, h3, h4, h5, h6, h7, h8, h9, h10, h11⟩ := h
  rw [fixup_tree]
  simp only [h1, Option.some_bind, h2, h3, h4, reduceCtorEq, if_false, h5, h6, decide_eq_true_eq,
    h7, h8, if_true, h9, h10, h11]

theorem fixup_tree_calls {t tk : RBTree T} {n nk : Nat} {gs : List Nat}
    (hc : FixupCalls t n gs tk nk) : ∀ (f : Nat) (r : RBTree T × List Event),
    fixup_tree t f n = some r → ∃ f' r', fixup_tree tk f' nk = some r' := by
  induction hc with
  | done => exact fun f r h => ⟨f, r, h⟩
  | step hs _ ih =>
    intro f r h
    cases f with
    | zero => simp [fixup_tree_zero] at h
    | succ f =>
      rw [fixup_tree_step hs] at h
      obtain ⟨r', h', -⟩ := Option.map_eq_some'.mp h
      exact ih f r' h'

theorem fixup_tree_grandparent {t : RBTree T} {n f : Nat} {r : RBTree T × List Event}
    (h : fixup_tree t f n = some r) {nd pn : RBNode T} {par : Nat}
    (h1 : t.get n = some nd) (h2 : nd.parent = some par) (h3 : t.get par = some pn)
    (h4 : pn.color = RBColor.RED) : ∃ g gn, pn.parent = some g ∧ t.get g = some gn := by
  cases f with
  | zero => simp [fixup_tree_zero] at h
  | succ f =>
    rw [fixup_tree] at h
    simp only [h1, Option.some_bind, h2, h3, h4, reduceCtorEq, if_false] at h
    obtain ⟨g, hg, h⟩ := Option.bind_eq_some.mp h
    obtain ⟨gn, hgn, -⟩ := Option.bind_eq_some.mp h
    exact ⟨g, gn, hg, hgn⟩

/-! ### Recoloring keeps the links -/

theorem SameLinks.refl (t : RBTree T) : SameLinks t t :=
  ⟨rfl, rfl, fun _ nd h => ⟨nd, h, rfl, rfl, rfl, rfl⟩⟩

theorem SameLinks.trans {t t' t'' : RBTree T} (h : SameLinks t t') (h' : SameLinks t' t'') :
    SameLinks t t'' := by
  obtain ⟨a1, a2, a3⟩ := h
  obtain ⟨b1, b2, b3⟩ := h'
  refine ⟨b1.trans a1, b2.trans a2, fun j nd hj => ?_⟩
  obtain ⟨nd', e, c1, c2, c3, c4⟩ := a3 j nd hj
  obtain ⟨nd'', e', d1, d2, d3, d4⟩ := b3 j nd' e
  exact ⟨nd'', e', d1.trans c1, d2.trans c2, d3.trans c3, d4.trans c4⟩

theorem set_color_sameLinks {t t' : RBTree T} {i : Nat} {c : RBColor}
    (h : t.set_color i c = some t') : SameLinks t t' := by
  unfold RBTree.set_color at h
  obtain ⟨ni, hi, rfl⟩ := Option.map_eq_some'.mp h
  refine ⟨rfl, by simp, fun j nd hj => ?_⟩
  by_cases e : j = i
  · subst e
    have e' : ni = nd := Option.some.inj (hi.symm.trans hj)
    subst e'
    exact ⟨{ ni with color := c }, by simp [get_put, hi], rfl, rfl, rfl, rfl⟩
  · exact ⟨nd, by simp [get_put, e, hj], rfl, rfl, rfl, rfl⟩

theorem FixupStep.links_kept {t t' : RBTree T} {n g : Nat} (h : FixupStep t n t' g) :
    SameLinks t t' := by
  obtain ⟨nd, p, pn, gn, u, t1, t2, -, -, -, -, -, -, -, -, h9, h10, h11⟩ := h
  exact ((set_color_sameLinks h9).trans (set_color_sameLinks h10)).trans
    (set_color_sameLinks h11)

theorem FixupCalls.links_stay {t tk : RBTree T} {n nk : Nat} {gs : List Nat}
    (hc : FixupCalls t n gs tk nk) : SameLinks t tk := by
  induction hc with
  | done => exact SameLinks.refl _
  | step hs _ ih => exact hs.links_kept.trans ih

/-! ### Depth -/

theorem Depth.unique {t : RBTree T} {x d : Nat} (h : Depth t x d) :
    ∀ {d' : Nat}, Depth t x d' → d = d' := by
  induction h with
  | root h1 h2 =>
    intro d' h'
    cases h' with
    | root _ _ => rfl
    | step g1 g2 _ => rw [h1, Option.some.injEq] at g1; subst g1; rw [h2] at g2; simp at g2
  | step h1 h2 _ ih =>
    intro d' h'
    cases h' with
    | root g1 g2 => rw [h1, Option.some.injEq] at g1; subst g1; rw [h2] at g2; simp at g2
    | step g1 g2 g3 =>
      rw [h1, Option.some.injEq] at g1
      subst g1
      rw [h2, Option.some.injEq] at g2
      subst g2
      rw [ih g3]

theorem Depth.transfer {t t' : RBTree T} (hs : SameLinks t t') {x d : Nat}
    (h : Depth t x d) : Depth t' x d := by
  induction h with
  | root h1 h2 =>
    obtain ⟨nd', e, -, -, -, e4⟩ := hs.2.2 _ _ h1
    exact Depth.root e (e4.trans h2)
  | step h1 h2 _ ih =>
    obtain ⟨nd', e, -, -, -, e4⟩ := hs.2.2 _ _ h1
    exact Depth.step e (e4.trans h2) ih

theorem FixupStep.depth_two {t t' : RBTree T} {n g : Nat} (h : FixupStep t n t' g) {k : Nat}
    (hd : Depth t n k) : ∃ k', k = k' + 2 ∧ Depth t g k' ∧ Depth t' g k' := by
  have hl := h.links_kept
  obtain ⟨nd, p, pn, gn, u, t1, t2, h1, h2, h3, h4, h5, h6, -⟩ := h
  cases hd with
  | root g1 g2 => rw [h1, Option.some.injEq] at g1; subst g1; rw [h2] at g2; simp at g2
  | step g1 g2 g3 =>
    rw [h1, Option.some.injEq] at g1
    subst g1
    rw [h2, Option.some.injEq] at g2
    subst g2
    cases g3 with
    | root g1 g2 => rw [h3, Option.some.injEq] at g1; subst g1; rw [h5] at g2; simp at g2
    | step g1 g2 g3 =>
      rw [h3, Option.some.injEq] at g1
      subst g1
      rw [h5, Option.some.injEq] at g2
      subst g2
      exact ⟨_, rfl, g3, g3.transfer hl⟩

theorem RepPath.depth_up {t : RBTree T} : ∀ {path : Path T} {h : Option Nat} {i : Nat},
    RepPath t path h → path.hp = some i → Depth t i (path.depth - 1)
  | .top, _, _, _, hi => by simp at hi
  | .left up j c v r, h, i, hp, hi => by
    simp only [Path.hp_left, Option.some.injEq] at hi
    subst hi
    obtain ⟨h1, -, h3⟩ := hp
    cases hup : up.hp with
    | none =>
      have : up = .top := by cases up <;> simp at hup ⊢
      subst this
      exact Depth.root h1 (by simp)
    | some q =>
      have := h3.depth_up hup
      have hpos : 0 < up.depth := by cases up <;> simp [Path.depth] at hup ⊢
      simp only [Path.depth, Nat.add_sub_cancel]
      have e : up.depth = (up.depth - 1) + 1 := by omega
      rw [e]
      exact Depth.step h1 (by simp [hup]) this
  | .right up j c l v, h, i, hp, hi => by
    simp only [Path.hp_right, Option.some.injEq] at hi
    subst hi
    obtain ⟨h1, -, h3⟩ := hp
    cases hup : up.hp with
    | none =>
      have : up = .top := by cases up <;> simp at hup ⊢
      subst this
      exact Depth.root h1 (by simp)
    | some q =>
      have := h3.depth_up hup
      have hpos : 0 < up.depth := by cases up <;> simp [Path.depth] at hup ⊢
      simp only [Path.depth, Nat.add_sub_cancel]
      have e : up.depth = (up.depth - 1) + 1 := by omega
      rw [e]
      exact Depth.step h1 (by simp [hup]) this

theorem Models.depth_node {t : RBTree T} {path : Path T} {n : Nat} {c : RBColor} {l r : Shape T}
    {v : T} (h : Models t path (.node n c l v r)) : Depth t n path.depth := by
  have h1 := h.below.1
  cases hup : path.hp with
  | none =>
    have : path = .top := by cases path <;> simp at hup ⊢
    subst this
    exact Depth.root h1 rfl
  | some q =>
    have := h.above.depth_up hup
    have hpos : 0 < path.depth := by cases path <;> simp [Path.depth] at hup ⊢
    have e : path.depth = (path.depth - 1) + 1 := by omega
    rw [e]
    exact Depth.step h1 hup this

end RB

/-! Part: The fixup that insert starts. -/

namespace RB
variable {T : Type}

theorem fixup_rotate_log {t t' : RBTree T} {n p g : Nat} {il pil : Bool} {log : List Event}
    (h : fixup_rotate t n p g il pil = some (t', log)) :
    (∃ e, log = [e] ∧ e.rotates g) ∨ (∃ e1 e2, log = [e1, e2] ∧ e1.rotates p ∧ e2.rotates g) := by
  unfold fixup_rotate at h
  split_ifs at h
  · simp only [Option.bind_eq_bind, Option.bind_eq_some, Option.pure_def, Option.some.injEq,
      Prod.mk.injEq] at h
    obtain ⟨pn, -, t1, -, gn, -, t2, -, t3, -, t4, -, -, rfl⟩ := h
    exact Or.inr ⟨_, _, rfl, ⟨_, Or.inl rfl⟩, ⟨_, Or.inr rfl⟩⟩
  · simp only [Option.bind_eq_bind, Option.bind_eq_some, Option.pure_def, Option.some.injEq,
      Prod.mk.injEq] at h
    obtain ⟨gn, -, t2, -, t3, -, t4, -, -, rfl⟩ := h
    exact Or.inl ⟨_, rfl, ⟨_, Or.inr rfl⟩⟩
  · simp only [Option.bind_eq_bind, Option.bind_eq_some, Option.pure_def, Option.some.injEq,
      Prod.mk.injEq] at h
    obtain ⟨pn, -, t1, -, gn, -, t2, -, t3, -, t4, -, -, rfl⟩ := h
    exact Or.inr ⟨_, _, rfl, ⟨_, Or.inr rfl⟩, ⟨_, Or.inl rfl⟩⟩
  · simp only [Option.bind_eq_bind, Option.bind_eq_some, Option.pure_def, Option.some.injEq,
      Prod.mk.injEq] at h
    obtain ⟨gn, -, t2, -, t3, -, t4, -, -, rfl⟩ := h
    exact Or.inl ⟨_, rfl, ⟨_, Or.inl rfl⟩⟩

/-- What a call of `fixup_tree` that returns has done: nothing or a recoloring of
the root, a recoloring and a recursive call, or rotations on the parent and
grandparent. -/
theorem fixup_tree_inv {t t' : RBTree T} {n f : Nat} {log : List Event}
    (h : fixup_tree t (f + 1) n = some (t', log)) :
    (log = [] ∧ SameLinks t t') ∨
    (∃ t3 g log', FixupStep t n t3 g ∧ fixup_tree t3 f g = some (t', log') ∧
      log = Event.recurse g :: log') ∨
    (∃ nd p pn g, t.get n = some nd ∧ nd.parent = some p ∧ t.get p = some pn ∧
      pn.parent = some g ∧
      ((∃ e, log = [e] ∧ e.rotates g) ∨
        (∃ e1 e2, log = [e1, e2] ∧ e1.rotates p ∧ e2.rotates g))) := by
  rw [fixup_tree] at h
  obtain ⟨nd, hn, h⟩ := Option.bind_eq_some.mp h
  cases hp : nd.parent with
  | none =>
    simp only [hp, Option.map_eq_some', Prod.mk.injEq] at h
    obtain ⟨t1, h1, rfl, rfl⟩ := h
    exact Or.inl ⟨rfl, set_color_sameLinks h1⟩
  | some p =>
    simp only [hp] at h
    obtain ⟨pn, hpn, h⟩ := Option.bind_eq_some.mp h
    by_cases hc : pn.color = RBColor.BLACK
    · simp only [hc, if_true, Option.some.injEq, Prod.mk.injEq] at h
      obtain ⟨rfl, rfl⟩ := h
      exact Or.inl ⟨rfl, SameLinks.refl _⟩
    · simp only [hc, if_false] at h
      obtain ⟨g, hg, h⟩ := Option.bind_eq_some.mp h
      obtain ⟨gn, hgn, h⟩ := Option.bind_eq_some.mp h
      obtain ⟨ur, hur, h⟩ := Option.bind_eq_some.mp h
      cases ur with
      | true =>
        simp only [if_true] at h
        obtain ⟨t1, h1, h⟩ := Option.bind_eq_some.mp h
        obtain ⟨u, hu, h⟩ := Option.bind_eq_some.mp h
        obtain ⟨t2, h2, h⟩ := Option.bind_eq_some.mp h
        obtain ⟨t3, h3, h⟩ := Option.bind_eq_some.mp h
        obtain ⟨⟨t4, log'⟩, h4, h5⟩ := Option.map_eq_some'.mp h
        simp only [Prod.mk.injEq] at h5
        obtain ⟨rfl, rfl⟩ := h5
        refine Or.inr (Or.inl ⟨t3, g, log', ?_, h4, rfl⟩)
        simp only [decide_eq_true_eq] at hu hur
        rw [hu] at hur
        exact ⟨nd, p, pn, gn, u, t1, t2, hn, hp, hpn, (not_black_iff _).mp hc, hg, hgn, hu, hur,
          h1, h2, h3⟩
      | false =>
        simp only [Bool.false_eq_true, if_false] at h
        exact Or.inr (Or.inr ⟨nd, p, pn, g, hn, hp, hpn, hg, fixup_rotate_log h⟩)

/-- A fixup that returns has made a chain of recoloring calls and then, in its
last call, at most a rotation on the parent and one on the grandparent. -/
theorem fixup_tree_run : ∀ (f : Nat) (t t' : RBTree T) (n : Nat) (log : List Event),
    fixup_tree t f n = some (t', log) →
    ∃ gs tk nk rots, FixupCalls t n gs tk nk ∧ log = List.map Event.recurse gs ++ rots ∧
      Terminal tk nk rots
  | 0, t, t', n, log, h => by simp [fixup_tree_zero] at h
  | f + 1, t, t', n, log, h => by
    rcases fixup_tree_inv h with ⟨rfl, -⟩ | ⟨t3, g, log', hs, hr, rfl⟩ |
      ⟨nd, p, pn, g, h1, h2, h3, h4, h5⟩
    · exact ⟨[], t, n, [], FixupCalls.done, rfl, Or.inl rfl⟩
    · obtain ⟨gs, tk, nk, rots, hc, e, ht⟩ := fixup_tree_run f t3 t' g log' hr
      exact ⟨g :: gs, tk, nk, rots, FixupCalls.step hs hc, by simp [e], ht⟩
    · exact ⟨[], t, n, log, FixupCalls.done, rfl, Or.inr ⟨nd, p, pn, g, h1, h2, h3, h4, h5⟩⟩

section
variable [LinearOrder T]

theorem insert_traced_of_start {t t2 : RBTree T} {p : T} {n : Nat}
    (h : FixupStart t p t2 n) :
    insert_traced t p
      = (fixup_tree t2 t2.node_arena.length n).map fun r => (r.1, true, r.2) := by
  obtain ⟨parent, il, t1, h1, rfl, h2, h3⟩ := h
  unfold insert_traced
  cases il <;>
  · simp only [Bool.false_eq_true, if_false, if_true] at h3
    simp only [h1, Option.bind_eq_bind, Option.some_bind, h2, h3, Bool.false_eq_true,
      if_false, if_true]
    cases fixup_tree t2 t2.node_arena.length t.node_arena.length with
    | none => rfl
    | some r => rfl

/-- The state in which `insert` calls the fixup draws the old shape with the new
node, RED, in the slot the descent found. -/
theorem fixup_start_models {t t2 : RBTree T} {s : Shape T} {p : T} {n : Nat}
    (hd : Draws t s) (h : FixupStart t p t2 n) :
    ∃ path, descendF p .top s = some path ∧ path.hp ≠ none ∧
      Models t2 path (.node n RBColor.RED .nil p .nil) ∧
      t2.node_arena.length = t.node_arena.length + 1 ∧
      path.depth ≤ t.node_arena.length := by
  obtain ⟨parent, il, t1, h1, rfl, h2, h3⟩ := h
  have hloop := insert_loop_refines t p s t.node_arena.length hd.models
    (hd.length ▸ s.height_le_length)
  have hroot : s.ptr = t.root := hd.models.root.symm
  rw [hroot, h1, Option.some.injEq] at hloop
  cases hdesc : descendF p .top s with
  | none => simp [hdesc, descentOf] at hloop
  | some path =>
    simp only [hdesc, descentOf, Descent.slot.injEq] at hloop
    obtain ⟨hhp, hside⟩ := hloop
    obtain ⟨hplug, -⟩ := descendF_some p s _ _ hdesc
    simp only [Path.plug_top] at hplug
    have hm0 : Models t path .nil := Models.unplug path .nil (hplug ▸ hd.models)
    have hdepth : path.depth ≤ t.node_arena.length := by
      have e1 := length_indices_plug path .nil
      rw [hplug, hd.length] at e1
      have e2 := path.depth_le_length
      simp only [Shape.indices_nil, List.length_nil, add_zero] at e1
      omega
    rcases path with _ | ⟨up, q, cq, qv, qr⟩ | ⟨up, q, cq, ql, qv⟩
    · simp at hhp
    · simp only [Path.hp_left, Option.some.injEq] at hhp
      subst hhp
      simp only [Path.side] at hside
      subst hside
      obtain ⟨t1', t2', e1, e2, hl, hm2⟩ := link_left p hm0
      rw [h2, Option.some.injEq] at e1
      subst e1
      simp only [if_true] at h3
      rw [h3, Option.some.injEq] at e2
      subst e2
      exact ⟨_, rfl, by simp, hm2, hl, hdepth⟩
    · simp only [Path.hp_right, Option.some.injEq] at hhp
      subst hhp
      simp only [Path.side] at hside
      subst hside
      obtain ⟨t1', t2', e1, e2, hl, hm2⟩ := link_right p hm0
      rw [h2, Option.some.injEq] at e1
      subst e1
      simp only [Bool.false_eq_true, if_false] at h3
      rw [h3, Option.some.injEq] at e2
      subst e2
      exact ⟨_, rfl, by simp, hm2, hl, hdepth⟩

/-- With fuel for half the depth of the new node and one call more, the fixup
`insert` starts returns, and its record has the form of `LogShape`. -/
theorem fixup_start_total {t t2 : RBTree T} {s : Shape T} {p : T} {n : Nat}
    (hd : Draws t s) (h : FixupStart t p t2 n) :
    ∃ d, Depth t2 n d ∧ d ≤ t.node_arena.length ∧
      ∀ fuel, d / 2 < fuel → ∃ t' log, fixup_tree t2 fuel n = some (t', log) ∧ LogShape d log := by
  obtain ⟨path, hdesc, hhp, hm, hl, hdep⟩ := fixup_start_models hd h
  obtain ⟨hplug, -⟩ := descendF_some p s _ _ hdesc
  simp only [Path.plug_top] at hplug
  obtain ⟨⟨-, hpb⟩, -, hpr, -, -⟩ := (rbValid_plug path .nil).mp (hplug ▸ hd.valid)
  obtain ⟨R, log, e, -⟩ := fixupF_valid path (.node n RBColor.RED .nil p .nil) rfl
    (by simp) (by simp) hpb hpr
  refine ⟨path.depth, hm.depth_node, hdep, fun fuel hf => ?_⟩
  obtain ⟨t', e', -, -⟩ := fixup_refines fuel t2 path n _ _ _ _ R log hm e (by omega)
  exact ⟨t', log, e', fixupF_log _ _ _ _ e⟩

end

end RB

/-! Part: Rotations without child, links, the record of the fixup, in-order insertion. -/

namespace RB
variable {T : Type}

/-- C13: on every tree and every node `x` of its arena, `rotate_left x` returns
the tree as it was when `x` has no right child, and `rotate_right x` returns
the tree as it was when `x` has no left child. -/
theorem rotate_without_child_unchanged (t : RBTree T) (x : Nat) (nd : RBNode T)
    (hx : t.get x = some nd) :
    (nd.child_r = none → rotate_left t x = some t) ∧
    (nd.child_l = none → rotate_right t x = some t) := by
  constructor
  · intro h
    simp [rotate_left, hx, h]
  · intro h
    simp [rotate_right, hx, h]

/-- Witness of C13: the leaf holding 10 in the tree holding 10, 20, 30. -/
theorem rotate_without_child_unchanged_witness :
    sample3.get 0 = some ⟨10, RBColor.RED, none, none, some 1⟩ ∧
      (rotate_left sample3 0 = some sample3) ∧ (rotate_right sample3 0 = some sample3) :=
  ⟨rfl,
    (rotate_without_child_unchanged sample3 0 ⟨10, RBColor.RED, none, none, some 1⟩ rfl).1 rfl,
    (rotate_without_child_unchanged sample3 0 ⟨10, RBColor.RED, none, none, some 1⟩ rfl).2 rfl⟩

theorem Draws.linked {t : RBTree T} {s : Shape T} (h : Models t .top s)
    (hc : ∀ i nd, t.get i = some nd → i ∈ s.indices) : Linked t := by
  have hnd : s.indices.Nodup := by simpa using h.nodup
  have hroot : t.root = s.ptr := h.root
  -- the node at an address, seen through the path that leads to it
  have focus : ∀ x nd, t.get x = some nd → ∃ (path : Path T) (l r : Shape T),
      Models t path (.node x nd.color l nd.payload r) ∧ nd.child_l = l.ptr ∧
        nd.child_r = r.ptr ∧ nd.parent = path.hp := by
    intro x nd hx
    obtain ⟨path, c, l, v, r, e⟩ := Shape.focus s .top (hc x nd hx)
    simp only [Path.plug_top] at e
    have hm := Models.unplug path _ (e ▸ h)
    have h1 := hm.below.1
    rw [hx, Option.some.injEq] at h1
    subst h1
    exact ⟨path, l, r, hm, rfl, rfl, rfl⟩
  refine ⟨?_, ?_, ?_, ?_⟩
  · intro r hr
    rw [hroot] at hr
    cases s with
    | nil => simp at hr
    | node i c l v r' =>
      simp only [Shape.ptr_node, Option.some.injEq] at hr
      subst hr
      exact ⟨_, h.below.1, rfl⟩
  · intro x nd c hx hcl
    obtain ⟨path, l, r, hm, e1, -, -⟩ := focus x nd hx
    rw [e1] at hcl
    cases l with
    | nil => simp at hcl
    | node i ci li vi ri =>
      simp only [Shape.ptr_node, Option.some.injEq] at hcl
      subst hcl
      exact ⟨_, hm.below.2.1.1, rfl⟩
  · intro x nd c hx hcr
    obtain ⟨path, l, r, hm, -, e2, -⟩ := focus x nd hx
    rw [e2] at hcr
    cases r with
    | nil => simp at hcr
    | node i ci li vi ri =>
      simp only [Shape.ptr_node, Option.some.injEq] at hcr
      subst hcr
      exact ⟨_, hm.below.2.2.1, rfl⟩
  · intro x nd hx hne
    obtain ⟨path, l, r, hm, -, -, e3⟩ := focus x nd hx
    have hnd' := hm.nodup
    rcases path with _ | ⟨up, p, cp, pv, pr⟩ | ⟨up, p, cp, pl, pv⟩
    · exact absurd hm.root hne
    · simp only [Path.indices_left, Shape.indices_node, List.nodup_append, List.nodup_cons,
        List.mem_append, List.mem_cons, List.disjoint_cons_right, not_or] at hnd'
      refine ⟨p, _, e3, hm.above.1, Or.inl ⟨rfl, ?_⟩⟩
      exact ptr_ne_of_not_mem (by tauto)
    · simp only [Path.indices_right, Shape.indices_node, List.nodup_append, List.nodup_cons,
        List.mem_append, List.mem_cons, List.disjoint_cons_right, not_or] at hnd'
      refine ⟨p, _, e3, hm.above.1, Or.inr ⟨?_, rfl⟩⟩
      exact ptr_ne_of_not_mem (by tauto)

section
variable [LinearOrder T]

theorem Draws.mem_of_get {t : RBTree T} {s : Shape T} (h : Draws t s) (i : Nat)
    (nd : RBNode T) (hg : t.get i = some nd) : i ∈ s.indices := by
  rw [h.covers.mem_iff, List.mem_range]
  exact get_lt hg

theorem not_stores_of_insert_true {t : RBTree T} {p : T} (h : Reachable t)
    (hi : (insert t p).map Prod.snd = some true) : ¬ Stores t p := by
  obtain ⟨s, hd⟩ := h.inv
  obtain ⟨t', s', b, log, e, -, -, ok, -⟩ := hd.insert_step p
  rw [insert_eq_some.mpr ⟨log, e⟩] at hi
  simp only [Option.map_some', Option.some.injEq] at hi
  subst hi
  intro hs
  have := ok.dup_iff.mpr ((hd.stores_iff p).mp hs)
  simp at this

theorem sample3_not_stores_25 : ¬ Stores sample3 25 :=
  not_stores_of_insert_true sample3_reachable (by decide)

/-- C18: in every reachable tree the root has no parent, every child link of a
node leads to a node whose parent link leads back, and every node other than
the root is the left or the right child of its parent, not both. -/
theorem links_consistent (t : RBTree T) (h : Reachable t) : Linked t := by
  obtain ⟨s, hd⟩ := h.inv
  exact Draws.linked hd.models hd.mem_of_get

/-- Witness of C18: the tree holding 1 to 6. -/
theorem links_consistent_witness : Reachable sample6 ∧ Linked sample6 :=
  ⟨sample6_reachable, links_consistent sample6 sample6_reachable⟩

/-- C15: on every reachable tree, `insert` returns, and every rotation its fixup
called was called on a node whose promoted child was present: no
`rotate_left` on a node without right child, no `rotate_right` on a node
without left child. -/
theorem fixup_rotations_have_child (t : RBTree T) (p : T) (h : Reachable t) :
    ∃ t' b log, insert_traced t p = some (t', b, log) ∧
      ∀ x, Event.rotate_left x false ∉ log ∧ Event.rotate_right x false ∉ log := by
  obtain ⟨s, hd⟩ := h.inv
  obtain ⟨t', s', b, log, e, -, hF, -⟩ := hd.insert_step p
  refine ⟨t', b, log, e, fun x => ?_⟩
  rcases insertF_log hF with rfl | ⟨path, R, -, -, hf⟩
  · simp
  · exact (fixupF_log _ _ _ _ hf).flags x

/-- Witness of C15: inserting 7 in the tree holding 1 to 6 rotates. -/
theorem fixup_rotations_have_child_witness :
    Reachable sample6 ∧ ∃ t' b log, insert_traced sample6 7 = some (t', b, log) ∧
      ∀ x, Event.rotate_left x false ∉ log ∧ Event.rotate_right x false ∉ log :=
  ⟨sample6_reachable, fixup_rotations_have_child sample6 7 sample6_reachable⟩

/-- C19: on every reachable tree, inserting a payload the tree does not store
returns `true`; the in-order traversal afterwards is the one before with the
payload put in between the smaller and the greater payloads; the nodes
reached from the root are one more than before, each once, and as many as
the arena is long. -/
theorem insert_extends_inorder (t : RBTree T) (p : T) (h : Reachable t)
    (hp : ¬ Stores t p) :
    ∃ t' l1 l2 ns ns', insert t p = some (t', true) ∧
      inorder t = some (l1 ++ l2) ∧ inorder t' = some (l1 ++ p :: l2) ∧
      (∀ x ∈ l1, x < p) ∧ (∀ x ∈ l2, p < x) ∧
      nodes t = some ns ∧ nodes t' = some ns' ∧ ns'.length = ns.length + 1 ∧
      ns'.length = t'.node_arena.length ∧ ns'.Nodup ∧
      ∀ i, i ∈ ns' ↔ Within t' t'.root i := by
  obtain ⟨s, hd⟩ := h.inv
  obtain ⟨t', s', b, log, e, hd', -, ok, -, hlen⟩ := hd.insert_step p
  have hb : b = true := by
    cases b with
    | true => rfl
    | false => exact absurd ((hd.stores_iff p).mpr (ok.dup_iff.mp rfl)) hp
  subst hb
  obtain ⟨l1, l2, e1, e2⟩ := ok.fresh_inorder rfl
  have hsorted := hd'.sorted
  rw [e2] at hsorted
  obtain ⟨-, hs2, hs3⟩ := List.pairwise_append.mp hsorted
  refine ⟨t', l1, l2, s.indices, s'.indices, insert_eq_some.mpr ⟨log, e⟩, ?_, ?_, ?_, ?_,
    hd.models.nodes_eq (le_of_eq hd.length), hd'.models.nodes_eq (le_of_eq hd'.length),
    ?_, hd'.length, by simpa using hd'.models.nodup, fun i => ?_⟩
  · rw [← e1]; exact hd.models.inorder_eq (le_of_eq hd.length)
  · rw [← e2]; exact hd'.models.inorder_eq (le_of_eq hd'.length)
  · exact fun x hx => hs3 x hx p (List.mem_cons_self _ _)
  · exact fun x hx => (List.pairwise_cons.mp hs2).1 x hx
  · rw [hd'.length, hd.length, hlen rfl]
  · constructor
    · intro hi
      have hr : t'.root = s'.ptr := hd'.models.root
      rw [hr]
      exact hd'.models.below.within i hi
    · intro hw
      exact Rep.of_within hw hd'.models.below hd'.models.root.symm

/-- Witness of C19: inserting 25 in the tree holding 10, 20, 30. -/
theorem insert_extends_inorder_witness :
    Reachable sample3 ∧ ¬ Stores sample3 25 ∧
    ∃ t' l1 l2 ns ns', insert sample3 25 = some (t', true) ∧
      inorder sample3 = some (l1 ++ l2) ∧ inorder t' = some (l1 ++ 25 :: l2) ∧
      (∀ x ∈ l1, x < 25) ∧ (∀ x ∈ l2, 25 < x) ∧
      nodes sample3 = some ns ∧ nodes t' = some ns' ∧ ns'.length = ns.length + 1 ∧
      ns'.length = t'.node_arena.length ∧ ns'.Nodup ∧
      ∀ i, i ∈ ns' ↔ Within t' t'.root i :=
  ⟨sample3_reachable, sample3_not_stores_25,
    insert_extends_inorder sample3 25 sample3_reachable sample3_not_stores_25⟩

end

end RB

/-! Part: The grandparent, the recursion bound, and the shape of a fixup. -/

namespace RB
variable {T : Type}

theorem filter_recurse_append (gs : List Nat) (rots : List Event)
    (h : ∀ e ∈ rots, e.is_recurse = false) :
    (List.map Event.recurse gs ++ rots).filter Event.is_recurse = List.map Event.recurse gs := by
  rw [List.filter_append]
  have h1 : (List.map Event.recurse gs).filter Event.is_recurse = List.map Event.recurse gs := by
    apply List.filter_eq_self.mpr
    intro e he
    obtain ⟨g, -, rfl⟩ := List.mem_map.mp he
    rfl
  have h2 : rots.filter Event.is_recurse = [] := by
    apply List.filter_eq_nil_iff.mpr
    intro e he
    simp [h e he]
  rw [h1, h2, List.append_nil]

theorem Event.rotates_not_recurse {e : Event} {x : Nat} (h : e.rotates x) :
    e.is_recurse = false := by
  obtain ⟨f, rfl | rfl⟩ := h <;> rfl

theorem Terminal.not_recurse {tk : RBTree T} {nk : Nat} {rots : List Event}
    (h : Terminal tk nk rots) : ∀ e ∈ rots, e.is_recurse = false := by
  rcases h with rfl | ⟨nd, p, pn, g, -, -, -, -, ⟨e, rfl, he⟩ | ⟨e1, e2, rfl, h1, h2⟩⟩
  · simp
  · simpa using Event.rotates_not_recurse he
  · simpa using ⟨Event.rotates_not_recurse h1, Event.rotates_not_recurse h2⟩

theorem Terminal.at_most_two {tk : RBTree T} {nk : Nat} {rots : List Event}
    (h : Terminal tk nk rots) : rots.length ≤ 2 := by
  rcases h with rfl | ⟨nd, p, pn, g, -, -, -, -, ⟨e, rfl, he⟩ | ⟨e1, e2, rfl, h1, h2⟩⟩ <;> simp

theorem LogShape.recursions {d : Nat} {gs : List Nat} {rots : List Event}
    (h : LogShape d (List.map Event.recurse gs ++ rots))
    (hr : ∀ e ∈ rots, e.is_recurse = false) : gs.length ≤ d / 2 := by
  obtain ⟨gs', rots', e, h1, -, h3⟩ := h
  have hr' : ∀ e ∈ rots', e.is_recurse = false := by
    intro e he
    obtain ⟨x, rfl | rfl⟩ := h3 e he <;> rfl
  have := congrArg (fun l => (l.filter Event.is_recurse).length) e
  simp only [filter_recurse_append _ _ hr, filter_recurse_append _ _ hr', List.length_map] at this
  omega

theorem sample3_start : FixupStart sample3 40 sample3_link40 3 :=
  ⟨2, false, _, by decide, rfl, rfl, rfl⟩

theorem sample3_depth : Depth sample3_link40 3 2 :=
  @Depth.step _ sample3_link40 3 2 1 ⟨40, RBColor.RED, none, none, some 2⟩ rfl rfl
    (@Depth.step _ sample3_link40 2 1 0 ⟨30, RBColor.RED, none, some 3, some 1⟩ rfl rfl
      (@Depth.root _ sample3_link40 1 ⟨20, RBColor.BLACK, some 0, some 2, none⟩ rfl rfl))

section
variable [LinearOrder T]

/-- C14: during an `insert` on a reachable tree, in every call of `fixup_tree`, the
first one and each recursive one, a RED parent of the node has a parent, and
that grandparent is a node of the arena: the read of the grandparent never
meets a null pointer. -/
theorem grandparent_present (t : RBTree T) (p : T) (h : Reachable t) (t2 : RBTree T) (n : Nat)
    (hs : FixupStart t p t2 n) (gs : List Nat) (tk : RBTree T) (nk : Nat)
    (hc : FixupCalls t2 n gs tk nk) (nd pn : RBNode T) (par : Nat)
    (h1 : tk.get nk = some nd) (h2 : nd.parent = some par) (h3 : tk.get par = some pn)
    (h4 : pn.color = RBColor.RED) : ∃ g gn, pn.parent = some g ∧ tk.get g = some gn := by
  obtain ⟨s, hd⟩ := h.inv
  obtain ⟨d, -, hdl, htot⟩ := fixup_start_total hd hs
  obtain ⟨path, -, -, -, hl, -⟩ := fixup_start_models hd hs
  obtain ⟨t', log, e, -⟩ := htot t2.node_arena.length (by
    have := Nat.div_le_self d 2
    omega)
  obtain ⟨f', r', e'⟩ := fixup_tree_calls hc _ _ e
  exact fixup_tree_grandparent e' h1 h2 h3 h4

/-- Witness of C14: the first call of the fixup when 40 is inserted in the tree
holding 10, 20, 30: the parent, 30, is RED and its parent is the node of 20. -/
theorem grandparent_present_witness :
    Reachable sample3 ∧ FixupStart sample3 40 sample3_link40 3 ∧
      FixupCalls sample3_link40 3 [] sample3_link40 3 ∧
      sample3_link40.get 3 = some ⟨40, RBColor.RED, none, none, some 2⟩ ∧
      sample3_link40.get 2 = some ⟨30, RBColor.RED, none, some 3, some 1⟩ ∧
      ∃ g gn, some 1 = some g ∧ sample3_link40.get g = some gn :=
  ⟨sample3_reachable, sample3_start, FixupCalls.done, rfl, rfl,
    grandparent_present sample3 40 sample3_reachable sample3_link40 3 sample3_start []
      sample3_link40 3 FixupCalls.done ⟨40, RBColor.RED, none, none, some 2⟩
      ⟨30, RBColor.RED, none, some 3, some 1⟩ 2 rfl rfl rfl rfl⟩

/-- C16: the fixup that `insert` starts on a reachable tree, on a new node `d`
parent links below the root, returns as soon as its fuel exceeds `d / 2`; the
recursive calls it makes are at most `d / 2`, so the calls are at most
`d / 2 + 1`; and each recursive call is on the grandparent, whose depth is
the depth of the current node less two. -/
theorem fixup_recursion_bounded (t : RBTree T) (p : T) (h : Reachable t) (t2 : RBTree T)
    (n d : Nat) (hs : FixupStart t p t2 n) (hdep : Depth t2 n d) :
    (∀ fuel, d / 2 < fuel → ∃ t' log gs tk nk rots,
      fixup_tree t2 fuel n = some (t', log) ∧ FixupCalls t2 n gs tk nk ∧
      log = List.map Event.recurse gs ++ rots ∧ (∀ e ∈ rots, e.is_recurse = false) ∧
      gs.length ≤ d / 2) ∧
    d / 2 < t2.node_arena.length ∧
    (∀ (ta tb : RBTree T) (na g k : Nat), FixupStep ta na tb g → Depth ta na k →
      ∃ k', k = k' + 2 ∧ Depth ta g k' ∧ Depth tb g k') := by
  obtain ⟨s, hd⟩ := h.inv
  obtain ⟨d', hd', hdl, htot⟩ := fixup_start_total hd hs
  have hdd : d = d' := hdep.unique hd'
  subst hdd
  obtain ⟨path, -, -, -, hl, -⟩ := fixup_start_models hd hs
  refine ⟨fun fuel hf => ?_, ?_, fun ta tb na g k hstep hk => hstep.depth_two hk⟩
  · obtain ⟨t', log, e, hshape⟩ := htot fuel hf
    obtain ⟨gs, tk, nk, rots, hc, rfl, hterm⟩ := fixup_tree_run fuel t2 t' n log e
    exact ⟨t', _, gs, tk, nk, rots, e, hc, rfl, hterm.not_recurse,
      hshape.recursions hterm.not_recurse⟩
  · have := Nat.div_le_self d 2
    omega

/-- Witness of C16: the new node for 40 under 30 in the tree holding 10, 20, 30
is two links below the root; the fixup makes one recursive call. -/
theorem fixup_recursion_bounded_witness :
    Reachable sample3 ∧ FixupStart sample3 40 sample3_link40 3 ∧ Depth sample3_link40 3 2 ∧
    ((∀ fuel, 2 / 2 < fuel → ∃ t' log gs tk nk rots,
      fixup_tree sample3_link40 fuel 3 = some (t', log) ∧
      FixupCalls sample3_link40 3 gs tk nk ∧
      log = List.map Event.recurse gs ++ rots ∧ (∀ e ∈ rots, e.is_recurse = false) ∧
      gs.length ≤ 2 / 2) ∧
    2 / 2 < sample3_link40.node_arena.length ∧
    (∀ (ta tb : RBTree Nat) (na g k : Nat), FixupStep ta na tb g → Depth ta na k →
      ∃ k', k = k' + 2 ∧ Depth ta g k' ∧ Depth tb g k')) :=
  ⟨sample3_reachable, sample3_start, sample3_depth,
    fixup_recursion_bounded sample3 40 sample3_reachable sample3_link40 3 2 sample3_start
      sample3_depth⟩

/-- C17: the fixup that `insert` starts on a reachable tree returns; it is a chain
of recoloring calls, which leave the root, every payload and every link as
they were, followed in the last call by at most two rotations, none or one on
the grandparent or one on the parent and then one on the grandparent; no
recursive call comes after a rotation. -/
theorem fixup_recolors_then_rotates (t : RBTree T) (p : T) (h : Reachable t) (t2 : RBTree T)
    (n : Nat) (hs : FixupStart t p t2 n) :
    ∃ t' log gs tk nk rots, fixup_tree t2 t2.node_arena.length n = some (t', log) ∧
      insert_traced t p = some (t', true, log) ∧
      FixupCalls t2 n gs tk nk ∧ SameLinks t2 tk ∧
      log = List.map Event.recurse gs ++ rots ∧ Terminal tk nk rots ∧ rots.length ≤ 2 := by
  obtain ⟨s, hd⟩ := h.inv
  obtain ⟨d, -, hdl, htot⟩ := fixup_start_total hd hs
  obtain ⟨path, -, -, -, hl, -⟩ := fixup_start_models hd hs
  obtain ⟨t', log, e, -⟩ := htot t2.node_arena.length (by
    have := Nat.div_le_self d 2
    omega)
  obtain ⟨gs, tk, nk, rots, hc, rfl, hterm⟩ := fixup_tree_run _ t2 t' n log e
  refine ⟨t', _, gs, tk, nk, rots, e, ?_, hc, hc.links_stay, rfl, hterm, hterm.at_most_two⟩
  rw [insert_traced_of_start hs, e]
  rfl

/-- Witness of C17: inserting 40 in the tree holding 10, 20, 30. -/
theorem fixup_recolors_then_rotates_witness :
    Reachable sample3 ∧ FixupStart sample3 40 sample3_link40 3 ∧
    ∃ t' log gs tk nk rots,
      fixup_tree sample3_link40 sample3_link40.node_arena.length 3 = some (t', log) ∧
      insert_traced sample3 40 = some (t', true, log) ∧
      FixupCalls sample3_link40 3 gs tk nk ∧ SameLinks sample3_link40 tk ∧
      log = List.map Event.recurse gs ++ rots ∧ Terminal tk nk rots ∧ rots.length ≤ 2 :=
  ⟨sample3_reachable, sample3_start,
    fixup_recolors_then_rotates sample3 40 sample3_reachable sample3_link40 3 sample3_start⟩

end

end RB

/-! Part: Ranks in a link-consistent tree. -/

namespace RB
variable {T : Type}

theorem Rank.get {t : RBTree T} (hl : Linked t) {x d : Nat} (h : Rank t x d) :
    ∃ nd, t.get x = some nd := by
  cases h with
  | root hr =>
    obtain ⟨nd, h1, -⟩ := hl.root_parent _ hr
    exact ⟨nd, h1⟩
  | left _ hg hc =>
    obtain ⟨cd, h1, -⟩ := hl.left_parent _ _ _ hg hc
    exact ⟨cd, h1⟩
  | right _ hg hc =>
    obtain ⟨cd, h1, -⟩ := hl.right_parent _ _ _ hg hc
    exact ⟨cd, h1⟩

theorem Rank.parent_zero {t : RBTree T} (hl : Linked t) {x : Nat} {nd : RBNode T}
    (h : Rank t x 0) (hg : t.get x = some nd) : nd.parent = none := by
  cases h with
  | root hr =>
    obtain ⟨nd', h1, h2⟩ := hl.root_parent _ hr
    rw [hg] at h1
    cases h1
    exact h2

theorem Rank.parent_succ {t : RBTree T} (hl : Linked t) {x d : Nat} {nd : RBNode T}
    (h : Rank t x (d + 1)) (hg : t.get x = some nd) :
    ∃ p pd, nd.parent = some p ∧ t.get p = some pd ∧ Rank t p d ∧
      (pd.child_l = some x ∨ pd.child_r = some x) := by
  cases h with
  | left hr hp hc =>
    obtain ⟨cd, h1, h2⟩ := hl.left_parent _ _ _ hp hc
    rw [hg] at h1
    cases h1
    exact ⟨_, _, h2, hp, hr, Or.inl hc⟩
  | right hr hp hc =>
    obtain ⟨cd, h1, h2⟩ := hl.right_parent _ _ _ hp hc
    rw [hg] at h1
    cases h1
    exact ⟨_, _, h2, hp, hr, Or.inr hc⟩

theorem Rank.level_unique {t : RBTree T} (hl : Linked t) : ∀ {d x d' : Nat},
    Rank t x d → Rank t x d' → d = d'
  | 0, x, 0, _, _ => rfl
  | 0, x, d' + 1, h, h' => by
    obtain ⟨nd, hg⟩ := h.get hl
    obtain ⟨p, pd, h1, -⟩ := h'.parent_succ hl hg
    rw [h.parent_zero hl hg] at h1
    cases h1
  | d + 1, x, 0, h, h' => by
    obtain ⟨nd, hg⟩ := h.get hl
    obtain ⟨p, pd, h1, -⟩ := h.parent_succ hl hg
    rw [h'.parent_zero hl hg] at h1
    cases h1
  | d + 1, x, d' + 1, h, h' => by
    obtain ⟨nd, hg⟩ := h.get hl
    obtain ⟨p, pd, h1, -, h2, -⟩ := h.parent_succ hl hg
    obtain ⟨p', pd', h1', -, h2', -⟩ := h'.parent_succ hl hg
    rw [h1] at h1'
    cases h1'
    rw [Rank.level_unique hl h2 h2']

theorem Rank.chain {t : RBTree T} (hl : Linked t) {x d : Nat} (h : Rank t x d) :
    ∃ l : List Nat, l.length = d + 1 ∧ l.Nodup ∧
      ∀ y ∈ l, y < t.node_arena.length ∧ ∃ k, k ≤ d ∧ Rank t y k := by
  induction h with
  | @root r hr =>
    obtain ⟨nd, h1, -⟩ := hl.root_parent _ hr
    exact ⟨[r], rfl, List.nodup_singleton r, fun y hy => by
      rw [List.mem_singleton] at hy
      subst hy
      exact ⟨get_lt h1, 0, le_refl 0, Rank.root hr⟩⟩
  | @left x c d nd hr hg hc ih =>
    obtain ⟨l, h1, h2, h3⟩ := ih
    have hrc : Rank t c (d + 1) := Rank.left hr hg hc
    obtain ⟨cd, hcd⟩ := hrc.get hl
    refine ⟨c :: l, by simp [h1], List.nodup_cons.mpr ⟨fun hm => ?_, h2⟩, fun y hy => ?_⟩
    · obtain ⟨-, k, hk, hrk⟩ := h3 c hm
      have := Rank.level_unique hl hrc hrk
      omega
    · rcases List.mem_cons.mp hy with rfl | hy
      · exact ⟨get_lt hcd, d + 1, le_refl _, hrc⟩
      · obtain ⟨h4, k, hk, hrk⟩ := h3 y hy
        exact ⟨h4, k, by omega, hrk⟩
  | @right x c d nd hr hg hc ih =>
    obtain ⟨l, h1, h2, h3⟩ := ih
    have hrc : Rank t c (d + 1) := Rank.right hr hg hc
    obtain ⟨cd, hcd⟩ := hrc.get hl
    refine ⟨c :: l, by simp [h1], List.nodup_cons.mpr ⟨fun hm => ?_, h2⟩, fun y hy => ?_⟩
    · obtain ⟨-, k, hk, hrk⟩ := h3 c hm
      have := Rank.level_unique hl hrc hrk
      omega
    · rcases List.mem_cons.mp hy with rfl | hy
      · exact ⟨get_lt hcd, d + 1, le_refl _, hrc⟩
      · obtain ⟨h4, k, hk, hrk⟩ := h3 y hy
        exact ⟨h4, k, by omega, hrk⟩

theorem Rank.bound {t : RBTree T} (hl : Linked t) {x d : Nat} (h : Rank t x d) :
    d < t.node_arena.length := by
  obtain ⟨l, h1, h2, h3⟩ := h.chain hl
  have hsub : ∀ i ∈ l, i ∈ List.range t.node_arena.length := fun i hi =>
    List.mem_range.mpr (h3 i hi).1
  have := (List.subperm_of_subset h2 hsub).length_le
  rw [List.length_range] at this
  omega

theorem up_succ_top (t : RBTree T) : ∀ (k x : Nat),
    up t (k + 1) x = (up t k x).bind fun y => (t.get y).bind fun nd => nd.parent
  | 0, x => by
    simp only [up, Option.some_bind]
    cases t.get x with
    | none => rfl
    | some nd =>
      simp only [Option.some_bind]
      cases nd.parent <;> rfl
  | k + 1, x => by
    rw [up, up]
    cases t.get x with
    | none => rfl
    | some nd =>
      simp only [Option.some_bind]
      cases nd.parent with
      | none => rfl
      | some p =>
        simp only [Option.some_bind]
        exact up_succ_top t k p

end RB

/-! Part: A link-consistent tree draws a shape. -/

namespace RB
variable {T : Type}

theorem Linked.not_both {t : RBTree T} (hl : Linked t) {c d cl : Nat} {cd : RBNode T}
    (hr : Rank t c d) (hg : t.get c = some cd) (h1 : cd.child_l = some cl)
    (h2 : cd.child_r = some cl) : False := by
  obtain ⟨cld, hcl, hpar⟩ := hl.left_parent _ _ _ hg h1
  have hrk : Rank t cl (d + 1) := Rank.left hr hg h1
  have hroot : t.root ≠ some cl := by
    intro e
    have := Rank.level_unique hl hrk (Rank.root e)
    omega
  obtain ⟨p, pd, e1, e2, e3⟩ := hl.child_of_parent _ _ hcl hroot
  rw [hpar] at e1
  cases e1
  rw [hg] at e2
  cases e2
  rcases e3 with ⟨-, e⟩ | ⟨e, -⟩
  · exact e h2
  · exact e h1

theorem Linked.shape_at {t : RBTree T} (hl : Linked t) : ∀ (n c d : Nat) (cd : RBNode T),
    Rank t c d → t.get c = some cd → t.node_arena.length ≤ d + n →
    ∃ S : Shape T, S.ptr = some c ∧ Rep t cd.parent S ∧ S.indices.Nodup ∧ Under t c d S
  | 0, c, d, cd, hr, _, hn => by
    have := hr.bound hl
    omega
  | n + 1, c, d, cd, hr, hg, hn => by
    have child : ∀ q : Option Nat, (∀ x, q = some x → Rank t x (d + 1) ∧
        ∃ xd, t.get x = some xd ∧ xd.parent = some c) →
        ∃ S : Shape T, S.ptr = q ∧ Rep t (some c) S ∧ S.indices.Nodup ∧
          ∀ j ∈ S.indices, ∃ k x, q = some x ∧ up t k j = some x ∧ Rank t j (d + 1 + k) := by
      intro q hq
      cases q with
      | none => exact ⟨.nil, rfl, trivial, List.nodup_nil, fun j hj => by simp at hj⟩
      | some x =>
        obtain ⟨hrx, xd, hx, hp⟩ := hq x rfl
        obtain ⟨S, h1, h2, h3, h4⟩ := Linked.shape_at hl n x (d + 1) xd hrx hx (by omega)
        rw [hp] at h2
        refine ⟨S, h1, h2, h3, fun j hj => ?_⟩
        obtain ⟨k, e1, e2⟩ := h4 j hj
        exact ⟨k, x, rfl, e1, e2⟩
    obtain ⟨Sl, l1, l2, l3, l4⟩ := child cd.child_l fun x hx => by
      obtain ⟨xd, h1, h2⟩ := hl.left_parent _ _ _ hg hx
      exact ⟨Rank.left hr hg hx, xd, h1, h2⟩
    obtain ⟨Sr, r1, r2, r3, r4⟩ := child cd.child_r fun x hx => by
      obtain ⟨xd, h1, h2⟩ := hl.right_parent _ _ _ hg hx
      exact ⟨Rank.right hr hg hx, xd, h1, h2⟩
    refine ⟨.node c cd.color Sl cd.payload Sr, rfl, ⟨?_, l2, r2⟩, ?_, ?_⟩
    · rw [hg, l1, r1]
    · simp only [Shape.indices_node, List.nodup_cons, List.mem_append, List.nodup_append]
      refine ⟨?_, l3, r3, ?_⟩
      · rintro (hm | hm)
        · obtain ⟨k, x, -, -, e⟩ := l4 c hm
          have := Rank.level_unique hl hr e
          omega
        · obtain ⟨k, x, -, -, e⟩ := r4 c hm
          have := Rank.level_unique hl hr e
          omega
      · intro j hjl hjr
        obtain ⟨k, x, e1, e2, e3⟩ := l4 j hjl
        obtain ⟨k', x', e1', e2', e3'⟩ := r4 j hjr
        have hk : d + 1 + k = d + 1 + k' := Rank.level_unique hl e3 e3'
        have hk' : k = k' := by omega
        subst hk'
        rw [e2] at e2'
        cases e2'
        exact hl.not_both hr hg e1 e1'
    · intro j hj
      simp only [Shape.indices_node, List.mem_cons, List.mem_append] at hj
      have step : ∀ k x xd, t.get x = some xd → xd.parent = some c → up t k j = some x →
          Rank t j (d + 1 + k) → ∃ k', up t k' j = some c ∧ Rank t j (d + k') := by
        intro k x xd hx hp hu hrk
        refine ⟨k + 1, ?_, ?_⟩
        · rw [up_succ_top, hu]
          simp [hx, hp]
        · have e : d + 1 + k = d + (k + 1) := by omega
          rw [← e]
          exact hrk
      rcases hj with rfl | hj | hj
      · exact ⟨0, rfl, hr⟩
      · obtain ⟨k, x, e1, e2, e3⟩ := l4 j hj
        obtain ⟨xd, h1, h2⟩ := hl.left_parent _ _ _ hg e1
        exact step k x xd h1 h2 e2 e3
      · obtain ⟨k, x, e1, e2, e3⟩ := r4 j hj
        obtain ⟨xd, h1, h2⟩ := hl.right_parent _ _ _ hg e1
        exact step k x xd h1 h2 e2 e3

theorem Linked.models {t : RBTree T} (hl : Linked t) : ∃ S : Shape T, Models t .top S := by
  cases hroot : t.root with
  | none => exact ⟨.nil, ⟨hroot, trivial, trivial, List.nodup_nil⟩⟩
  | some r =>
    obtain ⟨nd, h1, h2⟩ := hl.root_parent r hroot
    obtain ⟨S, s1, s2, s3, -⟩ :=
      hl.shape_at t.node_arena.length r 0 nd (Rank.root hroot) h1 (by omega)
    rw [h2] at s2
    exact ⟨S, ⟨by rw [hroot]; exact s1.symm, trivial, s2, by simpa using s3⟩⟩

/-- A node of a link-consistent tree, seen through the path that leads to it. -/
theorem Linked.node_path {t : RBTree T} (hl : Linked t) {x : Nat} (hx : Within t t.root x) :
    ∃ (path : Path T) (c : RBColor) (l : Shape T) (v : T) (r : Shape T),
      Models t path (.node x c l v r) := by
  obtain ⟨S, hS⟩ := hl.models
  have hm : x ∈ S.indices := Rep.of_within hx hS.below hS.root.symm
  obtain ⟨path, c, l, v, r, e⟩ := Shape.focus S .top hm
  refine ⟨path, c, l, v, r, Models.unplug path _ ?_⟩
  rw [← e]
  exact hS

end RB

/-! Part: What a rotation writes. -/

namespace RB
variable {T : Type}

theorem Rank.of_reached {t : RBTree T} {q : Option Nat} {x : Nat} (hw : Within t q x) :
    ∀ i d, q = some i → Rank t i d → ∃ d', Rank t x d' := by
  induction hw with
  | here hg =>
    intro i d e hr
    cases e
    exact ⟨d, hr⟩
  | @left a b nd hg hw ih =>
    intro i d e hr
    cases e
    cases hcl : nd.child_l with
    | none => rw [hcl] at hw; cases hw
    | some cl => exact ih cl (d + 1) hcl (Rank.left hr hg hcl)
  | @right a b nd hg hw ih =>
    intro i d e hr
    cases e
    cases hcr : nd.child_r with
    | none => rw [hcr] at hw; cases hw
    | some cr => exact ih cr (d + 1) hcr (Rank.right hr hg hcr)

theorem Rank.of_root {t : RBTree T} {x : Nat} (hw : Within t t.root x) : ∃ d, Rank t x d := by
  cases hr : t.root with
  | none => rw [hr] at hw; cases hw
  | some r => exact Rank.of_reached hw r 0 hr (Rank.root hr)

set_option maxHeartbeats 4000000 in
theorem rotate_left_effect {t : RBTree T} {x c : Nat} {nd cd : RBNode T}
    (hx : t.get x = some nd) (hc : nd.child_r = some c) (hcd : t.get c = some cd)
    (hxc : x ≠ c)
    (hb : ∀ b, cd.child_l = some b → b ≠ x ∧ b ≠ c ∧ ∃ bd, t.get b = some bd)
    (hp : ∀ p, nd.parent = some p → p ≠ x ∧ p ≠ c ∧ cd.child_l ≠ some p ∧
      ∃ pd, t.get p = some pd ∧
        ((pd.child_l = some x ∧ pd.child_r ≠ some x) ∨
          (pd.child_l ≠ some x ∧ pd.child_r = some x))) :
    ∃ t', rotate_left t x = some t' ∧ LeftRotated t x t' := by
  have hcx : c ≠ x := fun e => hxc e.symm
  cases hB : cd.child_l with
  | none =>
    cases hP : nd.parent with
    | none =>
      refine ⟨_, by
        simp [rotate_left, RBTree.set_child_r, RBTree.set_parent, RBTree.set_child_l, get_put,
          hx, hc, hcd, hxc, hcx, hB, hP]
        rfl, ?_⟩
      refine ⟨nd, c, cd, hx, hc, hcd, ?_, ?_, ?_, ?_, ?_, ?_, ?_⟩
      · simp [get_put, hx, hc, hcd, hxc, hcx, hB, hP]
      · simp [get_put, hx, hc, hcd, hxc, hcx, hB, hP]
      · simp [get_put, hx, hc, hcd, hxc, hcx, hB, hP]
      · simp [get_put, hx, hc, hcd, hxc, hcx, hB, hP]
      · simp [get_put, hx, hc, hcd, hxc, hcx, hB, hP]
      · intro j h1 h2 h3 h4
        simp [get_put, h1, h2]
      · simp
    | some p =>
      obtain ⟨hpx, hpc, hpb, pd, hpd, hslot⟩ := hp p hP
      have hxp : x ≠ p := fun e => hpx e.symm
      have hcp : c ≠ p := fun e => hpc e.symm
      rcases hslot with ⟨hsl, hsr⟩ | ⟨hsl, hsr⟩
      ·
        refine ⟨_, by
          simp [rotate_left, RBTree.set_child_r, RBTree.set_parent, RBTree.set_child_l, get_put,
            hx, hc, hcd, hxc, hcx, hB, hP, hpx, hpc, hxp, hcp, hpd, hsl, hsr]
          rfl, ?_⟩
        refine ⟨nd, c, cd, hx, hc, hcd, ?_, ?_, ?_, ?_, ?_, ?_, ?_⟩
        · simp [get_put, hx, hc, hcd, hxc, hcx, hB, hP, hpx, hpc, hxp, hcp, hpd, hsl, hsr]
        · simp [get_put, hx, hc, hcd, hxc, hcx, hB, hP, hpx, hpc, hxp, hcp, hpd, hsl, hsr]
        · simp [get_put, hx, hc, hcd, hxc, hcx, hB, hP, hpx, hpc, hxp, hcp, hpd, hsl, hsr]
        · simp [get_put, hx, hc, hcd, hxc, hcx, hB, hP, hpx, hpc, hxp, hcp, hpd, hsl, hsr]
        · simp [get_put, hx, hc, hcd, hxc, hcx, hB, hP, hpx, hpc, hxp, hcp, hpd, hsl, hsr]
        · intro j h1 h2 h3 h4
          have hjp : j ≠ p := fun e => h4 (by rw [hP, e])
          simp [get_put, h1, h2, hjp]
        · simp
      ·
        refine ⟨_, by
          simp [rotate_left, RBTree.set_child_r, RBTree.set_parent, RBTree.set_child_l, get_put,
            hx, hc, hcd, hxc, hcx, hB, hP, hpx, hpc, hxp, hcp, hpd, hsl, hsr]
          rfl, ?_⟩
        refine ⟨nd, c, cd, hx, hc, hcd, ?_, ?_, ?_, ?_, ?_, ?_, ?_⟩
        · simp [get_put, hx, hc, hcd, hxc, hcx, hB, hP, hpx, hpc, hxp, hcp, hpd, hsl, hsr]
        · simp [get_put, hx, hc, hcd, hxc, hcx, hB, hP, hpx, hpc, hxp, hcp, hpd, hsl, hsr]
        · simp [get_put, hx, hc, hcd, hxc, hcx, hB, hP, hpx, hpc, hxp, hcp, hpd, hsl, hsr]
        · simp [get_put, hx, hc, hcd, hxc, hcx, hB, hP, hpx, hpc, hxp, hcp, hpd, hsl, hsr]
        · simp [get_put, hx, hc, hcd, hxc, hcx, hB, hP, hpx, hpc, hxp, hcp, hpd, hsl, hsr]
        · intro j h1 h2 h3 h4
          have hjp : j ≠ p := fun e => h4 (by rw [hP, e])
          simp [get_put, h1, h2, hjp]
        · simp
  | some b =>
    obtain ⟨hbx, hbc, bd, hbd⟩ := hb b hB
    have hxb : x ≠ b := fun e => hbx e.symm
    have hcb : c ≠ b := fun e => hbc e.symm
    cases hP : nd.parent with
    | none =>
      refine ⟨_, by
        simp [rotate_left, RBTree.set_child_r, RBTree.set_parent, RBTree.set_child_l, get_put,
          hx, hc, hcd, hxc, hcx, hB, hP, hbx, hbc, hxb, hcb, hbd]
        rfl, ?_⟩
      refine ⟨nd, c, cd, hx, hc, hcd, ?_, ?_, ?_, ?_, ?_, ?_, ?_⟩
      · simp [get_put, hx, hc, hcd, hxc, hcx, hB, hP, hbx, hbc, hxb, hcb, hbd]
      · simp [get_put, hx, hc, hcd, hxc, hcx, hB, hP, hbx, hbc, hxb, hcb, hbd]
      · simp [get_put, hx, hc, hcd, hxc, hcx, hB, hP, hbx, hbc, hxb, hcb, hbd]
      · simp [get_put, hx, hc, hcd, hxc, hcx, hB, hP, hbx, hbc, hxb, hcb, hbd]
      · simp [get_put, hx, hc, hcd, hxc, hcx, hB, hP, hbx, hbc, hxb, hcb, hbd]
      · intro j h1 h2 h3 h4
        have hjb : j ≠ b := fun e => h3 (by rw [hB, e])
        simp [get_put, h1, h2, hjb]
      · simp
    | some p =>
      obtain ⟨hpx, hpc, hpb, pd, hpd, hslot⟩ := hp p hP
      have hxp : x ≠ p := fun e => hpx e.symm
      have hcp : c ≠ p := fun e => hpc e.symm
      have hbp : b ≠ p := fun e => hpb (by rw [hB, e])
      have hpb2 : p ≠ b := fun e => hbp e.symm
      rcases hslot with ⟨hsl, hsr⟩ | ⟨hsl, hsr⟩
      ·
        refine ⟨_, by
          simp [rotate_left, RBTree.set_child_r, RBTree.set_parent, RBTree.set_child_l, get_put,
            hx, hc, hcd, hxc, hcx, hB, hP, hbx, hbc, hxb, hcb, hbd, hpx, hpc, hxp, hcp, hpd, hbp, hpb2, hsl, hsr]
          rfl, ?_⟩
        refine ⟨nd, c, cd, hx, hc, hcd, ?_, ?_, ?_, ?_, ?_, ?_, ?_⟩
        · simp [get_put, hx, hc, hcd, hxc, hcx, hB, hP, hbx, hbc, hxb, hcb, hbd, hpx, hpc, hxp, hcp, hpd, hbp, hpb2, hsl, hsr]
        · simp [get_put, hx, hc, hcd, hxc, hcx, hB, hP, hbx, hbc, hxb, hcb, hbd, hpx, hpc, hxp, hcp, hpd, hbp, hpb2, hsl, hsr]
        · simp [get_put, hx, hc, hcd, hxc, hcx, hB, hP, hbx, hbc, hxb, hcb, hbd, hpx, hpc, hxp, hcp, hpd, hbp, hpb2, hsl, hsr]
        · simp [get_put, hx, hc, hcd, hxc, hcx, hB, hP, hbx, hbc, hxb, hcb, hbd, hpx, hpc, hxp, hcp, hpd, hbp, hpb2, hsl, hsr]
        · simp [get_put, hx, hc, hcd, hxc, hcx, hB, hP, hbx, hbc, hxb, hcb, hbd, hpx, hpc, hxp, hcp, hpd, hbp, hpb2, hsl, hsr]
        · intro j h1 h2 h3 h4
          have hjb : j ≠ b := fun e => h3 (by rw [hB, e])
          have hjp : j ≠ p := fun e => h4 (by rw [hP, e])
          simp [get_put, h1, h2, hjb, hjp]
        · simp
      ·
        refine ⟨_, by
          simp [rotate_left, RBTree.set_child_r, RBTree.set_parent, RBTree.set_child_l, get_put,
            hx, hc, hcd, hxc, hcx, hB, hP, hbx, hbc, hxb, hcb, hbd, hpx, hpc, hxp, hcp, hpd, hbp, hpb2, hsl, hsr]
          rfl, ?_⟩
        refine ⟨nd, c, cd, hx, hc, hcd, ?_, ?_, ?_, ?_, ?_, ?_, ?_⟩
        · simp [get_put, hx, hc, hcd, hxc, hcx, hB, hP, hbx, hbc, hxb, hcb, hbd, hpx, hpc, hxp, hcp, hpd, hbp, hpb2, hsl, hsr]
        · simp [get_put, hx, hc, hcd, hxc, hcx, hB, hP, hbx, hbc, hxb, hcb, hbd, hpx, hpc, hxp, hcp, hpd, hbp, hpb2, hsl, hsr]
        · simp [get_put, hx, hc, hcd, hxc, hcx, hB, hP, hbx, hbc, hxb, hcb, hbd, hpx, hpc, hxp, hcp, hpd, hbp, hpb2, hsl, hsr]
        · simp [get_put, hx, hc, hcd, hxc, hcx, hB, hP, hbx, hbc, hxb, hcb, hbd, hpx, hpc, hxp, hcp, hpd, hbp, hpb2, hsl, hsr]
        · simp [get_put, hx, hc, hcd, hxc, hcx, hB, hP, hbx, hbc, hxb, hcb, hbd, hpx, hpc, hxp, hcp, hpd, hbp, hpb2, hsl, hsr]
        · intro j h1 h2 h3 h4
          have hjb : j ≠ b := fun e => h3 (by rw [hB, e])
          have hjp : j ≠ p := fun e => h4 (by rw [hP, e])
          simp [get_put, h1, h2, hjb, hjp]
        · simp

set_option maxHeartbeats 4000000 in
theorem rotate_right_effect {t : RBTree T} {x c : Nat} {nd cd : RBNode T}
    (hx : t.get x = some nd) (hc : nd.child_l = some c) (hcd : t.get c = some cd)
    (hxc : x ≠ c)
    (hb : ∀ b, cd.child_r = some b → b ≠ x ∧ b ≠ c ∧ ∃ bd, t.get b = some bd)
    (hp : ∀ p, nd.parent = some p → p ≠ x ∧ p ≠ c ∧ cd.child_r ≠ some p ∧
      ∃ pd, t.get p = some pd ∧
        ((pd.child_l = some x ∧ pd.child_r ≠ some x) ∨
          (pd.child_l ≠ some x ∧ pd.child_r = some x))) :
    ∃ t', rotate_right t x = some t' ∧ RightRotated t x t' := by
  have hcx : c ≠ x := fun e => hxc e.symm
  cases hB : cd.child_r with
  | none =>
    cases hP : nd.parent with
    | none =>
      refine ⟨_, by
        simp [rotate_right, RBTree.set_child_r, RBTree.set_parent, RBTree.set_child_l, get_put,
          hx, hc, hcd, hxc, hcx, hB, hP]
        rfl, ?_⟩
      refine ⟨nd, c, cd, hx, hc, hcd, ?_, ?_, ?_, ?_, ?_, ?_, ?_⟩
      · simp [get_put, hx, hc, hcd, hxc, hcx, hB, hP]
      · simp [get_put, hx, hc, hcd, hxc, hcx, hB, hP]
      · simp [get_put, hx, hc, hcd, hxc, hcx, hB, hP]
      · simp [get_put, hx, hc, hcd, hxc, hcx, hB, hP]
      · simp [get_put, hx, hc, hcd, hxc, hcx, hB, hP]
      · intro j h1 h2 h3 h4
        simp [get_put, h1, h2]
      · simp
    | some p =>
      obtain ⟨hpx, hpc, hpb, pd, hpd, hslot⟩ := hp p hP
      have hxp : x ≠ p := fun e => hpx e.symm
      have hcp : c ≠ p := fun e => hpc e.symm
      rcases hslot with ⟨hsl, hsr⟩ | ⟨hsl, hsr⟩
      ·
        refine ⟨_, by
          simp [rotate_right, RBTree.set_child_r, RBTree.set_parent, RBTree.set_child_l, get_put,
            hx, hc, hcd, hxc, hcx, hB, hP, hpx, hpc, hxp, hcp, hpd, hsl, hsr]
          rfl, ?_⟩
        refine ⟨nd, c, cd, hx, hc, hcd, ?_, ?_, ?_, ?_, ?_, ?_, ?_⟩
        · simp [get_put, hx, hc, hcd, hxc, hcx, hB, hP, hpx, hpc, hxp, hcp, hpd, hsl, hsr]
        · simp [get_put, hx, hc, hcd, hxc, hcx, hB, hP, hpx, hpc, hxp, hcp, hpd, hsl, hsr]
        · simp [get_put, hx, hc, hcd, hxc, hcx, hB, hP, hpx, hpc, hxp, hcp, hpd, hsl, hsr]
        · simp [get_put, hx, hc, hcd, hxc, hcx, hB, hP, hpx, hpc, hxp, hcp, hpd, hsl, hsr]
        · simp [get_put, hx, hc, hcd, hxc, hcx, hB, hP, hpx, hpc, hxp, hcp, hpd, hsl, hsr]
        · intro j h1 h2 h3 h4
          have hjp : j ≠ p := fun e => h4 (by rw [hP, e])
          simp [get_put, h1, h2, hjp]
        · simp
      ·
        refine ⟨_, by
          simp [rotate_right, RBTree.set_child_r, RBTree.set_parent, RBTree.set_child_l, get_put,
            hx, hc, hcd, hxc, hcx, hB, hP, hpx, hpc, hxp, hcp, hpd, hsl, hsr]
          rfl, ?_⟩
        refine ⟨nd, c, cd, hx, hc, hcd, ?_, ?_, ?_, ?_, ?_, ?_, ?_⟩
        · simp [get_put, hx, hc, hcd, hxc, hcx, hB, hP, hpx, hpc, hxp, hcp, hpd, hsl, hsr]
        · simp [get_put, hx, hc, hcd, hxc, hcx, hB, hP, hpx, hpc, hxp, hcp, hpd, hsl, hsr]
        · simp [get_put, hx, hc, hcd, hxc, hcx, hB, hP, hpx, hpc, hxp, hcp, hpd, hsl, hsr]
        · simp [get_put, hx, hc, hcd, hxc, hcx, hB, hP, hpx, hpc, hxp, hcp, hpd, hsl, hsr]
        · simp [get_put, hx, hc, hcd, hxc, hcx, hB, hP, hpx, hpc, hxp, hcp, hpd, hsl, hsr]
        · intro j h1 h2 h3 h4
          have hjp : j ≠ p := fun e => h4 (by rw [hP, e])
          simp [get_put, h1, h2, hjp]
        · simp
  | some b =>
    obtain ⟨hbx, hbc, bd, hbd⟩ := hb b hB
    have hxb : x ≠ b := fun e => hbx e.symm
    have hcb : c ≠ b := fun e => hbc e.symm
    cases hP : nd.parent with
    | none =>
      refine ⟨_, by
        simp [rotate_right, RBTree.set_child_r, RBTree.set_parent, RBTree.set_child_l, get_put,
          hx, hc, hcd, hxc, hcx, hB, hP, hbx, hbc, hxb, hcb, hbd]
        rfl, ?_⟩
      refine ⟨nd, c, cd, hx, hc, hcd, ?_, ?_, ?_, ?_, ?_, ?_, ?_⟩
      · simp [get_put, hx, hc, hcd, hxc, hcx, hB, hP, hbx, hbc, hxb, hcb, hbd]
      · simp [get_put, hx, hc, hcd, hxc, hcx, hB, hP, hbx, hbc, hxb, hcb, hbd]
      · simp [get_put, hx, hc, hcd, hxc, hcx, hB, hP, hbx, hbc, hxb, hcb, hbd]
      · simp [get_put, hx, hc, hcd, hxc, hcx, hB, hP, hbx, hbc, hxb, hcb, hbd]
      · simp [get_put, hx, hc, hcd, hxc, hcx, hB, hP, hbx, hbc, hxb, hcb, hbd]
      · intro j h1 h2 h3 h4
        have hjb : j ≠ b := fun e => h3 (by rw [hB, e])
        simp [get_put, h1, h2, hjb]
      · simp
    | some p =>
      obtain ⟨hpx, hpc, hpb, pd, hpd, hslot⟩ := hp p hP
      have hxp : x ≠ p := fun e => hpx e.symm
      have hcp : c ≠ p := fun e => hpc e.symm
      have hbp : b ≠ p := fun e => hpb (by rw [hB, e])
      have hpb2 : p ≠ b := fun e => hbp e.symm
      rcases hslot with ⟨hsl, hsr⟩ | ⟨hsl, hsr⟩
      ·
        refine ⟨_, by
          simp [rotate_right, RBTree.set_child_r, RBTree.set_parent, RBTree.set_child_l, get_put,
            hx, hc, hcd, hxc, hcx, hB, hP, hbx, hbc, hxb, hcb, hbd, hpx, hpc, hxp, hcp, hpd, hbp, hpb2, hsl, hsr]
          rfl, ?_⟩
        refine ⟨nd, c, cd, hx, hc, hcd, ?_, ?_, ?_, ?_, ?_, ?_, ?_⟩
        · simp [get_put, hx, hc, hcd, hxc, hcx, hB, hP, hbx, hbc, hxb, hcb, hbd, hpx, hpc, hxp, hcp, hpd, hbp, hpb2, hsl, hsr]
        · simp [get_put, hx, hc, hcd, hxc, hcx, hB, hP, hbx, hbc, hxb, hcb, hbd, hpx, hpc, hxp, hcp, hpd, hbp, hpb2, hsl, hsr]
        · simp [get_put, hx, hc, hcd, hxc, hcx, hB, hP, hbx, hbc, hxb, hcb, hbd, hpx, hpc, hxp, hcp, hpd, hbp, hpb2, hsl, hsr]
        · simp [get_put, hx, hc, hcd, hxc, hcx, hB, hP, hbx, hbc, hxb, hcb, hbd, hpx, hpc, hxp, hcp, hpd, hbp, hpb2, hsl, hsr]
        · simp [get_put, hx, hc, hcd, hxc, hcx, hB, hP, hbx, hbc, hxb, hcb, hbd, hpx, hpc, hxp, hcp, hpd, hbp, hpb2, hsl, hsr]
        · intro j h1 h2 h3 h4
          have hjb : j ≠ b := fun e => h3 (by rw [hB, e])
          have hjp : j ≠ p := fun e => h4 (by rw [hP, e])
          simp [get_put, h1, h2, hjb, hjp]
        · simp
      ·
        refine ⟨_, by
          simp [rotate_right, RBTree.set_child_r, RBTree.set_parent, RBTree.set_child_l, get_put,
            hx, hc, hcd, hxc, hcx, hB, hP, hbx, hbc, hxb, hcb, hbd, hpx, hpc, hxp, hcp, hpd, hbp, hpb2, hsl, hsr]
          rfl, ?_⟩
        refine ⟨nd, c, cd, hx, hc, hcd, ?_, ?_, ?_, ?_, ?_, ?_, ?_⟩
        · simp [get_put, hx, hc, hcd, hxc, hcx, hB, hP, hbx, hbc, hxb, hcb, hbd, hpx, hpc, hxp, hcp, hpd, hbp, hpb2, hsl, hsr]
        · simp [get_put, hx, hc, hcd, hxc, hcx, hB, hP, hbx, hbc, hxb, hcb, hbd, hpx, hpc, hxp, hcp, hpd, hbp, hpb2, hsl, hsr]
        · simp [get_put, hx, hc, hcd, hxc, hcx, hB, hP, hbx, hbc, hxb, hcb, hbd, hpx, hpc, hxp, hcp, hpd, hbp, hpb2, hsl, hsr]
        · simp [get_put, hx, hc, hcd, hxc, hcx, hB, hP, hbx, hbc, hxb, hcb, hbd, hpx, hpc, hxp, hcp, hpd, hbp, hpb2, hsl, hsr]
        · simp [get_put, hx, hc, hcd, hxc, hcx, hB, hP, hbx, hbc, hxb, hcb, hbd, hpx, hpc, hxp, hcp, hpd, hbp, hpb2, hsl, hsr]
        · intro j h1 h2 h3 h4
          have hjb : j ≠ b := fun e => h3 (by rw [hB, e])
          have hjp : j ≠ p := fun e => h4 (by rw [hP, e])
          simp [get_put, h1, h2, hjb, hjp]
        · simp


end RB

/-! Part: Rotations keep the in-order traversal. -/

namespace RB
variable {T : Type}

theorem Models.inorder_path {t : RBTree T} {path : Path T} {s : Shape T} (h : Models t path s) :
    inorder t = some (path.before ++ s.inorder ++ path.after) := by
  have hp := Models.plug path s h
  have hl := hp.length_le
  simp only [Path.indices_top, List.nil_append] at hl
  rw [hp.inorder_eq hl, inorder_plug]

theorem LeftRotated.same_data {t t' : RBTree T} {x : Nat} (h : LeftRotated t x t') :
    SameData t t' := by
  obtain ⟨nd, c, cd, hx, hc, hcd, ex, ec, eb, -, ep, frame, -⟩ := h
  intro j ndj hj
  by_cases h1 : j = x
  · subst h1
    rw [hx] at hj
    cases hj
    exact ⟨_, ex, rfl, rfl⟩
  by_cases h2 : j = c
  · subst h2
    rw [hcd] at hj
    cases hj
    exact ⟨_, ec, rfl, rfl⟩
  by_cases h3 : cd.child_l = some j
  · obtain ⟨bd, e1, e2⟩ := eb j h3
    rw [hj] at e1
    cases e1
    exact ⟨_, e2, rfl, rfl⟩
  by_cases h4 : nd.parent = some j
  · obtain ⟨-, pd, e1, e2⟩ := ep j h4
    rw [hj] at e1
    cases e1
    rcases e2 with ⟨-, e2⟩ | ⟨-, e2⟩
    · exact ⟨_, e2, rfl, rfl⟩
    · exact ⟨_, e2, rfl, rfl⟩
  exact ⟨ndj, by rw [frame j h1 h2 h3 h4, hj], rfl, rfl⟩

theorem RightRotated.same_data_mirror {t t' : RBTree T} {x : Nat} (h : RightRotated t x t') :
    SameData t t' := by
  obtain ⟨nd, c, cd, hx, hc, hcd, ex, ec, eb, -, ep, frame, -⟩ := h
  intro j ndj hj
  by_cases h1 : j = x
  · subst h1
    rw [hx] at hj
    cases hj
    exact ⟨_, ex, rfl, rfl⟩
  by_cases h2 : j = c
  · subst h2
    rw [hcd] at hj
    cases hj
    exact ⟨_, ec, rfl, rfl⟩
  by_cases h3 : cd.child_r = some j
  · obtain ⟨bd, e1, e2⟩ := eb j h3
    rw [hj] at e1
    cases e1
    exact ⟨_, e2, rfl, rfl⟩
  by_cases h4 : nd.parent = some j
  · obtain ⟨-, pd, e1, e2⟩ := ep j h4
    rw [hj] at e1
    cases e1
    rcases e2 with ⟨-, e2⟩ | ⟨-, e2⟩
    · exact ⟨_, e2, rfl, rfl⟩
    · exact ⟨_, e2, rfl, rfl⟩
  exact ⟨ndj, by rw [frame j h1 h2 h3 h4, hj], rfl, rfl⟩

/-- What the links around a node of a link-consistent tree look like: a child
and a parent of the node, and the children of a child, are nodes other than
each other. -/
theorem Linked.around {t : RBTree T} (hl : Linked t) {x c : Nat} {nd : RBNode T}
    (hw : Within t t.root x) (hg : t.get x = some nd)
    (hc : nd.child_l = some c ∨ nd.child_r = some c) :
    ∃ cd, t.get c = some cd ∧ x ≠ c ∧
      (∀ b, cd.child_l = some b ∨ cd.child_r = some b →
        b ≠ x ∧ b ≠ c ∧ ∃ bd, t.get b = some bd) ∧
      (∀ p, nd.parent = some p → p ≠ x ∧ p ≠ c ∧ cd.child_l ≠ some p ∧ cd.child_r ≠ some p ∧
        ∃ pd, t.get p = some pd ∧
          ((pd.child_l = some x ∧ pd.child_r ≠ some x) ∨
            (pd.child_l ≠ some x ∧ pd.child_r = some x))) := by
  obtain ⟨d, hr⟩ := Rank.of_root hw
  have hcr : Rank t c (d + 1) := by
    rcases hc with hc | hc
    · exact Rank.left hr hg hc
    · exact Rank.right hr hg hc
  obtain ⟨cd, hcd⟩ := hcr.get hl
  have hbr : ∀ b, cd.child_l = some b ∨ cd.child_r = some b → Rank t b (d + 2) := by
    rintro b (hb | hb)
    · exact Rank.left hcr hcd hb
    · exact Rank.right hcr hcd hb
  have ne : ∀ {a b i j : Nat}, Rank t a i → Rank t b j → i ≠ j → a ≠ b := by
    intro a b i j ha hb hij e
    subst e
    exact hij (Rank.level_unique hl ha hb)
  refine ⟨cd, hcd, ne hr hcr (by omega), fun b hb => ?_, fun p hp => ?_⟩
  · have hb2 := hbr b hb
    exact ⟨ne hb2 hr (by omega), ne hb2 hcr (by omega), hb2.get hl⟩
  · have hroot : t.root ≠ some x := by
      intro e
      obtain ⟨nd', h1, h2⟩ := hl.root_parent x e
      rw [hg] at h1
      cases h1
      rw [hp] at h2
      cases h2
    obtain ⟨p', pd, e1, e2, e3⟩ := hl.child_of_parent x nd hg hroot
    rw [hp] at e1
    cases e1
    cases d with
    | zero =>
      have := hr.parent_zero hl hg
      rw [hp] at this
      cases this
    | succ d' =>
      obtain ⟨p', pd', f1, f2, f3, -⟩ := hr.parent_succ hl hg
      rw [hp] at f1
      cases f1
      exact ⟨ne f3 hr (by omega), ne f3 hcr (by omega),
        fun e => ne (hbr p (Or.inl e)) f3 (by omega) rfl,
        fun e => ne (hbr p (Or.inr e)) f3 (by omega) rfl, pd, e2, e3⟩

theorem Reachable.links_ok [LinearOrder T] {t : RBTree T} (h : Reachable t) : Linked t := by
  obtain ⟨s, hd⟩ := h.inv
  exact Draws.linked hd.models hd.mem_of_get

theorem sample6_linked : Linked sample6 := sample6_reachable.links_ok

theorem sample6_within_1 : Within sample6 sample6.root 1 :=
  @Within.here _ sample6 1 ⟨2, RBColor.BLACK, some 0, some 3, none⟩ rfl

theorem sample6_within_3 : Within sample6 sample6.root 3 :=
  @Within.right _ sample6 1 3 ⟨2, RBColor.BLACK, some 0, some 3, none⟩ rfl
    (@Within.here _ sample6 3 ⟨4, RBColor.RED, some 2, some 4, some 1⟩ rfl)

/-- C11: in a tree whose links are consistent, for every node `x` reached from the
root, `rotate_left` on `x` and `rotate_right` on `x` each return a tree whose
in-order traversal is the in-order traversal of the tree they were given. -/
theorem rotations_keep_inorder (t : RBTree T) (x : Nat) (hl : Linked t)
    (hx : Within t t.root x) :
    ∃ l, inorder t = some l ∧ (∃ t', rotate_left t x = some t' ∧ inorder t' = some l) ∧
      (∃ t', rotate_right t x = some t' ∧ inorder t' = some l) := by
  obtain ⟨path, c, l, v, r, hm⟩ := hl.node_path hx
  have hg : t.get x = some ⟨v, c, l.ptr, r.ptr, path.hp⟩ := hm.below.1
  refine ⟨_, hm.inorder_path, ?_, ?_⟩
  · cases r with
    | nil =>
      refine ⟨t, ?_, hm.inorder_path⟩
      simp [rotate_left, hg, Shape.ptr]
    | node y cy B w D =>
      obtain ⟨t', e, -, hm'⟩ := rotate_left_models hm
      refine ⟨t', e, ?_⟩
      rw [hm'.inorder_path]
      simp [Shape.inorder]
  · cases l with
    | nil =>
      refine ⟨t, ?_, hm.inorder_path⟩
      simp [rotate_right, hg, Shape.ptr]
    | node y cy A w B =>
      obtain ⟨t', e, -, hm'⟩ := rotate_right_models hm
      refine ⟨t', e, ?_⟩
      rw [hm'.inorder_path]
      simp [Shape.inorder]

/-- Witness of C11: the rotations on the node of 4 in the tree holding 1 to 6. -/
theorem rotations_keep_inorder_witness :
    Linked sample6 ∧ Within sample6 sample6.root 3 ∧
    ∃ l, inorder sample6 = some l ∧
      (∃ t', rotate_left sample6 3 = some t' ∧ inorder t' = some l) ∧
      (∃ t', rotate_right sample6 3 = some t' ∧ inorder t' = some l) :=
  ⟨sample6_linked, sample6_within_3,
    rotations_keep_inorder sample6 3 sample6_linked sample6_within_3⟩

/-- C12: in a tree whose links are consistent, for a node `x` reached from the
root: when the right child `c` of `x` is present, `rotate_left` on `x` returns
the tree in which the former left subtree of `c` is the right subtree of `x`
with its root's parent set to `x`, `c` has the former parent of `x` and is in
the slot that held `x` (or is the root), `x` is the left child of `c` with
parent `c`, and no other link, no color and no payload differs; and the mirror
image for `rotate_right` when the left child is present. -/
theorem rotation_effect (t : RBTree T) (x : Nat) (nd : RBNode T) (hl : Linked t)
    (hx : Within t t.root x) (hg : t.get x = some nd) :
    (∀ c, nd.child_r = some c →
      ∃ t', rotate_left t x = some t' ∧ LeftRotated t x t' ∧ SameData t t') ∧
    (∀ c, nd.child_l = some c →
      ∃ t', rotate_right t x = some t' ∧ RightRotated t x t' ∧ SameData t t') := by
  constructor
  · intro c hc
    obtain ⟨cd, hcd, hxc, hb, hp⟩ := hl.around hx hg (Or.inr hc)
    obtain ⟨t', e, hrot⟩ := rotate_left_effect hg hc hcd hxc (fun b hb' => hb b (Or.inl hb'))
      (fun p hp' => by
        obtain ⟨h1, h2, h3, -, h5⟩ := hp p hp'
        exact ⟨h1, h2, h3, h5⟩)
    exact ⟨t', e, hrot, hrot.same_data⟩
  · intro c hc
    obtain ⟨cd, hcd, hxc, hb, hp⟩ := hl.around hx hg (Or.inl hc)
    obtain ⟨t', e, hrot⟩ := rotate_right_effect hg hc hcd hxc (fun b hb' => hb b (Or.inr hb'))
      (fun p hp' => by
        obtain ⟨h1, h2, -, h4, h5⟩ := hp p hp'
        exact ⟨h1, h2, h4, h5⟩)
    exact ⟨t', e, hrot, hrot.same_data_mirror⟩

/-- Witness of C12: the rotations on the root of the tree holding 1 to 6. -/
theorem rotation_effect_witness :
    Linked sample6 ∧ Within sample6 sample6.root 1 ∧
    sample6.get 1 = some ⟨2, RBColor.BLACK, some 0, some 3, none⟩ ∧
    (∀ c, some 3 = some c →
      ∃ t', rotate_left sample6 1 = some t' ∧ LeftRotated sample6 1 t' ∧ SameData sample6 t') ∧
    (∀ c, some 0 = some c →
      ∃ t', rotate_right sample6 1 = some t' ∧ RightRotated sample6 1 t' ∧
        SameData sample6 t') :=
  ⟨sample6_linked, sample6_within_1, rfl,
    rotation_effect sample6 1 ⟨2, RBColor.BLACK, some 0, some 3, none⟩ sample6_linked
      sample6_within_1 rfl⟩

end RB

/-! Part: Quicksort: reads, swaps, rearrangements and the two scans. -/

namespace Source

theorem wrap32_id {x : Int} (h1 : -2147483648 ≤ x) (h2 : x < 2147483648) : wrap32 x = x := by
  unfold wrap32
  omega

theorem IntVec.read_ok {arr : IntVec} {i : Int} (h0 : 0 ≤ i) (h1 : i < arr.size) :
    arr.read i = some (arr.elems i) := by
  unfold IntVec.read
  rw [if_pos ⟨h0, h1⟩]

theorem IntVec.swap_ok {arr : IntVec} {i j : Int} (hi0 : 0 ≤ i) (hi1 : i < arr.size)
    (hj0 : 0 ≤ j) (hj1 : j < arr.size) :
    ∃ arr', arr.swap i j = some arr' ∧ arr'.size = arr.size ∧
      ∀ k, arr'.elems k = arr.elems (Equiv.swap i j k) := by
  refine ⟨⟨arr.size, fun k => if k = j then arr.elems i else if k = i then arr.elems j
    else arr.elems k⟩, ?_, rfl, fun k => ?_⟩
  · simp [IntVec.swap, IntVec.read, IntVec.write, hi0, hi1, hj0, hj1]
  · simp only [Equiv.swap_apply_def]
    by_cases h1 : k = i
    · subst h1
      by_cases h2 : k = j
      · simp [h2]
      · simp [h2]
    · by_cases h2 : k = j
      · subst h2
        simp [h1]
      · simp [h1, h2]

theorem Rearranged.same (arr : IntVec) (lo hi : Int) : Rearranged arr arr lo hi :=
  ⟨rfl, Equiv.refl _, fun _ _ => rfl, fun _ => rfl⟩

theorem Rearranged.compose {a b c : IntVec} {lo hi lo' hi' : Int} (h1 : Rearranged a b lo hi)
    (h2 : Rearranged b c lo' hi') (hlo : lo ≤ lo') (hhi : hi' ≤ hi) : Rearranged a c lo hi := by
  obtain ⟨s1, σ, hσ, e1⟩ := h1
  obtain ⟨s2, τ, hτ, e2⟩ := h2
  refine ⟨s2.trans s1, τ.trans σ, fun i hi => ?_, fun i => ?_⟩
  · have h3 : τ i = i := hτ i (by omega)
    simp only [Equiv.trans_apply, h3]
    exact hσ i hi
  · rw [e2, e1]
    rfl

theorem Rearranged.of_swap {a b : IntVec} {i j lo hi : Int} (hs : b.size = a.size)
    (he : ∀ k, b.elems k = a.elems (Equiv.swap i j k)) (hi1 : lo ≤ i) (hi2 : i ≤ hi)
    (hj1 : lo ≤ j) (hj2 : j ≤ hi) : Rearranged a b lo hi := by
  refine ⟨hs, Equiv.swap i j, fun k hk => ?_, he⟩
  apply Equiv.swap_apply_of_ne_of_ne <;> omega

theorem Rearranged.outside {a b : IntVec} {lo hi : Int} (h : Rearranged a b lo hi) (i : Int)
    (hi : i < lo ∨ hi < i) : b.elems i = a.elems i := by
  obtain ⟨-, σ, hσ, e⟩ := h
  rw [e, hσ i hi]

/-- A property of all elements at the indices `lo..hi` is kept by a rearrangement. -/
theorem Rearranged.all {a b : IntVec} {lo hi : Int} (h : Rearranged a b lo hi)
    (P : Int → Prop) (hP : ∀ k, lo ≤ k → k ≤ hi → P (a.elems k)) :
    ∀ k, lo ≤ k → k ≤ hi → P (b.elems k) := by
  obtain ⟨-, σ, hσ, e⟩ := h
  intro k h1 h2
  rw [e]
  by_cases hin : lo ≤ σ k ∧ σ k ≤ hi
  · exact hP _ hin.1 hin.2
  · have h3 : σ (σ k) = σ k := hσ _ (by omega)
    have h4 : σ k = k := σ.injective h3
    rw [h4]
    exact hP k h1 h2

theorem scan_left_spec (arr : IntVec) (pivot_val stop : Int) (hs1 : stop < arr.size)
    (hs2 : stop < 2147483647) (hs3 : pivot_val ≤ arr.elems stop) :
    ∀ (fuel : Nat) (from_left : Int), 0 ≤ from_left → from_left ≤ stop →
      stop - from_left < fuel →
      ∃ fl log, scan_left arr pivot_val fuel from_left = some (fl, log) ∧ from_left ≤ fl ∧
        fl ≤ stop ∧ pivot_val ≤ arr.elems fl ∧
        (∀ k, from_left ≤ k → k < fl → arr.elems k < pivot_val) ∧
        ∀ i ∈ log, from_left ≤ i ∧ i ≤ fl
  | 0, from_left, _, h1, h2 => by omega
  | fuel + 1, from_left, h0, h1, h2 => by
    rw [scan_left, IntVec.read_ok h0 (by omega), Option.some_bind]
    by_cases hv : arr.elems from_left < pivot_val
    · rw [if_pos hv]
      have hne : from_left ≠ stop := by
        rintro rfl
        omega
      rw [wrap32_id (by omega) (by omega)]
      obtain ⟨fl, log, e, e1, e2, e3, e4, e5⟩ :=
        scan_left_spec arr pivot_val stop hs1 hs2 hs3 fuel (from_left + 1) (by omega) (by omega)
          (by omega)
      refine ⟨fl, from_left :: log, by rw [e]; rfl, by omega, e2, e3, fun k k1 k2 => ?_,
        fun i hi => ?_⟩
      · by_cases hk : k = from_left
        · rw [hk]; exact hv
        · exact e4 k (by omega) k2
      · rcases List.mem_cons.mp hi with rfl | hi
        · omega
        · have := e5 i hi
          omega
    · rw [if_neg hv]
      exact ⟨from_left, [from_left], rfl, le_refl _, h1, not_lt.mp hv, fun k k1 k2 => by omega,
        fun i hi => by simp at hi; omega⟩

theorem scan_right_spec (arr : IntVec) (pivot_val from_left : Int) (h0 : 0 ≤ from_left) :
    ∀ (fuel : Nat) (from_right : Int), from_left ≤ from_right → from_right < arr.size →
      from_right < 2147483648 → from_right - from_left < fuel →
      ∃ fr log, scan_right arr pivot_val from_left fuel from_right = some (fr, log) ∧
        from_left ≤ fr ∧ fr ≤ from_right ∧
        (∀ k, fr < k → k ≤ from_right → pivot_val ≤ arr.elems k) ∧
        (from_left < fr → arr.elems fr < pivot_val) ∧
        (pivot_val ≤ arr.elems from_right → from_left < from_right → fr < from_right) ∧
        ∀ i ∈ log, fr ≤ i ∧ i ≤ from_right
  | 0, from_right, h1, _, _, h2 => by omega
  | fuel + 1, from_right, h1, h2, h3, h4 => by
    rw [scan_right, IntVec.read_ok (by omega) h2, Option.some_bind]
    by_cases hv : pivot_val ≤ arr.elems from_right ∧ from_left < from_right
    · rw [if_pos hv]
      rw [wrap32_id (by omega) (by omega)]
      obtain ⟨fr, log, e, e1, e2, e3, e4, e5, e6⟩ :=
        scan_right_spec arr pivot_val from_left h0 fuel (from_right - 1) (by omega) (by omega)
          (by omega) (by omega)
      refine ⟨fr, from_right :: log, by rw [e]; rfl, e1, by omega, fun k k1 k2 => ?_, e4,
        fun _ _ => by omega, fun i hi => ?_⟩
      · by_cases hk : k = from_right
        · rw [hk]; exact hv.1
        · exact e3 k k1 (by omega)
      · rcases List.mem_cons.mp hi with rfl | hi
        · omega
        · have := e6 i hi
          omega
    · rw [if_neg hv]
      refine ⟨from_right, [from_right], rfl, h1, le_refl _, fun k k1 k2 => by omega,
        fun hlt => ?_, fun hp hlt => absurd ⟨hp, hlt⟩ hv, fun i hi => by simp at hi; omega⟩
      by_contra hc
      exact hv ⟨not_lt.mp hc, hlt⟩

end Source

/-! Part: Quicksort: the partition loop. -/

namespace Source

theorem partition_loop_spec (pivot_val lo hi : Int) (h0 : 0 ≤ lo) (h31 : hi < 2147483647) :
    ∀ (fuel : Nat) (arr : IntVec) (from_left from_right : Int),
      hi < arr.size → lo ≤ from_left → from_left ≤ from_right → from_right ≤ hi →
      arr.elems hi = pivot_val →
      (∀ k, lo ≤ k → k < from_left → arr.elems k < pivot_val) →
      (∀ k, from_right ≤ k → k ≤ hi → pivot_val ≤ arr.elems k) →
      from_right - from_left < fuel →
      ∃ arr' p log, partition_loop pivot_val fuel arr from_left from_right = some (arr', p, log) ∧
        lo ≤ p ∧ p ≤ hi ∧ arr'.elems hi = pivot_val ∧
        (∀ k, lo ≤ k → k < p → arr'.elems k < pivot_val) ∧
        (∀ k, p ≤ k → k ≤ hi → pivot_val ≤ arr'.elems k) ∧
        Rearranged arr arr' lo hi ∧ ∀ i ∈ log, lo ≤ i ∧ i ≤ hi
  | 0, arr, from_left, from_right, _, _, h2, _, _, _, _, hf => by omega
  | fuel + 1, arr, from_left, from_right, hs, h1, h2, h3, hp, hl, hr, hf => by
    rw [partition_loop]
    by_cases hlt : from_left < from_right
    · rw [if_pos hlt]
      obtain ⟨fl, log1, e1, l1, l2, l3, l4, l5⟩ :=
        scan_left_spec arr pivot_val from_right (by omega) (by omega)
          (hr from_right (le_refl _) h3) (fuel + 1) from_left (by omega) h2 hf
      obtain ⟨fr, log2, e2, r1, r2, r3, r4, r5, r6⟩ :=
        scan_right_spec arr pivot_val fl (by omega) (fuel + 1) from_right l2 (by omega)
          (by omega) (by omega)
      rw [e1, Option.some_bind, e2, Option.some_bind]
      have hleft : ∀ k, lo ≤ k → k < fl → arr.elems k < pivot_val := by
        intro k k1 k2
        by_cases hk : k < from_left
        · exact hl k k1 hk
        · exact l4 k (by omega) k2
      have hright : ∀ k, fr < k → k ≤ hi → pivot_val ≤ arr.elems k := by
        intro k k1 k2
        by_cases hk : k ≤ from_right
        · exact r3 k k1 hk
        · exact hr k (by omega) k2
      by_cases hsw : fl < fr
      · -- the two elements are swapped
        have hfr : arr.elems fr < pivot_val := r4 hsw
        have hfr_hi : fr ≠ hi := by
          rintro rfl
          omega
        have hdec : fr < from_right := r5 (hr from_right (le_refl _) h3) (by omega)
        obtain ⟨arr1, es, ss, se⟩ :=
          @IntVec.swap_ok arr fl fr (by omega) (by omega) (by omega) (by omega)
        simp only [if_pos hsw, es, Option.map_some', Option.some_bind]
        have hsame : ∀ k, k ≠ fl → k ≠ fr → arr1.elems k = arr.elems k := by
          intro k k1 k2
          rw [se, Equiv.swap_apply_of_ne_of_ne k1 k2]
        have hfl1 : arr1.elems fl = arr.elems fr := by rw [se, Equiv.swap_apply_left]
        have hfr1 : arr1.elems fr = arr.elems fl := by rw [se, Equiv.swap_apply_right]
        obtain ⟨arr', p, log, e, p1, p2, p3, p4, p5, p6, p7⟩ :=
          partition_loop_spec pivot_val lo hi h0 h31 fuel arr1 fl fr (by rw [ss]; exact hs)
            (by omega) (by omega) (by omega)
            (by rw [hsame hi (by omega) (Ne.symm hfr_hi)]; exact hp)
            (fun k k1 k2 => by
              rw [hsame k (by omega) (by omega)]
              exact hleft k k1 k2)
            (fun k k1 k2 => by
              by_cases hk : k = fr
              · rw [hk, hfr1]; exact l3
              · rw [hsame k (by omega) hk]
                exact hright k (by omega) k2)
            (by omega)
        refine ⟨arr', p, _, by rw [e]; rfl, p1, p2, p3, p4, p5, ?_, fun i hi => ?_⟩
        · exact (Rearranged.of_swap ss se (by omega) (by omega) (by omega) (by omega)).compose p6
            (le_refl _) (le_refl _)
        · simp only [List.mem_append, List.mem_cons, List.mem_singleton, List.not_mem_nil,
            or_false] at hi
          rcases hi with ((hi | hi) | hi | hi) | hi
          · have := l5 i hi; omega
          · have := r6 i hi; omega
          · omega
          · omega
          · exact p7 i hi
      · -- both scans met: no swap
        have hmeet : fl = fr := by omega
        simp only [if_neg hsw, Option.some_bind]
        obtain ⟨arr', p, log, e, p1, p2, p3, p4, p5, p6, p7⟩ :=
          partition_loop_spec pivot_val lo hi h0 h31 fuel arr fl fr hs (by omega) (by omega)
            (by omega) hp hleft
            (fun k k1 k2 => by
              by_cases hk : k = fr
              · rw [hk, ← hmeet]; exact l3
              · exact hright k (by omega) k2)
            (by omega)
        refine ⟨arr', p, _, by rw [e]; rfl, p1, p2, p3, p4, p5, p6, fun i hi => ?_⟩
        simp only [List.mem_append, List.not_mem_nil, or_false] at hi
        rcases hi with (hi | hi) | hi
        · have := l5 i hi; omega
        · have := r6 i hi; omega
        · exact p7 i hi
    · rw [if_neg hlt]
      have hmeet : from_left = from_right := by omega
      exact ⟨arr, from_left, [], rfl, h1, by omega, hp, hl,
        fun k k1 k2 => hr k (by omega) k2, Rearranged.same _ _ _, fun i hi => by simp at hi⟩

end Source

/-! Part: Quicksort: the recursion. -/

namespace Source

theorem quicksort_spec : ∀ (fuel : Nat) (arr : IntVec) (lo hi : Int),
    0 ≤ lo → hi < arr.size → hi < 2147483647 → lo ≤ hi + 1 → hi - lo + 1 < fuel →
    ∃ arr' log, quicksort fuel arr lo hi = some (arr', log) ∧
      (∀ i j, lo ≤ i → i ≤ j → j ≤ hi → arr'.elems i ≤ arr'.elems j) ∧
      Rearranged arr arr' lo hi ∧ ∀ i ∈ log, lo ≤ i ∧ i ≤ hi
  | 0, arr, lo, hi, _, _, _, h3, hf => by omega
  | fuel + 1, arr, lo, hi, h0, hs, h31, h3, hf => by
    rw [quicksort]
    by_cases hge : lo ≥ hi
    · rw [if_pos hge]
      refine ⟨arr, [], rfl, fun i j i1 i2 i3 => ?_, Rearranged.same _ _ _, fun i hi => by
        simp at hi⟩
      have : i = j := by omega
      rw [this]
    · rw [if_neg hge]
      have hlt : lo < hi := by omega
      rw [IntVec.read_ok (by omega) hs, Option.some_bind]
      obtain ⟨arr1, p, log1, e1, p1, p2, p3, p4, p5, p6, p7⟩ :=
        partition_loop_spec (arr.elems hi) lo hi h0 h31 (fuel + 1) arr lo hi hs (le_refl _)
          (by omega) (le_refl _) rfl (fun k k1 k2 => by omega)
          (fun k k1 k2 => by
            have : k = hi := by omega
            rw [this])
          (by omega)
      rw [e1, Option.some_bind]
      have hs1 : arr1.size = arr.size := p6.1
      obtain ⟨arr2, e2, hs2, se⟩ :=
        @IntVec.swap_ok arr1 hi p (by omega) (by rw [hs1]; exact hs) (by omega)
          (by rw [hs1]; omega)
      simp only [e2, Option.some_bind]
      have r2 : Rearranged arr1 arr2 lo hi :=
        Rearranged.of_swap hs2 se (by omega) (le_refl _) p1 p2
      -- the partition with the pivot in place
      have hpiv : arr2.elems p = arr.elems hi := by rw [se, Equiv.swap_apply_right, p3]
      have hlow : ∀ k, lo ≤ k → k ≤ p - 1 → arr2.elems k < arr.elems hi := by
        intro k k1 k2
        rw [se, Equiv.swap_apply_of_ne_of_ne (by omega) (by omega)]
        exact p4 k k1 (by omega)
      have hhigh : ∀ k, p + 1 ≤ k → k ≤ hi → arr.elems hi ≤ arr2.elems k := by
        intro k k1 k2
        by_cases hk : k = hi
        · rw [hk, se, Equiv.swap_apply_left]
          exact p5 p (le_refl _) p2
        · rw [se, Equiv.swap_apply_of_ne_of_ne hk (by omega)]
          exact p5 k (by omega) k2
      rw [wrap32_id (by omega) (by omega), wrap32_id (by omega) (by omega)]
      obtain ⟨arr3, log3, e3, s3, r3, l3⟩ :=
        quicksort_spec fuel arr2 lo (p - 1) h0 (by rw [hs2, hs1]; omega) (by omega) (by omega)
          (by omega)
      rw [e3, Option.some_bind]
      obtain ⟨arr4, log4, e4, s4, r4, l4⟩ :=
        quicksort_spec fuel arr3 (p + 1) hi (by omega) (by rw [r3.1, hs2, hs1]; exact hs) h31
          (by omega) (by omega)
      simp only [e4, Option.some_bind]
      refine ⟨arr4, _, rfl, ?_, ?_, fun i hm => ?_⟩
      · -- sorted
        have low3 := r3.all (fun v => v < arr.elems hi) hlow
        have piv3 : arr3.elems p = arr.elems hi := by
          rw [r3.outside p (by omega), hpiv]
        have high3 : ∀ k, p + 1 ≤ k → k ≤ hi → arr.elems hi ≤ arr3.elems k := by
          intro k k1 k2
          rw [r3.outside k (by omega)]
          exact hhigh k k1 k2
        have high4 := r4.all (fun v => arr.elems hi ≤ v) high3
        have piv4 : arr4.elems p = arr.elems hi := by
          rw [r4.outside p (by omega), piv3]
        have low4 : ∀ k, lo ≤ k → k ≤ p - 1 → arr4.elems k = arr3.elems k :=
          fun k _ k2 => r4.outside k (by omega)
        intro i j i1 i2 i3
        by_cases hj : j ≤ p - 1
        · rw [low4 i i1 (by omega), low4 j (by omega) hj]
          exact s3 i j i1 i2 hj
        by_cases hi' : p + 1 ≤ i
        · exact s4 i j hi' i2 i3
        have hjv : arr.elems hi ≤ arr4.elems j := by
          by_cases hjp : j = p
          · rw [hjp, piv4]
          · exact high4 j (by omega) i3
        have hiv : arr4.elems i ≤ arr.elems hi := by
          by_cases hip : i = p
          · rw [hip, piv4]
          · rw [low4 i i1 (by omega)]
            exact le_of_lt (low3 i i1 (by omega))
        exact le_trans hiv hjv
      · exact ((p6.compose r2 (le_refl _) (le_refl _)).compose r3 (le_refl _) (by omega)).compose r4
          (by omega) (le_refl _)
      · simp only [List.mem_append, List.mem_cons, List.mem_singleton, List.cons_append,
          List.nil_append] at hm
        rcases hm with hm | ((hm | hm | hm | hm) | hm) | hm
        · omega
        · exact p7 i hm
        · omega
        · omega
        · simp at hm
        · have := l3 i hm; omega
        · have := l4 i hm; omega

end Source

/-! Part: Quicksort: the overflow at the last index, and sorting below it. -/

namespace Source

/-- C20: the code breaks the claim on a vector of 2^31 elements with
`left = 2^31 - 2` and `right = 2^31 - 1`, indices that satisfy `0 ≤ left` and
`right < arr.size()`: the pivot stays last, `from_left + 1` overflows and wraps
to `-2^31`, so the call `quicksort( arr, from_left + 1, right )` misses the base
case `left >= right` and reads `arr[-2^31]`, outside the vector.  `quicksort`
returns no result, whatever the fuel. -/
theorem quicksort_overflow :
    (0 : Int) ≤ 2147483646 ∧ (2147483647 : Int) < overflow_vec.size ∧
    wrap32 (2147483647 + 1) = -2147483648 ∧ overflow_vec.read (-2147483648) = none ∧
    ∀ fuel, quicksort fuel overflow_vec 2147483646 2147483647 = none := by
  refine ⟨by decide, by decide, by decide, by decide, fun fuel => ?_⟩
  rcases fuel with _ | _ | _ | f
  · rfl
  · rfl
  · rfl
  · rfl

/-- Away from the overflow the code sorts: for every vector `arr` and indices with
`0 ≤ left`, `right < arr.size()` and `right < 2^31 - 1`,
`quicksort(arr, left, right)` returns (with any fuel above the size), every
index it accesses is in `left..right`, and afterwards the elements at
`left..right` are in non-decreasing order and are a rearrangement of the
former ones, the elements outside `left..right` are unchanged, and when
`left ≥ right` the vector is unchanged. -/
theorem quicksort_sorts (arr : IntVec) (left right : Int) (fuel : Nat) (h0 : 0 ≤ left)
    (h1 : right < arr.size) (h2 : right < 2147483647) (hf : arr.size < fuel) :
    ∃ arr' log, quicksort fuel arr left right = some (arr', log) ∧
      (∀ i ∈ log, left ≤ i ∧ i ≤ right) ∧
      (∀ i j, left ≤ i → i ≤ j → j ≤ right → arr'.elems i ≤ arr'.elems j) ∧
      Rearranged arr arr' left right ∧
      (∀ i, i < left ∨ right < i → arr'.elems i = arr.elems i) ∧
      (left ≥ right → arr' = arr) := by
  by_cases hge : left ≥ right
  · obtain ⟨f, rfl⟩ : ∃ f, fuel = f + 1 := ⟨fuel - 1, by omega⟩
    refine ⟨arr, [], by rw [quicksort, if_pos hge], fun i hi => by simp at hi,
      fun i j i1 i2 i3 => ?_, Rearranged.same _ _ _, fun _ _ => rfl, fun _ => rfl⟩
    have : i = j := by omega
    rw [this]
  · obtain ⟨arr', log, e, s, r, l⟩ :=
      quicksort_spec fuel arr left right h0 h1 h2 (by omega) (by omega)
    exact ⟨arr', log, e, l, s, r, r.outside, fun h => absurd h hge⟩

/-- Instance of `quicksort_sorts`: sorting the vector 3, 1, 2 from index 0 to index 2. -/
theorem quicksort_sorts_witness :
    (0 : Int) ≤ 0 ∧ (2 : Int) < sample_vec.size ∧ (2 : Int) < 2147483647 ∧
    sample_vec.size < 4 ∧
    ∃ arr' log, quicksort 4 sample_vec 0 2 = some (arr', log) ∧
      (∀ i ∈ log, 0 ≤ i ∧ i ≤ 2) ∧
      (∀ i j, 0 ≤ i → i ≤ j → j ≤ 2 → arr'.elems i ≤ arr'.elems j) ∧
      Rearranged sample_vec arr' 0 2 ∧
      (∀ i, i < 0 ∨ 2 < i → arr'.elems i = sample_vec.elems i) ∧
      ((0 : Int) ≥ 2 → arr' = sample_vec) :=
  ⟨by decide, by decide, by decide, by decide,
    quicksort_sorts sample_vec 0 2 4 (by decide) (by decide) (by decide) (by decide)⟩

end Source
